import Mathlib

/-!
# fishhook: rebinding of Mach-O symbol pointers

A shallow embedding of `fishhook/fishhook.c`.

* Machine integers are natural numbers.  The loop counters declared `uint` are
  32 bits wide and wrap modulo `2 ^ 32`; a loop that may therefore run for ever
  is given a fuel argument and returns `none` when the fuel is used up.
* `lp64` chooses between the two builds of the file (`#ifdef __LP64__`).
* The link-edit tables (indirect symbol table, symbol table, string table) are
  read-only memory, read through the address the code computes.
* The pointer array of a section, `(void **)(slide + section->addr)`, is kept
  with the section it belongs to; the cells that `replaced` pointers refer to
  form a store of their own, together with the list of the writes made to it.
-/

namespace Fishhook

/-! ## Constants of the platform headers -/

/-- Value of `LC_SEGMENT` in `<mach-o/loader.h>`. -/
def LC_SEGMENT : Nat := 0x1

/-- Value of `LC_SYMTAB` in `<mach-o/loader.h>`. -/
def LC_SYMTAB : Nat := 0x2

/-- Value of `LC_DYSYMTAB` in `<mach-o/loader.h>`. -/
def LC_DYSYMTAB : Nat := 0xb

/-- Value of `LC_SEGMENT_64` in `<mach-o/loader.h>`. -/
def LC_SEGMENT_64 : Nat := 0x19

/-- Value of `INDIRECT_SYMBOL_LOCAL` in `<mach-o/loader.h>`. -/
def INDIRECT_SYMBOL_LOCAL : Nat := 0x80000000

/-- Value of `INDIRECT_SYMBOL_ABS` in `<mach-o/loader.h>`. -/
def INDIRECT_SYMBOL_ABS : Nat := 0x40000000

/-- Value of `SECTION_TYPE` in `<mach-o/loader.h>`. -/
def SECTION_TYPE : Nat := 0x000000ff

/-- Value of `S_NON_LAZY_SYMBOL_POINTERS` in `<mach-o/loader.h>`. -/
def S_NON_LAZY_SYMBOL_POINTERS : Nat := 0x6

/-- Value of `S_LAZY_SYMBOL_POINTERS` in `<mach-o/loader.h>`. -/
def S_LAZY_SYMBOL_POINTERS : Nat := 0x7

/-- The bytes of `SEG_LINKEDIT`, the string `__LINKEDIT`. -/
def SEG_LINKEDIT : List Nat := [95, 95, 76, 73, 78, 75, 69, 68, 73, 84]

/-- The bytes of `SEG_DATA`, the string `__DATA`. -/
def SEG_DATA : List Nat := [95, 95, 68, 65, 84, 65]

/-- The bytes of `SEG_DATA_CONST`, the string `__DATA_CONST` (line 52). -/
def SEG_DATA_CONST : List Nat := [95, 95, 68, 65, 84, 65, 95, 67, 79, 78, 83, 84]

/-- Number of values of a `uint` counter: `uint` is a 32-bit `unsigned int`. -/
def UINT_RANGE : Nat := 2 ^ 32

/-- Value of `sizeof(void *)`. -/
def sizeof_ptr (lp64 : Bool) : Nat := if lp64 then 8 else 4

/-- Value of `sizeof(nlist_t)`: `struct nlist_64` or `struct nlist`. -/
def sizeof_nlist (lp64 : Bool) : Nat := if lp64 then 16 else 12

/-- Number of values of a `uintptr_t`. -/
def UINTPTR_RANGE (lp64 : Bool) : Nat := 2 ^ (8 * sizeof_ptr lp64)

/-- The macro `LC_SEGMENT_ARCH_DEPENDENT` (lines 42 and 48). -/
def LC_SEGMENT_ARCH_DEPENDENT (lp64 : Bool) : Nat :=
  if lp64 then LC_SEGMENT_64 else LC_SEGMENT

/-! ## Data model -/

/-- Modelled from the spec: `struct rebinding` is declared in `fishhook.h`, which is
not among the sources; the spec's Substitution Request, with the field names
`fishhook.c` uses.  `name` holds the bytes `name` points to (a byte `0`, or the
end of the list, ends the string); `replaced` is `none` for `NULL` and `some c`
for the address of cell `c`. -/
structure rebinding where
  name : List Nat
  replacement : Nat
  replaced : Option Nat
deriving DecidableEq, Repr

instance : Inhabited rebinding := ⟨⟨[], 0, none⟩⟩

/-- The `struct rebindings_entry` (lines 56-63); the field `next` is the rest of
the list the entry stands in. -/
structure rebindings_entry where
  rebindings : List rebinding
  rebindings_nel : Nat
deriving DecidableEq, Repr

/-- The fields of `nlist_t`. -/
structure nlist_t where
  n_strx : Nat
  n_type : Nat := 0
  n_sect : Nat := 0
  n_desc : Nat := 0
  n_value : Nat := 0

/-- Read-only memory of the link-edit tables: the `uint32_t` stored at an
address, the `nlist_t` stored at an address, and the bytes stored from an address
on (up to the terminating `0`; what lies past the end of the list reads as `0`). -/
structure linkedit_memory where
  u32_at : Nat → Nat
  nlist_at : Nat → nlist_t
  bytes_at : Nat → List Nat

/-- The fields of `section_t` the code reads, and the pointer array
`indirect_symbol_bindings` that lies at `slide + addr`. -/
structure section_t where
  sectname : List Nat := []
  segname : List Nat := []
  addr : Nat := 0
  size : Nat
  flags : Nat
  reserved1 : Nat
  indirect_symbol_bindings : Nat → Nat

/-- A load command, read through whichever of `segment_command_t`,
`struct symtab_command` and `struct dysymtab_command` its `cmd` asks for; `sects`
are the `nsects` sections that follow a segment command. -/
structure load_command where
  cmd : Nat
  segname : List Nat := []
  vmaddr : Nat := 0
  fileoff : Nat := 0
  sects : List section_t := []
  symoff : Nat := 0
  stroff : Nat := 0
  indirectsymoff : Nat := 0
  nindirectsyms : Nat := 0

/-- An image: whether `dladdr` knows its header, its `ncmds` load commands, and
the memory of its tables. -/
structure mach_header_t where
  known : Bool
  cmds : List load_command
  mem : linkedit_memory

/-- One execution of line 200, `*(cur->rebindings[j].replaced) = indirect_symbol_bindings[i]`:
the slot index `i` at which it happened, the cell written and the value written. -/
structure capture_write where
  slot : Nat
  cell : Nat
  value : Nat
deriving DecidableEq, Repr

/-- The memory reached through `replaced` pointers: the value of every cell, and
the writes made to it so far, oldest first. -/
structure captured where
  cells : Nat → Nat
  log : List capture_write

/-- The memory the engine writes while it works on one section. -/
structure engine_state where
  indirect_symbol_bindings : Nat → Nat
  cap : captured

/-- The assignment `*(replaced) = v` made for slot `i`, where `replaced` is the
address of cell `c`. -/
def write_replaced (cap : captured) (i c v : Nat) : captured :=
  { cells := fun k => if k = c then v else cap.cells k
    log := cap.log ++ [⟨i, c, v⟩] }

/-- The assignment `indirect_symbol_bindings[i] = v`. -/
def write_binding (st : engine_state) (i v : Nat) : engine_state :=
  { st with
    indirect_symbol_bindings :=
      fun k => if k = i then v else st.indirect_symbol_bindings k }

/-! ## Strings -/

/-- The library function `strcmp` on two byte sequences. -/
def strcmp : List Nat → List Nat → Int
  | [], [] => 0
  | [], b :: _ => -(b : Int)
  | a :: _, [] => (a : Int)
  | a :: s1, b :: s2 =>
    if a = b then (if a = 0 then 0 else strcmp s1 s2) else (a : Int) - (b : Int)

/-- The C string a byte sequence holds: the bytes before the first `0`. -/
def cstr (s : List Nat) : List Nat := s.takeWhile (fun b => b != 0)

/-- Line 172: `symbol_name[0] && symbol_name[1]`. -/
def symbol_name_longer_than_1 (symbol_name : List Nat) : Bool :=
  symbol_name.getD 0 0 != 0 && symbol_name.getD 1 0 != 0

/-! ## The engine: `perform_rebinding_with_section` -/

/-- Lines 182-222, the loop `for (uint j = 0; j < cur->rebindings_nel; j++)`.
The result says whether the loop left through `goto symbol_loop`. -/
def rebindings_loop (symbol_name : List Nat) (i : Nat) (cur : rebindings_entry) :
    Nat → Nat → engine_state → Option (engine_state × Bool)
  | 0, _, _ => none
  | fuel + 1, j, st =>
    if j < cur.rebindings_nel then
      let r := cur.rebindings.getD j default
      if symbol_name_longer_than_1 symbol_name &&
          strcmp (symbol_name.drop 1) r.name == 0 then
        let st1 : engine_state :=
          match r.replaced with
          | some c =>
            if st.indirect_symbol_bindings i ≠ r.replacement then
              { st with cap := write_replaced st.cap i c (st.indirect_symbol_bindings i) }
            else st
          | none => st
        some (write_binding st1 i r.replacement, true)
      else rebindings_loop symbol_name i cur fuel ((j + 1) % UINT_RANGE) st
    else some (st, false)

/-- Lines 180-225, the loop `while (cur)` over the chain. -/
def chain_loop (symbol_name : List Nat) (i : Nat) (fuel : Nat) :
    List rebindings_entry → engine_state → Option engine_state
  | [], st => some st
  | cur :: next, st =>
    match rebindings_loop symbol_name i cur fuel 0 st with
    | none => none
    | some (st1, true) => some st1
    | some (st1, false) => chain_loop symbol_name i fuel next st1

/-- Lines 136-137: the test that skips a slot. -/
def is_skipped (symtab_index : Nat) : Bool :=
  symtab_index == INDIRECT_SYMBOL_ABS || symtab_index == INDIRECT_SYMBOL_LOCAL ||
    symtab_index == (INDIRECT_SYMBOL_LOCAL ||| INDIRECT_SYMBOL_ABS)

/-- Line 134: `indirect_symbol_indices[i]`, with
`indirect_symbol_indices = indirect_symtab + section->reserved1`. -/
def symtab_index_of (mem : linkedit_memory) (indirect_symtab reserved1 i : Nat) : Nat :=
  mem.u32_at (indirect_symtab + 4 * (reserved1 + i)) % 2 ^ 32

/-- Lines 156-159: the bytes at `strtab + symtab[symtab_index].n_un.n_strx`. -/
def symbol_name_of (lp64 : Bool) (mem : linkedit_memory) (symtab strtab symtab_index : Nat) :
    List Nat :=
  mem.bytes_at
    (strtab + (mem.nlist_at (symtab + sizeof_nlist lp64 * symtab_index)).n_strx % 2 ^ 32)

/-- Lines 132-227, the loop `for (uint i = 0; i < section->size / sizeof(void *); i++)`;
`n` is the fuel handed to each run of the inner loops. -/
def symbol_loop (lp64 : Bool) (n : Nat) (rebindings : List rebindings_entry)
    (size reserved1 : Nat) (symtab strtab indirect_symtab : Nat) (mem : linkedit_memory) :
    Nat → Nat → engine_state → Option engine_state
  | 0, _, _ => none
  | fuel + 1, i, st =>
    if i < size / sizeof_ptr lp64 then
      let symtab_index := symtab_index_of mem indirect_symtab reserved1 i
      if is_skipped symtab_index then
        symbol_loop lp64 n rebindings size reserved1 symtab strtab indirect_symtab mem fuel
          ((i + 1) % UINT_RANGE) st
      else
        match chain_loop (symbol_name_of lp64 mem symtab strtab symtab_index) i n
            rebindings st with
        | none => none
        | some st1 =>
          symbol_loop lp64 n rebindings size reserved1 symtab strtab indirect_symtab mem fuel
            ((i + 1) % UINT_RANGE) st1
    else some st

/-- Lines 109-228, `perform_rebinding_with_section`: the section with its pointer
array after the call, and the memory behind the `replaced` pointers.  `none`: the
fuel did not suffice.  The slide only locates the pointer array, which is `sect`'s. -/
def perform_rebinding_with_section (lp64 : Bool) (fuel : Nat)
    (rebindings : List rebindings_entry) (sect : section_t) (_slide : Int)
    (symtab strtab indirect_symtab : Nat) (mem : linkedit_memory) (cap : captured) :
    Option (section_t × captured) :=
  match symbol_loop lp64 fuel rebindings sect.size sect.reserved1 symtab strtab
      indirect_symtab mem fuel 0 ⟨sect.indirect_symbol_bindings, cap⟩ with
  | none => none
  | some st => some ({ sect with indirect_symbol_bindings := st.indirect_symbol_bindings }, st.cap)

/-! ## The resolver: `rebind_symbols_for_image` -/

/-- The three pointers the first walk over the load commands sets (lines 248-250). -/
structure found_commands where
  linkedit_segment : Option load_command
  symtab_cmd : Option load_command
  dysymtab_cmd : Option load_command

/-- Lines 275-291: the body of the first loop over the load commands. -/
def find_commands_step (lp64 : Bool) (acc : found_commands) (cur_seg_cmd : load_command) :
    found_commands :=
  if cur_seg_cmd.cmd = LC_SEGMENT_ARCH_DEPENDENT lp64 then
    if strcmp cur_seg_cmd.segname SEG_LINKEDIT = 0 then
      { acc with linkedit_segment := some cur_seg_cmd }
    else acc
  else if cur_seg_cmd.cmd = LC_SYMTAB then
    { acc with symtab_cmd := some cur_seg_cmd }
  else if cur_seg_cmd.cmd = LC_DYSYMTAB then
    { acc with dysymtab_cmd := some cur_seg_cmd }
  else acc

/-- Lines 273-293: the first loop over the load commands. -/
def find_commands (lp64 : Bool) (cmds : List load_command) : found_commands :=
  cmds.foldl (find_commands_step lp64) ⟨none, none, none⟩

/-- Line 306: `(uintptr_t)slide + linkedit_segment->vmaddr - linkedit_segment->fileoff`. -/
def linkedit_base (lp64 : Bool) (slide : Int) (linkedit_segment : load_command) : Nat :=
  ((slide + (linkedit_segment.vmaddr : Int) - (linkedit_segment.fileoff : Int))
    % (UINTPTR_RANGE lp64 : Int)).toNat

/-- Lines 309-316: `linkedit_base + off`, as a `uintptr_t`. -/
def table_address (lp64 : Bool) (base off : Nat) : Nat :=
  (base + off) % UINTPTR_RANGE lp64

/-- Lines 335-369: the loop over the sections of one segment command. -/
def rebind_sections (lp64 : Bool) (fuel : Nat) (rebindings : List rebindings_entry)
    (slide : Int) (symtab strtab indirect_symtab : Nat) (mem : linkedit_memory) :
    List section_t → captured → Option (List section_t × captured)
  | [], cap => some ([], cap)
  | sect :: rest, cap =>
    match (if sect.flags &&& SECTION_TYPE = S_LAZY_SYMBOL_POINTERS then
        perform_rebinding_with_section lp64 fuel rebindings sect slide symtab strtab
          indirect_symtab mem cap
      else some (sect, cap)) with
    | none => none
    | some (sect1, cap1) =>
      match (if sect1.flags &&& SECTION_TYPE = S_NON_LAZY_SYMBOL_POINTERS then
          perform_rebinding_with_section lp64 fuel rebindings sect1 slide symtab strtab
            indirect_symtab mem cap1
        else some (sect1, cap1)) with
      | none => none
      | some (sect2, cap2) =>
        match rebind_sections lp64 fuel rebindings slide symtab strtab indirect_symtab mem
            rest cap2 with
        | none => none
        | some (rest1, cap3) => some (sect2 :: rest1, cap3)

/-- Lines 322-371: the second loop over the load commands. -/
def rebind_commands (lp64 : Bool) (fuel : Nat) (rebindings : List rebindings_entry)
    (slide : Int) (symtab strtab indirect_symtab : Nat) (mem : linkedit_memory) :
    List load_command → captured → Option (List load_command × captured)
  | [], cap => some ([], cap)
  | cur_seg_cmd :: rest, cap =>
    if cur_seg_cmd.cmd = LC_SEGMENT_ARCH_DEPENDENT lp64 then
      if strcmp cur_seg_cmd.segname SEG_DATA ≠ 0 ∧
          strcmp cur_seg_cmd.segname SEG_DATA_CONST ≠ 0 then
        match rebind_commands lp64 fuel rebindings slide symtab strtab indirect_symtab mem
            rest cap with
        | none => none
        | some (rest1, cap1) => some (cur_seg_cmd :: rest1, cap1)
      else
        match rebind_sections lp64 fuel rebindings slide symtab strtab indirect_symtab mem
            cur_seg_cmd.sects cap with
        | none => none
        | some (sects1, cap1) =>
          match rebind_commands lp64 fuel rebindings slide symtab strtab indirect_symtab mem
              rest cap1 with
          | none => none
          | some (rest1, cap2) => some ({ cur_seg_cmd with sects := sects1 } :: rest1, cap2)
    else
      match rebind_commands lp64 fuel rebindings slide symtab strtab indirect_symtab mem
          rest cap with
      | none => none
      | some (rest1, cap1) => some (cur_seg_cmd :: rest1, cap1)

/-- The addresses of the three tables (lines 309-316). -/
structure table_addresses where
  symtab : Nat
  strtab : Nat
  indirect_symtab : Nat
deriving DecidableEq, Repr

/-- Lines 242-316: the checks that make `rebind_symbols_for_image` return early
(`none`), and the addresses of the tables of an image that passes them. -/
def image_tables (lp64 : Bool) (header : mach_header_t) (slide : Int) : Option table_addresses :=
  if header.known = false then none
  else
    match (find_commands lp64 header.cmds).symtab_cmd,
        (find_commands lp64 header.cmds).dysymtab_cmd,
        (find_commands lp64 header.cmds).linkedit_segment with
    | some symtab_cmd, some dysymtab_cmd, some linkedit_segment =>
      if dysymtab_cmd.nindirectsyms = 0 then none
      else some
        { symtab := table_address lp64 (linkedit_base lp64 slide linkedit_segment) symtab_cmd.symoff
          strtab := table_address lp64 (linkedit_base lp64 slide linkedit_segment) symtab_cmd.stroff
          indirect_symtab := table_address lp64 (linkedit_base lp64 slide linkedit_segment)
            dysymtab_cmd.indirectsymoff }
    | _, _, _ => none

/-- Lines 235-372, `rebind_symbols_for_image`: the image and the memory behind the
`replaced` pointers after the call.  The `printf` of line 239 is left out. -/
def rebind_symbols_for_image (lp64 : Bool) (fuel : Nat) (rebindings : List rebindings_entry)
    (header : mach_header_t) (slide : Int) (cap : captured) :
    Option (mach_header_t × captured) :=
  match image_tables lp64 header slide with
  | none => some (header, cap)
  | some t =>
    match rebind_commands lp64 fuel rebindings slide t.symtab t.strtab t.indirect_symtab
        header.mem header.cmds cap with
    | none => none
    | some (cmds1, cap1) => some ({ header with cmds := cmds1 }, cap1)

/-! ## The registry and the entry points -/

/-- Lines 67-93, `prepend_rebindings`; the two booleans say whether the first and
the second `malloc` succeed.  The result is the return value and the chain
`*rebindings_head` after the call. -/
def prepend_rebindings (malloc_entry malloc_rebindings : Bool)
    (rebindings_head : List rebindings_entry) (rebindings : List rebinding) (nel : Nat) :
    Int × List rebindings_entry :=
  if malloc_entry = false then (-1, rebindings_head)
  else if malloc_rebindings = false then (-1, rebindings_head)
  else (0, { rebindings := rebindings.take nel, rebindings_nel := nel } :: rebindings_head)

/-- The process: the global `_rebindings_head` (line 65), the images the loader has
loaded, in the order of their indices, each with its slide, how many times a
callback for added images was registered, and the memory behind the `replaced`
pointers. -/
structure process where
  _rebindings_head : List rebindings_entry
  images : List (mach_header_t × Int)
  add_image_callbacks : Nat
  cap : captured

/-- Calls of `_rebind_symbols_for_image` (lines 374-382) on each image of a list in
turn, as the loop of lines 431-433 makes them, and as the loader makes them for the
images that exist when a callback is registered. -/
def rebind_images (lp64 : Bool) (fuel : Nat) (rebindings : List rebindings_entry) :
    List (mach_header_t × Int) → captured → Option (List (mach_header_t × Int) × captured)
  | [], cap => some ([], cap)
  | (header, slide) :: rest, cap =>
    match rebind_symbols_for_image lp64 fuel rebindings header slide cap with
    | none => none
    | some (header1, cap1) =>
      match rebind_images lp64 fuel rebindings rest cap1 with
      | none => none
      | some (rest1, cap2) => some ((header1, slide) :: rest1, cap2)

/-- The loader's `_dyld_register_func_for_add_image` with the callback
`_rebind_symbols_for_image`, after the description quoted at lines 417-421: the
callback is called for every existing image, and is kept for the images to come. -/
def _dyld_register_func_for_add_image (lp64 : Bool) (fuel : Nat) (p : process) :
    Option process :=
  match rebind_images lp64 fuel p._rebindings_head p.images p.cap with
  | none => none
  | some (images1, cap1) =>
    some { p with images := images1, cap := cap1,
                  add_image_callbacks := p.add_image_callbacks + 1 }

/-- Lines 401-436, `rebind_symbols`: the return value and the process after the
call. -/
def rebind_symbols (lp64 : Bool) (fuel : Nat) (malloc_entry malloc_rebindings : Bool)
    (p : process) (rebindings : List rebinding) (rebindings_nel : Nat) :
    Option (Int × process) :=
  let r := prepend_rebindings malloc_entry malloc_rebindings p._rebindings_head
    rebindings rebindings_nel
  if r.1 < 0 then some (r.1, p)
  else
    if r.2.tail = [] then
      match _dyld_register_func_for_add_image lp64 fuel { p with _rebindings_head := r.2 } with
      | none => none
      | some p1 => some (r.1, p1)
    else
      match rebind_images lp64 fuel r.2 p.images p.cap with
      | none => none
      | some (images1, cap1) =>
        some (r.1, { p with _rebindings_head := r.2, images := images1, cap := cap1 })

/-- Lines 384-399, `rebind_symbols_image`; `header` is the index of an image of the
process, and an address that is no such index is one `dladdr` does not know. -/
def rebind_symbols_image (lp64 : Bool) (fuel : Nat) (malloc_entry malloc_rebindings : Bool)
    (p : process) (header : Nat) (slide : Int) (rebindings : List rebinding)
    (rebindings_nel : Nat) : Option (Int × process) :=
  let r := prepend_rebindings malloc_entry malloc_rebindings [] rebindings rebindings_nel
  match p.images[header]? with
  | none => some (r.1, p)
  | some (h, s) =>
    match rebind_symbols_for_image lp64 fuel r.2 h slide p.cap with
    | none => none
    | some (h1, cap1) =>
      some (r.1, { p with images := p.images.set header (h1, s), cap := cap1 })

/-! ## Reference definitions: what a run computes -/

/-- The test of lines 192-193 for one request. -/
def rebinding_matches (symbol_name : List Nat) (r : rebinding) : Bool :=
  symbol_name_longer_than_1 symbol_name && strcmp (symbol_name.drop 1) r.name == 0

/-- Lines 196-217 for the request `r` that matched at slot `i`. -/
def apply_rebinding (i : Nat) (r : rebinding) (st : engine_state) : engine_state :=
  write_binding
    (match r.replaced with
      | some c =>
        if st.indirect_symbol_bindings i ≠ r.replacement then
          { st with cap := write_replaced st.cap i c (st.indirect_symbol_bindings i) }
        else st
      | none => st)
    i r.replacement

/-- The first matching request among the `k` requests of an entry from index `j` on. -/
def entry_lookup_from (symbol_name : List Nat) (cur : rebindings_entry) :
    Nat → Nat → Option rebinding
  | 0, _ => none
  | k + 1, j =>
    if rebinding_matches symbol_name (cur.rebindings.getD j default) then
      some (cur.rebindings.getD j default)
    else entry_lookup_from symbol_name cur k (j + 1)

/-- The first matching request of an entry, by increasing index. -/
def entry_lookup (symbol_name : List Nat) (cur : rebindings_entry) : Option rebinding :=
  entry_lookup_from symbol_name cur cur.rebindings_nel 0

/-- The first matching request of a chain: entries from the head on, requests by
increasing index within an entry. -/
def chain_lookup (symbol_name : List Nat) : List rebindings_entry → Option rebinding
  | [] => none
  | cur :: next =>
    match entry_lookup symbol_name cur with
    | some r => some r
    | none => chain_lookup symbol_name next

/-- The state after the loop over the chain, from the first matching request. -/
def chain_apply (symbol_name : List Nat) (i : Nat) (rebindings : List rebindings_entry)
    (st : engine_state) : engine_state :=
  match chain_lookup symbol_name rebindings with
  | some r => apply_rebinding i r st
  | none => st

/-- The name slot `i` of a section resolves to: `none` for a slot that is skipped. -/
def slot_symbol (lp64 : Bool) (mem : linkedit_memory) (t : table_addresses)
    (reserved1 i : Nat) : Option (List Nat) :=
  if is_skipped (symtab_index_of mem t.indirect_symtab reserved1 i) then none
  else some (symbol_name_of lp64 mem t.symtab t.strtab
    (symtab_index_of mem t.indirect_symtab reserved1 i))

/-- The request applied to slot `i`, if any. -/
def slot_lookup (lp64 : Bool) (rebindings : List rebindings_entry) (mem : linkedit_memory)
    (t : table_addresses) (reserved1 i : Nat) : Option rebinding :=
  match slot_symbol lp64 mem t reserved1 i with
  | none => none
  | some symbol_name => chain_lookup symbol_name rebindings

/-- The state after the body of the loop over the slots has run for slot `i`. -/
def slot_step (lp64 : Bool) (rebindings : List rebindings_entry) (mem : linkedit_memory)
    (t : table_addresses) (reserved1 i : Nat) (st : engine_state) : engine_state :=
  match slot_symbol lp64 mem t reserved1 i with
  | none => st
  | some symbol_name => chain_apply symbol_name i rebindings st

/-- The value of slot `i` after the engine has passed it, from its value `v` before. -/
def binding_after (lp64 : Bool) (rebindings : List rebindings_entry) (mem : linkedit_memory)
    (t : table_addresses) (reserved1 i v : Nat) : Nat :=
  match slot_lookup lp64 rebindings mem t reserved1 i with
  | some r => r.replacement
  | none => v

/-- The write through `replaced` the engine makes at slot `i`, whose value is `v`. -/
def slot_writes (lp64 : Bool) (rebindings : List rebindings_entry) (mem : linkedit_memory)
    (t : table_addresses) (reserved1 i v : Nat) : List capture_write :=
  match slot_lookup lp64 rebindings mem t reserved1 i with
  | some r =>
    match r.replaced with
    | some c => if v ≠ r.replacement then [⟨i, c, v⟩] else []
    | none => []
  | none => []

/-- A list of writes through `replaced` pointers, made in order. -/
def apply_writes (cap : captured) (ws : List capture_write) : captured :=
  ws.foldl (fun cap w => write_replaced cap w.slot w.cell w.value) cap

/-- The state after the engine has passed the slots below `count`. -/
def engine_after (lp64 : Bool) (rebindings : List rebindings_entry) (mem : linkedit_memory)
    (t : table_addresses) (reserved1 count : Nat) (st : engine_state) : engine_state :=
  { indirect_symbol_bindings := fun k =>
      if k < count then
        binding_after lp64 rebindings mem t reserved1 k (st.indirect_symbol_bindings k)
      else st.indirect_symbol_bindings k
    cap := apply_writes st.cap ((List.range count).flatMap fun i =>
      slot_writes lp64 rebindings mem t reserved1 i (st.indirect_symbol_bindings i)) }

/-- The number of slots of a section: `section->size / sizeof(void *)`. -/
def slot_count (lp64 : Bool) (sect : section_t) : Nat := sect.size / sizeof_ptr lp64

/-- The tests of lines 339 and 365. -/
def is_symbol_pointers (sect : section_t) : Bool :=
  sect.flags &&& SECTION_TYPE == S_LAZY_SYMBOL_POINTERS ||
    sect.flags &&& SECTION_TYPE == S_NON_LAZY_SYMBOL_POINTERS

/-- The tests of lines 326-329: a segment command whose sections are examined. -/
def is_data_segment (lp64 : Bool) (c : load_command) : Bool :=
  c.cmd == LC_SEGMENT_ARCH_DEPENDENT lp64 &&
    (strcmp c.segname SEG_DATA == 0 || strcmp c.segname SEG_DATA_CONST == 0)

/-- A section after the engine has passed it. -/
def section_after (lp64 : Bool) (rebindings : List rebindings_entry) (mem : linkedit_memory)
    (t : table_addresses) (sect : section_t) : section_t :=
  if is_symbol_pointers sect then
    { sect with indirect_symbol_bindings := fun k =>
        if k < slot_count lp64 sect then
          binding_after lp64 rebindings mem t sect.reserved1 k (sect.indirect_symbol_bindings k)
        else sect.indirect_symbol_bindings k }
  else sect

/-- The writes through `replaced` the engine makes in a section. -/
def section_writes (lp64 : Bool) (rebindings : List rebindings_entry) (mem : linkedit_memory)
    (t : table_addresses) (sect : section_t) : List capture_write :=
  if is_symbol_pointers sect then
    (List.range (slot_count lp64 sect)).flatMap fun i =>
      slot_writes lp64 rebindings mem t sect.reserved1 i (sect.indirect_symbol_bindings i)
  else []

/-- A load command after the second loop has passed it. -/
def command_after (lp64 : Bool) (rebindings : List rebindings_entry) (mem : linkedit_memory)
    (t : table_addresses) (c : load_command) : load_command :=
  if is_data_segment lp64 c then
    { c with sects := c.sects.map (section_after lp64 rebindings mem t) }
  else c

/-- The writes through `replaced` made for one load command. -/
def command_writes (lp64 : Bool) (rebindings : List rebindings_entry) (mem : linkedit_memory)
    (t : table_addresses) (c : load_command) : List capture_write :=
  if is_data_segment lp64 c then c.sects.flatMap (section_writes lp64 rebindings mem t) else []

/-- An image after `rebind_symbols_for_image`. -/
def image_after (lp64 : Bool) (rebindings : List rebindings_entry) (header : mach_header_t)
    (slide : Int) : mach_header_t :=
  match image_tables lp64 header slide with
  | none => header
  | some t => { header with cmds := header.cmds.map (command_after lp64 rebindings header.mem t) }

/-- The writes through `replaced` made by `rebind_symbols_for_image`. -/
def image_writes (lp64 : Bool) (rebindings : List rebindings_entry) (header : mach_header_t)
    (slide : Int) : List capture_write :=
  match image_tables lp64 header slide with
  | none => []
  | some t => header.cmds.flatMap (command_writes lp64 rebindings header.mem t)

/-- The images of the process after each was passed to `rebind_symbols_for_image`. -/
def images_after (lp64 : Bool) (rebindings : List rebindings_entry)
    (images : List (mach_header_t × Int)) : List (mach_header_t × Int) :=
  images.map fun hs => (image_after lp64 rebindings hs.1 hs.2, hs.2)

/-- The writes through `replaced` made while the images of the process were passed. -/
def images_writes (lp64 : Bool) (rebindings : List rebindings_entry)
    (images : List (mach_header_t × Int)) : List capture_write :=
  images.flatMap fun hs => image_writes lp64 rebindings hs.1 hs.2

/-- An upper bound that makes the fuel suffice: every section has fewer than `fuel`
slots and every entry of the chain fewer than `fuel` requests, and both numbers fit
a `uint` counter. -/
def fuel_suffices (lp64 : Bool) (fuel : Nat) (rebindings : List rebindings_entry)
    (images : List (mach_header_t × Int)) : Prop :=
  fuel ≤ UINT_RANGE ∧
  (∀ cur ∈ rebindings, cur.rebindings_nel < fuel) ∧
  ∀ hs ∈ images, ∀ c ∈ hs.1.cmds, ∀ sect ∈ c.sects, slot_count lp64 sect < fuel

/-- The entry `prepend_rebindings` puts in front of the chain (lines 76-84). -/
def new_entry (rebindings : List rebinding) (nel : Nat) : rebindings_entry :=
  { rebindings := rebindings.take nel, rebindings_nel := nel }

/-- Slot `i` resolves to a name that consists of one character, the marker, followed
by the name `n`. -/
def slot_names (lp64 : Bool) (mem : linkedit_memory) (t : table_addresses)
    (reserved1 i : Nat) (n : List Nat) : Bool :=
  match slot_symbol lp64 mem t reserved1 i with
  | none => false
  | some symbol_name => cstr symbol_name != [] && (cstr symbol_name).drop 1 == cstr n

/-- The property `P` holds of every slot the engine examines in a list of images:
every index below the slot count of every symbol pointer section of every `__DATA`
or `__DATA_CONST` segment command of every image that is not skipped.  `P` receives
the memory and the table addresses of the image, the section and the index. -/
def every_slot (lp64 : Bool) (images : List (mach_header_t × Int))
    (P : linkedit_memory → table_addresses → section_t → Nat → Prop) : Prop :=
  ∀ hs ∈ images, ∀ t, image_tables lp64 hs.1 hs.2 = some t →
    ∀ c ∈ hs.1.cmds, is_data_segment lp64 c = true →
    ∀ sect ∈ c.sects, is_symbol_pointers sect = true →
    ∀ i, i < slot_count lp64 sect → P hs.1.mem t sect i

/-! ## Example inputs -/

/-- The bytes of the string `write`. -/
def str_write : List Nat := [119, 114, 105, 116, 101]

/-- The bytes of the string `open`. -/
def str_open : List Nat := [111, 112, 101, 110]

/-- Tables of an example image.  The indirect symbol table at address 1000 holds,
for the indices 0 to 7: the symbols 1, 2, 3, 4, 5, then `INDIRECT_SYMBOL_ABS`, the
symbol 3 again, and `INDIRECT_SYMBOL_LOCAL`.  The symbol table at 2000 (16-byte
entries) gives the symbols 1 to 5 the string offsets 10 to 50; the string table at
3000 holds `_read`, `_open`, `_write`, `_close` and `_` there. -/
def ex_mem : linkedit_memory where
  u32_at a :=
    if a = 1000 then 1 else if a = 1004 then 2 else if a = 1008 then 3
    else if a = 1012 then 4 else if a = 1016 then 5 else if a = 1020 then INDIRECT_SYMBOL_ABS
    else if a = 1024 then 3 else if a = 1028 then INDIRECT_SYMBOL_LOCAL else 0
  nlist_at a :=
    { n_strx := if a = 2016 then 10 else if a = 2032 then 20 else if a = 2048 then 30
        else if a = 2064 then 40 else if a = 2080 then 50 else 0 }
  bytes_at a :=
    if a = 3010 then [95, 114, 101, 97, 100]
    else if a = 3020 then [95, 111, 112, 101, 110]
    else if a = 3030 then [95, 119, 114, 105, 116, 101]
    else if a = 3040 then [95, 99, 108, 111, 115, 101]
    else if a = 3050 then [95]
    else []

/-- The table addresses of the example image. -/
def ex_tables : table_addresses := { symtab := 2000, strtab := 3000, indirect_symtab := 1000 }

/-- A lazy symbol pointer section of four slots, which resolve to `_read`, `_open`,
`_write`, `_close`; slot `k` holds `100 + k`. -/
def ex_section : section_t :=
  { size := 32, flags := S_LAZY_SYMBOL_POINTERS, reserved1 := 0,
    indirect_symbol_bindings := fun k => 100 + k }

/-- The section `ex_section` when its slot 2 holds 77 already. -/
def ex_section_hooked : section_t :=
  { ex_section with indirect_symbol_bindings := fun k => if k = 2 then 77 else 100 + k }

/-- A non-lazy symbol pointer section of four slots: slot 0 resolves to `_`, slot 1
is `INDIRECT_SYMBOL_ABS`, slot 2 resolves to `_write`, slot 3 is
`INDIRECT_SYMBOL_LOCAL`; slot `k` holds `200 + k`. -/
def ex_got : section_t :=
  { size := 32, flags := S_NON_LAZY_SYMBOL_POINTERS, reserved1 := 4,
    indirect_symbol_bindings := fun k => 200 + k }

/-- The load commands of the example image around a given list of sections. -/
def ex_cmds (sects : List section_t) : List load_command :=
  [ { cmd := LC_SEGMENT_64, segname := SEG_LINKEDIT, vmaddr := 16384, fileoff := 16384 },
    { cmd := LC_SYMTAB, symoff := 2000, stroff := 3000 },
    { cmd := LC_DYSYMTAB, indirectsymoff := 1000, nindirectsyms := 8 },
    { cmd := LC_SEGMENT_64, segname := SEG_DATA, sects := sects } ]

/-- The example image around a given list of sections. -/
def ex_image (sects : List section_t) : mach_header_t :=
  { known := true, cmds := ex_cmds sects, mem := ex_mem }

/-- Memory behind the `replaced` pointers in which every cell holds 0 and nothing
was written yet. -/
def ex_cap : captured := { cells := fun _ => 0, log := [] }

/-- The value of slot `i` of section `s` of load command `c` of image `h`. -/
def slot_value (p : process) (h c s i : Nat) : Option Nat :=
  match p.images[h]? with
  | none => none
  | some hs =>
    match hs.1.cmds[c]? with
    | none => none
    | some cmd =>
      match cmd.sects[s]? with
      | none => none
      | some sect => some (sect.indirect_symbol_bindings i)

/-- A process with an empty registry that has loaded the example image with the
sections `ex_section` and `ex_got`. -/
def ex_process : process :=
  { _rebindings_head := [], images := [(ex_image [ex_section, ex_got], 0)],
    add_image_callbacks := 0, cap := ex_cap }

/-! ## Sequences of calls -/

/-- A call of one of the two entry points, with what its two allocations do. -/
inductive api_call where
  | rebind_symbols (malloc_entry malloc_rebindings : Bool) (rebindings : List rebinding)
      (rebindings_nel : Nat)
  | rebind_symbols_image (malloc_entry malloc_rebindings : Bool) (header : Nat) (slide : Int)
      (rebindings : List rebinding) (rebindings_nel : Nat)

/-- One call made in a process: its return value and the process after it. -/
def run_call (lp64 : Bool) (fuel : Nat) (p : process) : api_call → Option (Int × process)
  | .rebind_symbols m1 m2 a nel => rebind_symbols lp64 fuel m1 m2 p a nel
  | .rebind_symbols_image m1 m2 header slide a nel =>
    rebind_symbols_image lp64 fuel m1 m2 p header slide a nel

/-- A sequence of calls made one after the other: the process after the last. -/
def run_calls (lp64 : Bool) (fuel : Nat) : process → List api_call → Option process
  | p, [] => some p
  | p, call :: rest =>
    match run_call lp64 fuel p call with
    | none => none
    | some (_, p1) => run_calls lp64 fuel p1 rest

/-- A successful registration: a call of `rebind_symbols` both of whose allocations
succeed. -/
def is_registration : api_call → Bool
  | .rebind_symbols m1 m2 _ _ => m1 && m2
  | .rebind_symbols_image _ _ _ _ _ _ => false

/-- Example sequence of calls: a registration whose second allocation fails, a call
of `rebind_symbols_image`, and two successful registrations. -/
def ex_calls : List api_call :=
  [.rebind_symbols true false [⟨str_write, 77, none⟩] 1,
   .rebind_symbols_image true true 0 0 [⟨str_write, 66, none⟩] 1,
   .rebind_symbols true true [⟨str_write, 77, none⟩] 1,
   .rebind_symbols true true [⟨str_open, 88, none⟩] 1]

/-- The requests of a chain in the order in which they are consulted: the entries
from the head on, and in each entry the requests `rebindings[0]` to
`rebindings[rebindings_nel - 1]`. -/
def chain_requests (rebindings : List rebindings_entry) : List rebinding :=
  rebindings.flatMap fun cur =>
    (List.range cur.rebindings_nel).map fun j => cur.rebindings.getD j default

/-- Section `s` of load command `c` of an image, with that load command. -/
def image_section (header : mach_header_t) (c s : Nat) : Option (load_command × section_t) :=
  match header.cmds[c]? with
  | none => none
  | some cmd =>
    match cmd.sects[s]? with
    | none => none
    | some sect => some (cmd, sect)

/-- Slot `i` of a section of an image is one the engine examines, and the name it
resolves to is a marker character followed by the name, not empty, of a request of
the chain. -/
def slot_is_targeted (lp64 : Bool) (rebindings : List rebindings_entry)
    (header : mach_header_t) (slide : Int) (cmd : load_command) (sect : section_t) (i : Nat) :
    Prop :=
  ∃ t, image_tables lp64 header slide = some t ∧ is_data_segment lp64 cmd = true ∧
    is_symbol_pointers sect = true ∧ i < slot_count lp64 sect ∧
    ∃ r ∈ chain_requests rebindings, cstr r.name ≠ [] ∧
      slot_names lp64 header.mem t sect.reserved1 i r.name = true

/-- The value the description of the engine gives slot `i` of a section that held `v`
before the run.  The slot is identified through `indirect_table[reserved1 + i]`.  A
sentinel slot and a slot whose symbol name has fewer than 2 characters keep `v`.  Any
other slot receives the replacement of the first request, entries from the head on and
requests by increasing index within an entry, whose name equals the symbol name after
the marker; it keeps `v` when there is no such request. -/
def spec_slot_value (lp64 : Bool) (rebindings : List rebindings_entry) (mem : linkedit_memory)
    (t : table_addresses) (reserved1 i v : Nat) : Nat :=
  if symtab_index_of mem t.indirect_symtab reserved1 i = INDIRECT_SYMBOL_ABS ∨
      symtab_index_of mem t.indirect_symtab reserved1 i = INDIRECT_SYMBOL_LOCAL ∨
      symtab_index_of mem t.indirect_symtab reserved1 i =
        (INDIRECT_SYMBOL_LOCAL ||| INDIRECT_SYMBOL_ABS) then v
  else if (cstr (symbol_name_of lp64 mem t.symtab t.strtab
      (symtab_index_of mem t.indirect_symtab reserved1 i))).length < 2 then v
  else
    match (chain_requests rebindings).find? (fun r => cstr r.name ==
        (cstr (symbol_name_of lp64 mem t.symtab t.strtab
          (symtab_index_of mem t.indirect_symtab reserved1 i))).drop 1) with
    | some r => r.replacement
    | none => v

/-- A section of `2 ^ 32` slots of 8 bytes. -/
def ex_section_huge : section_t :=
  { size := 2 ^ 35, flags := S_LAZY_SYMBOL_POINTERS, reserved1 := 0,
    indirect_symbol_bindings := fun k => 100 + k }

/-- The writes through `replaced` pointers that a run made for slot `i`: the entries
the run added to the log `before` that carry the index `i`. -/
def writes_for_slot (before after : captured) (i : Nat) : List capture_write :=
  (after.log.drop before.log.length).filter fun w => w.slot == i

/-- The test of lines 276-277: an architecture-dependent segment command named
`__LINKEDIT`. -/
def is_linkedit_segment (lp64 : Bool) (c : load_command) : Bool :=
  c.cmd == LC_SEGMENT_ARCH_DEPENDENT lp64 && strcmp c.segname SEG_LINKEDIT == 0

/-- The test of line 283: an `LC_SYMTAB` command. -/
def is_symtab_command (c : load_command) : Bool := c.cmd == LC_SYMTAB

/-- The test of line 287: an `LC_DYSYMTAB` command. -/
def is_dysymtab_command (c : load_command) : Bool := c.cmd == LC_DYSYMTAB

/-- The example image without its `LC_DYSYMTAB` command. -/
def ex_image_no_dysymtab : mach_header_t :=
  { known := true
    cmds :=
      [ { cmd := LC_SEGMENT_64, segname := SEG_LINKEDIT, vmaddr := 16384, fileoff := 16384 },
        { cmd := LC_SYMTAB, symoff := 2000, stroff := 3000 },
        { cmd := LC_SEGMENT_64, segname := SEG_DATA, sects := [ex_section, ex_got] } ]
    mem := ex_mem }

/-- The sections the resolver is to select, in load-command order and then section
order: the symbol pointer sections of the architecture-dependent segment commands
named `__DATA` or `__DATA_CONST`. -/
def selected_sections (lp64 : Bool) (cmds : List load_command) : List section_t :=
  cmds.flatMap fun c => if is_data_segment lp64 c then c.sects.filter is_symbol_pointers else []

/-- The engine run once on each section of a list, in order: the sections after
their runs and the memory behind the `replaced` pointers after the last. -/
def engine_runs (lp64 : Bool) (fuel : Nat) (rebindings : List rebindings_entry)
    (slide : Int) (symtab strtab indirect_symtab : Nat) (mem : linkedit_memory) :
    List section_t → captured → Option (List section_t × captured)
  | [], cap => some ([], cap)
  | sect :: rest, cap =>
    match perform_rebinding_with_section lp64 fuel rebindings sect slide symtab strtab
        indirect_symtab mem cap with
    | none => none
    | some (sect1, cap1) =>
      match engine_runs lp64 fuel rebindings slide symtab strtab indirect_symtab mem rest
          cap1 with
      | none => none
      | some (rest1, cap2) => some (sect1 :: rest1, cap2)

/-- A section of four slots that is not a symbol pointer section; slot `k` holds
`300 + k`. -/
def ex_plain : section_t :=
  { size := 32, flags := 0, reserved1 := 0, indirect_symbol_bindings := fun k => 300 + k }

/-- An image with two commands of each kind the first loop looks for: the first
`__LINKEDIT` segment has `vmaddr = fileoff`, the last has `vmaddr = fileoff + 4096`;
the first `LC_SYMTAB` and `LC_DYSYMTAB` commands hold other offsets than the last. -/
def ex_image_doubled : mach_header_t :=
  { known := true
    cmds :=
      [ { cmd := LC_SEGMENT_64, segname := SEG_LINKEDIT, vmaddr := 16384, fileoff := 16384 },
        { cmd := LC_SYMTAB, symoff := 1, stroff := 2 },
        { cmd := LC_DYSYMTAB, indirectsymoff := 3, nindirectsyms := 0 },
        { cmd := LC_SEGMENT_64, segname := SEG_DATA, sects := [ex_section, ex_got] },
        { cmd := LC_SEGMENT_64, segname := SEG_LINKEDIT, vmaddr := 20480, fileoff := 16384 },
        { cmd := LC_SYMTAB, symoff := 2000, stroff := 3000 },
        { cmd := LC_DYSYMTAB, indirectsymoff := 1000, nindirectsyms := 8 } ]
    mem := ex_mem }

/-- The example tables with another indirect symbol table: entry 0 is
`INDIRECT_SYMBOL_ABS ||| 3`, the sentinel bit together with other bits, entry 1 is
`INDIRECT_SYMBOL_LOCAL ||| INDIRECT_SYMBOL_ABS`, and entries 2 and 3 are the symbols
3 and 4.  The symbol table entry with the index `INDIRECT_SYMBOL_ABS ||| 3` has the
string offset 30, that of `_write`. -/
def ex_mem_flagged : linkedit_memory where
  u32_at a :=
    if a = 1000 then INDIRECT_SYMBOL_ABS ||| 3
    else if a = 1004 then INDIRECT_SYMBOL_LOCAL ||| INDIRECT_SYMBOL_ABS
    else if a = 1008 then 3 else if a = 1012 then 4 else 0
  nlist_at a :=
    { n_strx := if a = 2000 + 16 * (INDIRECT_SYMBOL_ABS ||| 3) then 30
        else if a = 2048 then 30 else if a = 2064 then 40 else 0 }
  bytes_at a :=
    if a = 3030 then [95, 119, 114, 105, 116, 101]
    else if a = 3040 then [95, 99, 108, 111, 115, 101]
    else []

/-- A lazy symbol pointer section of five slots over the entries 2 to 6 of the
example indirect symbol table: slots 0 and 4 resolve to `_write`, slot 1 to `_close`,
slot 2 to `_`, and slot 3 is `INDIRECT_SYMBOL_ABS`; slot `k` holds `100 + k`. -/
def ex_section_two : section_t :=
  { size := 40, flags := S_LAZY_SYMBOL_POINTERS, reserved1 := 2,
    indirect_symbol_bindings := fun k => 100 + k }

/-! ## Strings: lemmas -/

theorem strcmp_eq_zero_iff (a b : List Nat) : strcmp a b = 0 ↔ cstr a = cstr b := by
  induction a generalizing b with
  | nil =>
    cases b with
    | nil => simp [strcmp, cstr]
    | cons y ys =>
      by_cases hy : y = 0
      · simp [strcmp, cstr, hy]
      · simp [strcmp, cstr, hy]
  | cons x xs ih =>
    cases b with
    | nil =>
      by_cases hx : x = 0
      · simp [strcmp, cstr, hx]
      · simp [strcmp, cstr, hx]
    | cons y ys =>
      by_cases hxy : x = y
      · subst hxy
        by_cases hx : x = 0
        · simp [strcmp, cstr, hx]
        · have := ih ys
          simp [strcmp, cstr, hx] at this ⊢
          exact this
      · by_cases hx : x = 0
        · subst hx
          have : (0:Int) - (y:Int) ≠ 0 := by omega
          by_cases hy : y = 0
          · exact absurd hy.symm hxy
          · simp [strcmp, cstr, hxy, hy]
        · by_cases hy : y = 0
          · subst hy
            simp [strcmp, cstr, hxy, hx]
          · have : (x:Int) - (y:Int) ≠ 0 := by omega
            simp [strcmp, cstr, hxy, hx, hy, this]

theorem cstr_cons_ne (x : Nat) (s : List Nat) (hx : x ≠ 0) : cstr (x :: s) = x :: cstr s := by
  simp [cstr, hx]

theorem cstr_cons_zero (s : List Nat) : cstr (0 :: s) = [] := by
  simp [cstr]

theorem rebinding_matches_iff (s : List Nat) (r : rebinding) :
    rebinding_matches s r = true ↔ ∃ m, cstr s = m :: cstr r.name ∧ cstr r.name ≠ [] := by
  unfold rebinding_matches symbol_name_longer_than_1
  rcases s with _ | ⟨x, _ | ⟨y, rest⟩⟩
  · simp [cstr]
  · by_cases hx : x = 0
    · subst hx; simp [cstr]
    · simp only [List.getD_cons_zero, List.getD_cons_succ, List.getD_nil, bne_self_eq_false,
        Bool.and_false, Bool.false_and, Bool.false_eq_true, false_iff, not_exists, not_and,
        not_not]
      intro m hm
      rw [cstr_cons_ne x [] hx] at hm
      simp only [List.cons.injEq] at hm
      rw [← hm.2]; rfl
  · by_cases hx : x = 0
    · subst hx; simp [cstr]
    · by_cases hy : y = 0
      · subst hy
        simp only [List.getD_cons_zero, List.getD_cons_succ, bne_self_eq_false,
          Bool.and_false, Bool.false_and, Bool.false_eq_true, false_iff, not_exists, not_and,
          not_not]
        intro m hm
        rw [cstr_cons_ne x _ hx, cstr_cons_zero] at hm
        simp only [List.cons.injEq] at hm
        exact hm.2.symm
      · have h1 : (List.getD (x :: y :: rest) 0 0 != 0 && List.getD (x :: y :: rest) 1 0 != 0 &&
              strcmp (List.drop 1 (x :: y :: rest)) r.name == 0) = true ↔
            cstr (y :: rest) = cstr r.name := by
          simp [hx, hy, strcmp_eq_zero_iff]
        rw [h1, cstr_cons_ne x _ hx]
        constructor
        · intro h
          refine ⟨x, by rw [h], ?_⟩
          rw [← h, cstr_cons_ne y _ hy]
          exact List.cons_ne_nil _ _
        · rintro ⟨m, hm, -⟩
          simp only [List.cons.injEq] at hm
          exact hm.2

theorem rebindings_loop_some (symbol_name : List Nat) (i : Nat) (cur : rebindings_entry) :
    ∀ (fuel j : Nat) (st : engine_state) (res : engine_state × Bool),
      (∀ j', j' < j → rebinding_matches symbol_name (cur.rebindings.getD j' default) = false) →
      rebindings_loop symbol_name i cur fuel j st = some res →
      (res.2 = true ∧ ∃ j1, j1 < cur.rebindings_nel ∧
          rebinding_matches symbol_name (cur.rebindings.getD j1 default) = true ∧
          (∀ j', j' < j1 →
            rebinding_matches symbol_name (cur.rebindings.getD j' default) = false) ∧
          res.1 = apply_rebinding i (cur.rebindings.getD j1 default) st) ∨
      (res.2 = false ∧ res.1 = st ∧ ∀ j', j' < cur.rebindings_nel →
          rebinding_matches symbol_name (cur.rebindings.getD j' default) = false) := by
  intro fuel
  induction fuel with
  | zero => intro j st res _ h; simp [rebindings_loop] at h
  | succ fuel ih =>
    intro j st res hbelow h
    rw [rebindings_loop] at h
    by_cases hj : j < cur.rebindings_nel
    · rw [if_pos hj] at h
      by_cases hm : rebinding_matches symbol_name (cur.rebindings.getD j default) = true
      · have hm' := hm
        unfold rebinding_matches at hm'
        simp only [hm', if_true] at h
        left
        cases h
        exact ⟨rfl, j, hj, hm, hbelow, rfl⟩
      · have hm' := hm
        unfold rebinding_matches at hm'
        simp only [hm', if_false] at h
        refine ih _ st res ?_ h
        intro j' hj'
        have hle : (j + 1) % UINT_RANGE ≤ j + 1 := Nat.mod_le _ _
        by_cases hjj : j' = j
        · subst hjj; simpa using hm
        · exact hbelow j' (by omega)
    · rw [if_neg hj] at h
      right
      cases h
      exact ⟨rfl, rfl, fun j' hj' => hbelow j' (by omega)⟩

/-! ## The loops over the requests and over the chain -/

theorem entry_lookup_from_eq_some (symbol_name : List Nat) (cur : rebindings_entry) :
    ∀ (k j j1 : Nat), j ≤ j1 → j1 < j + k →
      rebinding_matches symbol_name (cur.rebindings.getD j1 default) = true →
      (∀ j', j ≤ j' → j' < j1 →
        rebinding_matches symbol_name (cur.rebindings.getD j' default) = false) →
      entry_lookup_from symbol_name cur k j = some (cur.rebindings.getD j1 default) := by
  intro k
  induction k with
  | zero => intro j j1 h1 h2; omega
  | succ k ih =>
    intro j j1 h1 h2 hm hbelow
    rw [entry_lookup_from]
    by_cases hjj : j = j1
    · subst hjj; rw [if_pos hm]
    · have hf := hbelow j (le_refl _) (by omega)
      rw [hf]
      simp only [Bool.false_eq_true, if_false]
      exact ih (j + 1) j1 (by omega) (by omega) hm (fun j' h3 h4 => hbelow j' (by omega) h4)

theorem entry_lookup_from_eq_none (symbol_name : List Nat) (cur : rebindings_entry) :
    ∀ (k j : Nat),
      (∀ j', j ≤ j' → j' < j + k →
        rebinding_matches symbol_name (cur.rebindings.getD j' default) = false) →
      entry_lookup_from symbol_name cur k j = none := by
  intro k
  induction k with
  | zero => intro j _; rfl
  | succ k ih =>
    intro j hall
    rw [entry_lookup_from, hall j (le_refl _) (by omega)]
    simp only [Bool.false_eq_true, if_false]
    exact ih (j + 1) (fun j' h3 h4 => hall j' (by omega) (by omega))

/-- The state and the exit of the loop over one entry, from the first matching request. -/
theorem rebindings_loop_eq (symbol_name : List Nat) (i : Nat) (cur : rebindings_entry)
    (fuel : Nat) (st : engine_state) (res : engine_state × Bool)
    (h : rebindings_loop symbol_name i cur fuel 0 st = some res) :
    res = (match entry_lookup symbol_name cur with
      | some r => (apply_rebinding i r st, true)
      | none => (st, false)) := by
  rcases rebindings_loop_some symbol_name i cur fuel 0 st res (fun j' h' => by omega) h with
    ⟨h2, j1, hj1, hm, hbelow, h1⟩ | ⟨h2, h1, hall⟩
  · have := entry_lookup_from_eq_some symbol_name cur cur.rebindings_nel 0 j1 (Nat.zero_le _)
      (by omega) hm (fun j' _ h4 => hbelow j' h4)
    unfold entry_lookup
    rw [this]
    exact Prod.ext h1 h2
  · have := entry_lookup_from_eq_none symbol_name cur cur.rebindings_nel 0
      (fun j' _ h4 => hall j' (by omega))
    unfold entry_lookup
    rw [this]
    exact Prod.ext h1 h2

theorem rebindings_loop_returns (symbol_name : List Nat) (i : Nat) (cur : rebindings_entry)
    (hnel : cur.rebindings_nel < UINT_RANGE) :
    ∀ (fuel j : Nat) (st : engine_state), j ≤ cur.rebindings_nel →
      cur.rebindings_nel - j < fuel →
      ∃ res, rebindings_loop symbol_name i cur fuel j st = some res := by
  intro fuel
  induction fuel with
  | zero => intro j st _ h; omega
  | succ fuel ih =>
    intro j st hj hf
    rw [rebindings_loop]
    by_cases hlt : j < cur.rebindings_nel
    · rw [if_pos hlt]
      by_cases hm : (symbol_name_longer_than_1 symbol_name &&
          strcmp (symbol_name.drop 1) (cur.rebindings.getD j default).name == 0) = true
      · simp only [hm, if_true]; exact ⟨_, rfl⟩
      · simp only [hm, if_false]
        have hmod : (j + 1) % UINT_RANGE = j + 1 := Nat.mod_eq_of_lt (by omega)
        rw [hmod]
        exact ih (j + 1) st (by omega) (by omega)
    · rw [if_neg hlt]; exact ⟨_, rfl⟩

theorem chain_loop_eq (symbol_name : List Nat) (i n : Nat) :
    ∀ (rebindings : List rebindings_entry) (st st1 : engine_state),
      chain_loop symbol_name i n rebindings st = some st1 →
      st1 = chain_apply symbol_name i rebindings st := by
  intro rebindings
  induction rebindings with
  | nil => intro st st1 h; simp [chain_loop] at h; simp [chain_apply, chain_lookup, h]
  | cons cur next ih =>
    intro st st1 h
    rw [chain_loop] at h
    cases hr : rebindings_loop symbol_name i cur n 0 st with
    | none => simp [hr] at h
    | some res =>
      have hres := rebindings_loop_eq symbol_name i cur n st res hr
      rw [hr] at h
      cases hl : entry_lookup symbol_name cur with
      | some r =>
        rw [hl] at hres
        subst hres
        simp only [Option.some.injEq] at h
        simp [chain_apply, chain_lookup, hl, h]
      | none =>
        rw [hl] at hres
        subst hres
        simp only at h
        rw [ih st st1 h]
        simp [chain_apply, chain_lookup, hl]

theorem chain_loop_returns (symbol_name : List Nat) (i n : Nat) (hn : n ≤ UINT_RANGE) :
    ∀ (rebindings : List rebindings_entry) (st : engine_state),
      (∀ cur ∈ rebindings, cur.rebindings_nel < n) →
      ∃ st1, chain_loop symbol_name i n rebindings st = some st1 := by
  intro rebindings
  induction rebindings with
  | nil => intro st _; exact ⟨st, rfl⟩
  | cons cur next ih =>
    intro st hall
    have hcur := hall cur (List.mem_cons_self _ _)
    obtain ⟨res, hres⟩ := rebindings_loop_returns symbol_name i cur (by omega) n 0 st
      (Nat.zero_le _) (by omega)
    rw [chain_loop, hres]
    rcases res with ⟨st1, b⟩
    cases b with
    | true => exact ⟨st1, rfl⟩
    | false =>
      exact ih st1 (fun c hc => hall c (List.mem_cons_of_mem _ hc))

/-! ## The loop over the slots -/

theorem apply_writes_append (cap : captured) (a b : List capture_write) :
    apply_writes cap (a ++ b) = apply_writes (apply_writes cap a) b := by
  simp [apply_writes, List.foldl_append]

theorem engine_state_ext (a b : engine_state)
    (h1 : a.indirect_symbol_bindings = b.indirect_symbol_bindings) (h2 : a.cap = b.cap) :
    a = b := by
  cases a; cases b; simp_all

theorem engine_after_zero (lp64 : Bool) (rebindings : List rebindings_entry)
    (mem : linkedit_memory) (t : table_addresses) (reserved1 : Nat) (st : engine_state) :
    engine_after lp64 rebindings mem t reserved1 0 st = st := by
  simp [engine_after, apply_writes]

theorem apply_rebinding_bindings (i : Nat) (r : rebinding) (st : engine_state) :
    (apply_rebinding i r st).indirect_symbol_bindings =
      fun k => if k = i then r.replacement else st.indirect_symbol_bindings k := by
  unfold apply_rebinding write_binding
  cases r.replaced with
  | none => rfl
  | some c =>
    by_cases h : st.indirect_symbol_bindings i = r.replacement
    · simp [h]
    · simp [h]

theorem apply_rebinding_cap (i : Nat) (r : rebinding) (st : engine_state) :
    (apply_rebinding i r st).cap =
      apply_writes st.cap
        (match r.replaced with
        | some c =>
          if st.indirect_symbol_bindings i ≠ r.replacement then
            [⟨i, c, st.indirect_symbol_bindings i⟩]
          else []
        | none => []) := by
  unfold apply_rebinding write_binding
  cases r.replaced with
  | none => rfl
  | some c =>
    by_cases h : st.indirect_symbol_bindings i = r.replacement
    · simp [h, apply_writes]
    · simp [h, apply_writes]

theorem slot_step_bindings (lp64 : Bool) (rebindings : List rebindings_entry)
    (mem : linkedit_memory) (t : table_addresses) (reserved1 i : Nat) (st : engine_state) :
    (slot_step lp64 rebindings mem t reserved1 i st).indirect_symbol_bindings =
      fun k => if k = i then
          binding_after lp64 rebindings mem t reserved1 i (st.indirect_symbol_bindings i)
        else st.indirect_symbol_bindings k := by
  have hid : st.indirect_symbol_bindings =
      fun k => if k = i then st.indirect_symbol_bindings i else st.indirect_symbol_bindings k := by
    funext k
    by_cases h : k = i
    · simp [h]
    · simp [h]
  unfold slot_step binding_after slot_lookup
  cases h1 : slot_symbol lp64 mem t reserved1 i with
  | none => exact hid
  | some symbol_name =>
    simp only [chain_apply]
    cases h2 : chain_lookup symbol_name rebindings with
    | none => exact hid
    | some r => exact apply_rebinding_bindings i r st

theorem slot_step_cap (lp64 : Bool) (rebindings : List rebindings_entry)
    (mem : linkedit_memory) (t : table_addresses) (reserved1 i : Nat) (st : engine_state) :
    (slot_step lp64 rebindings mem t reserved1 i st).cap =
      apply_writes st.cap
        (slot_writes lp64 rebindings mem t reserved1 i (st.indirect_symbol_bindings i)) := by
  unfold slot_step slot_writes slot_lookup
  cases h1 : slot_symbol lp64 mem t reserved1 i with
  | none => rfl
  | some symbol_name =>
    simp only [chain_apply]
    cases h2 : chain_lookup symbol_name rebindings with
    | none => rfl
    | some r => exact apply_rebinding_cap i r st

theorem slot_step_engine_after (lp64 : Bool) (rebindings : List rebindings_entry)
    (mem : linkedit_memory) (t : table_addresses) (reserved1 i : Nat) (st : engine_state) :
    slot_step lp64 rebindings mem t reserved1 i
        (engine_after lp64 rebindings mem t reserved1 i st) =
      engine_after lp64 rebindings mem t reserved1 (i + 1) st := by
  apply engine_state_ext
  · rw [slot_step_bindings]
    funext k
    by_cases h1 : k = i
    · subst h1; simp [engine_after]
    · by_cases h2 : k < i
      · simp [engine_after, h1, h2, Nat.lt_succ_of_lt h2]
      · have : ¬ k < i + 1 := by omega
        simp [engine_after, h1, h2, this]
  · rw [slot_step_cap]
    simp [engine_after, List.range_succ, apply_writes_append]

theorem symbol_loop_diverges (lp64 : Bool) (n : Nat) (rebindings : List rebindings_entry)
    (size reserved1 symtab strtab indirect_symtab : Nat) (mem : linkedit_memory)
    (hsize : UINT_RANGE ≤ size / sizeof_ptr lp64) :
    ∀ (fuel i : Nat) (st : engine_state), i < UINT_RANGE →
      symbol_loop lp64 n rebindings size reserved1 symtab strtab indirect_symtab mem fuel i st =
        none := by
  intro fuel
  induction fuel with
  | zero => intro i st _; rfl
  | succ fuel ih =>
    intro i st hi
    have hlt : i < size / sizeof_ptr lp64 := by omega
    have hmod : (i + 1) % UINT_RANGE < UINT_RANGE := Nat.mod_lt _ (by decide)
    rw [symbol_loop, if_pos hlt]
    by_cases hs : is_skipped (symtab_index_of mem indirect_symtab reserved1 i) = true
    · simp only [hs, if_true]
      exact ih _ st hmod
    · simp only [hs, if_false]
      cases chain_loop (symbol_name_of lp64 mem symtab strtab
          (symtab_index_of mem indirect_symtab reserved1 i)) i n rebindings st with
      | none => rfl
      | some st1 => exact ih _ st1 hmod

theorem symbol_loop_eq (lp64 : Bool) (n : Nat) (rebindings : List rebindings_entry)
    (size reserved1 : Nat) (t : table_addresses) (mem : linkedit_memory)
    (hsize : size / sizeof_ptr lp64 < UINT_RANGE) (st0 : engine_state) :
    ∀ (fuel i : Nat) (st1 : engine_state), i ≤ size / sizeof_ptr lp64 →
      symbol_loop lp64 n rebindings size reserved1 t.symtab t.strtab t.indirect_symtab mem fuel i
          (engine_after lp64 rebindings mem t reserved1 i st0) = some st1 →
      st1 = engine_after lp64 rebindings mem t reserved1 (size / sizeof_ptr lp64) st0 := by
  intro fuel
  induction fuel with
  | zero => intro i st1 _ h; simp [symbol_loop] at h
  | succ fuel ih =>
    intro i st1 hi h
    rw [symbol_loop] at h
    by_cases hlt : i < size / sizeof_ptr lp64
    · rw [if_pos hlt] at h
      have hmod : (i + 1) % UINT_RANGE = i + 1 := Nat.mod_eq_of_lt (by omega)
      rw [hmod] at h
      have hstep := slot_step_engine_after lp64 rebindings mem t reserved1 i st0
      by_cases hs : is_skipped (symtab_index_of mem t.indirect_symtab reserved1 i) = true
      · simp only [hs, if_true] at h
        have : slot_symbol lp64 mem t reserved1 i = none := by simp [slot_symbol, hs]
        simp only [slot_step, this] at hstep
        rw [hstep] at h
        exact ih (i + 1) st1 (by omega) h
      · simp only [hs, if_false] at h
        have hsym : slot_symbol lp64 mem t reserved1 i = some (symbol_name_of lp64 mem t.symtab
            t.strtab (symtab_index_of mem t.indirect_symtab reserved1 i)) := by
          simp [slot_symbol, hs]
        simp only [slot_step, hsym] at hstep
        cases hc : chain_loop (symbol_name_of lp64 mem t.symtab t.strtab
            (symtab_index_of mem t.indirect_symtab reserved1 i)) i n rebindings
            (engine_after lp64 rebindings mem t reserved1 i st0) with
        | none => simp [hc] at h
        | some st2 =>
          rw [hc] at h
          have h2 := chain_loop_eq _ _ _ _ _ _ hc
          rw [hstep] at h2
          subst h2
          exact ih (i + 1) st1 (by omega) h
    · rw [if_neg hlt] at h
      have : i = size / sizeof_ptr lp64 := by omega
      simp only [Option.some.injEq] at h
      rw [← h, this]

theorem symbol_loop_returns (lp64 : Bool) (n : Nat) (rebindings : List rebindings_entry)
    (size reserved1 symtab strtab indirect_symtab : Nat) (mem : linkedit_memory)
    (hn : n ≤ UINT_RANGE) (hsize : size / sizeof_ptr lp64 < UINT_RANGE)
    (hnel : ∀ cur ∈ rebindings, cur.rebindings_nel < n) :
    ∀ (fuel i : Nat) (st : engine_state), i ≤ size / sizeof_ptr lp64 →
      size / sizeof_ptr lp64 - i < fuel →
      ∃ st1, symbol_loop lp64 n rebindings size reserved1 symtab strtab indirect_symtab mem
        fuel i st = some st1 := by
  intro fuel
  induction fuel with
  | zero => intro i st _ h; omega
  | succ fuel ih =>
    intro i st hi hf
    rw [symbol_loop]
    by_cases hlt : i < size / sizeof_ptr lp64
    · rw [if_pos hlt]
      have hmod : (i + 1) % UINT_RANGE = i + 1 := Nat.mod_eq_of_lt (by omega)
      rw [hmod]
      by_cases hs : is_skipped (symtab_index_of mem indirect_symtab reserved1 i) = true
      · simp only [hs, if_true]
        exact ih (i + 1) st (by omega) (by omega)
      · simp only [hs, if_false]
        obtain ⟨st2, h2⟩ := chain_loop_returns (symbol_name_of lp64 mem symtab strtab
          (symtab_index_of mem indirect_symtab reserved1 i)) i n hn rebindings st hnel
        rw [h2]
        exact ih (i + 1) st2 (by omega) (by omega)
    · rw [if_neg hlt]; exact ⟨st, rfl⟩

/-! ## Sections, load commands, images -/

theorem perform_rebinding_with_section_eq (lp64 : Bool) (fuel : Nat)
    (rebindings : List rebindings_entry) (sect : section_t) (slide : Int)
    (t : table_addresses) (mem : linkedit_memory) (cap : captured)
    (sect1 : section_t) (cap1 : captured)
    (h : perform_rebinding_with_section lp64 fuel rebindings sect slide t.symtab t.strtab
      t.indirect_symtab mem cap = some (sect1, cap1)) :
    slot_count lp64 sect < UINT_RANGE ∧
    sect1 = { sect with indirect_symbol_bindings :=
      (engine_after lp64 rebindings mem t sect.reserved1 (slot_count lp64 sect)
        ⟨sect.indirect_symbol_bindings, cap⟩).indirect_symbol_bindings } ∧
    cap1 = (engine_after lp64 rebindings mem t sect.reserved1 (slot_count lp64 sect)
        ⟨sect.indirect_symbol_bindings, cap⟩).cap := by
  unfold perform_rebinding_with_section at h
  by_cases hsize : slot_count lp64 sect < UINT_RANGE
  · cases hl : symbol_loop lp64 fuel rebindings sect.size sect.reserved1 t.symtab t.strtab
        t.indirect_symtab mem fuel 0 ⟨sect.indirect_symbol_bindings, cap⟩ with
    | none => simp [hl] at h
    | some st =>
      rw [hl] at h
      have h0 := engine_after_zero lp64 rebindings mem t sect.reserved1
        ⟨sect.indirect_symbol_bindings, cap⟩
      rw [← h0] at hl
      have := symbol_loop_eq lp64 fuel rebindings sect.size sect.reserved1 t mem hsize
        ⟨sect.indirect_symbol_bindings, cap⟩ fuel 0 st (Nat.zero_le _) hl
      simp only [Option.some.injEq, Prod.mk.injEq] at h
      subst this
      exact ⟨hsize, h.1.symm, h.2.symm⟩
  · have := symbol_loop_diverges lp64 fuel rebindings sect.size sect.reserved1 t.symtab t.strtab
      t.indirect_symtab mem (Nat.le_of_not_lt hsize) fuel 0
      ⟨sect.indirect_symbol_bindings, cap⟩ (by decide)
    simp [this] at h

theorem perform_rebinding_with_section_returns (lp64 : Bool) (fuel : Nat)
    (rebindings : List rebindings_entry) (sect : section_t) (slide : Int)
    (symtab strtab indirect_symtab : Nat) (mem : linkedit_memory) (cap : captured)
    (hfuel : fuel ≤ UINT_RANGE) (hnel : ∀ cur ∈ rebindings, cur.rebindings_nel < fuel)
    (hsize : slot_count lp64 sect < fuel) :
    ∃ r, perform_rebinding_with_section lp64 fuel rebindings sect slide symtab strtab
      indirect_symtab mem cap = some r := by
  have hsize1 : sect.size / sizeof_ptr lp64 < fuel := hsize
  obtain ⟨st, hst⟩ := symbol_loop_returns lp64 fuel rebindings sect.size sect.reserved1 symtab
    strtab indirect_symtab mem hfuel (lt_of_lt_of_le hsize1 hfuel) hnel fuel 0
    ⟨sect.indirect_symbol_bindings, cap⟩ (Nat.zero_le _) (by rw [Nat.sub_zero]; exact hsize1)
  unfold perform_rebinding_with_section
  rw [hst]
  exact ⟨_, rfl⟩

theorem lazy_ne_non_lazy : S_LAZY_SYMBOL_POINTERS ≠ S_NON_LAZY_SYMBOL_POINTERS := by decide

theorem rebind_sections_eq (lp64 : Bool) (fuel : Nat) (rebindings : List rebindings_entry)
    (slide : Int) (t : table_addresses) (mem : linkedit_memory) :
    ∀ (sects : List section_t) (cap : captured) (sects1 : List section_t) (cap1 : captured),
      rebind_sections lp64 fuel rebindings slide t.symtab t.strtab t.indirect_symtab mem
        sects cap = some (sects1, cap1) →
      sects1 = sects.map (section_after lp64 rebindings mem t) ∧
      cap1 = apply_writes cap (sects.flatMap (section_writes lp64 rebindings mem t)) := by
  intro sects
  induction sects with
  | nil =>
    intro cap sects1 cap1 h
    simp only [rebind_sections, Option.some.injEq, Prod.mk.injEq] at h
    simp [h.1.symm, h.2.symm, apply_writes]
  | cons sect rest ih =>
    intro cap sects1 cap1 h
    rw [rebind_sections] at h
    by_cases hlazy : sect.flags &&& SECTION_TYPE = S_LAZY_SYMBOL_POINTERS
    · have hnl : ¬ sect.flags &&& SECTION_TYPE = S_NON_LAZY_SYMBOL_POINTERS := by
        rw [hlazy]; exact lazy_ne_non_lazy
      have hsp : is_symbol_pointers sect = true := by simp [is_symbol_pointers, hlazy]
      rw [if_pos hlazy] at h
      cases hp : perform_rebinding_with_section lp64 fuel rebindings sect slide t.symtab t.strtab
          t.indirect_symtab mem cap with
      | none => simp [hp] at h
      | some r =>
        rcases r with ⟨s1, c1⟩
        obtain ⟨-, hs1, hc1⟩ := perform_rebinding_with_section_eq lp64 fuel rebindings sect slide
          t mem cap s1 c1 hp
        rw [hp] at h
        have hfl : s1.flags = sect.flags := by rw [hs1]
        simp only [hfl, if_neg hnl] at h
        cases hr : rebind_sections lp64 fuel rebindings slide t.symtab t.strtab t.indirect_symtab
            mem rest c1 with
        | none => simp [hr] at h
        | some r2 =>
          rcases r2 with ⟨rest1, c3⟩
          obtain ⟨hrest, hc3⟩ := ih c1 rest1 c3 hr
          rw [hr] at h
          simp only [Option.some.injEq, Prod.mk.injEq] at h
          constructor
          · rw [← h.1, hrest, hs1]
            simp [section_after, hsp, engine_after]
          · rw [← h.2, hc3, hc1]
            simp [section_writes, hsp, engine_after, apply_writes_append]
    · rw [if_neg hlazy] at h
      simp only at h
      by_cases hnl : sect.flags &&& SECTION_TYPE = S_NON_LAZY_SYMBOL_POINTERS
      · have hsp : is_symbol_pointers sect = true := by simp [is_symbol_pointers, hnl]
        rw [if_pos hnl] at h
        cases hp : perform_rebinding_with_section lp64 fuel rebindings sect slide t.symtab
            t.strtab t.indirect_symtab mem cap with
        | none => simp [hp] at h
        | some r =>
          rcases r with ⟨s1, c1⟩
          obtain ⟨-, hs1, hc1⟩ := perform_rebinding_with_section_eq lp64 fuel rebindings sect
            slide t mem cap s1 c1 hp
          rw [hp] at h
          simp only at h
          cases hr : rebind_sections lp64 fuel rebindings slide t.symtab t.strtab
              t.indirect_symtab mem rest c1 with
          | none => simp [hr] at h
          | some r2 =>
            rcases r2 with ⟨rest1, c3⟩
            obtain ⟨hrest, hc3⟩ := ih c1 rest1 c3 hr
            rw [hr] at h
            simp only [Option.some.injEq, Prod.mk.injEq] at h
            constructor
            · rw [← h.1, hrest, hs1]
              simp [section_after, hsp, engine_after]
            · rw [← h.2, hc3, hc1]
              simp [section_writes, hsp, engine_after, apply_writes_append]
      · have hsp : is_symbol_pointers sect = false := by simp [is_symbol_pointers, hlazy, hnl]
        rw [if_neg hnl] at h
        simp only at h
        cases hr : rebind_sections lp64 fuel rebindings slide t.symtab t.strtab
            t.indirect_symtab mem rest cap with
        | none => simp [hr] at h
        | some r2 =>
          rcases r2 with ⟨rest1, c3⟩
          obtain ⟨hrest, hc3⟩ := ih cap rest1 c3 hr
          rw [hr] at h
          simp only [Option.some.injEq, Prod.mk.injEq] at h
          constructor
          · rw [← h.1, hrest]
            simp [section_after, hsp]
          · rw [← h.2, hc3]
            simp [section_writes, hsp]

theorem rebind_sections_returns (lp64 : Bool) (fuel : Nat) (rebindings : List rebindings_entry)
    (slide : Int) (symtab strtab indirect_symtab : Nat) (mem : linkedit_memory)
    (hfuel : fuel ≤ UINT_RANGE) (hnel : ∀ cur ∈ rebindings, cur.rebindings_nel < fuel) :
    ∀ (sects : List section_t) (cap : captured),
      (∀ sect ∈ sects, slot_count lp64 sect < fuel) →
      ∃ r, rebind_sections lp64 fuel rebindings slide symtab strtab indirect_symtab mem
        sects cap = some r := by
  intro sects
  induction sects with
  | nil => intro cap _; exact ⟨_, rfl⟩
  | cons sect rest ih =>
    intro cap hall
    have hsect := hall sect (List.mem_cons_self _ _)
    have hrest : ∀ s ∈ rest, slot_count lp64 s < fuel :=
      fun s hs => hall s (List.mem_cons_of_mem _ hs)
    have hstep1 : ∃ r1, (if sect.flags &&& SECTION_TYPE = S_LAZY_SYMBOL_POINTERS then
        perform_rebinding_with_section lp64 fuel rebindings sect slide symtab strtab
          indirect_symtab mem cap
        else some (sect, cap)) = some r1 ∧ slot_count lp64 r1.1 < fuel := by
      by_cases hlazy : sect.flags &&& SECTION_TYPE = S_LAZY_SYMBOL_POINTERS
      · rw [if_pos hlazy]
        obtain ⟨r, hr⟩ := perform_rebinding_with_section_returns lp64 fuel rebindings sect slide
          symtab strtab indirect_symtab mem cap hfuel hnel hsect
        refine ⟨r, hr, ?_⟩
        unfold perform_rebinding_with_section at hr
        split at hr
        · simp at hr
        · simp only [Option.some.injEq] at hr
          rw [← hr]; exact hsect
      · rw [if_neg hlazy]; exact ⟨_, rfl, hsect⟩
    obtain ⟨⟨s1, c1⟩, h1, hs1⟩ := hstep1
    obtain ⟨⟨s2, c2⟩, h2⟩ : ∃ r2, (if s1.flags &&& SECTION_TYPE = S_NON_LAZY_SYMBOL_POINTERS then
        perform_rebinding_with_section lp64 fuel rebindings s1 slide symtab strtab
          indirect_symtab mem c1
        else some (s1, c1)) = some r2 := by
      by_cases hnl : s1.flags &&& SECTION_TYPE = S_NON_LAZY_SYMBOL_POINTERS
      · rw [if_pos hnl]
        exact perform_rebinding_with_section_returns lp64 fuel rebindings s1 slide
          symtab strtab indirect_symtab mem c1 hfuel hnel hs1
      · rw [if_neg hnl]; exact ⟨_, rfl⟩
    obtain ⟨⟨rest1, c3⟩, h3⟩ := ih c2 hrest
    rw [rebind_sections, h1]
    simp only [h2, h3]
    exact ⟨_, rfl⟩

theorem is_data_segment_iff (lp64 : Bool) (c : load_command) :
    is_data_segment lp64 c = true ↔
      c.cmd = LC_SEGMENT_ARCH_DEPENDENT lp64 ∧
        ¬ (strcmp c.segname SEG_DATA ≠ 0 ∧ strcmp c.segname SEG_DATA_CONST ≠ 0) := by
  unfold is_data_segment
  simp only [Bool.and_eq_true, beq_iff_eq, Bool.or_eq_true, ne_eq, not_and, not_not]
  constructor
  · rintro ⟨h1, h2⟩
    refine ⟨h1, fun h3 => ?_⟩
    rcases h2 with h2 | h2
    · exact absurd h2 h3
    · exact h2
  · rintro ⟨h1, h2⟩
    refine ⟨h1, ?_⟩
    by_cases h3 : strcmp c.segname SEG_DATA = 0
    · exact Or.inl h3
    · exact Or.inr (h2 h3)

theorem rebind_commands_eq (lp64 : Bool) (fuel : Nat) (rebindings : List rebindings_entry)
    (slide : Int) (t : table_addresses) (mem : linkedit_memory) :
    ∀ (cmds : List load_command) (cap : captured) (cmds1 : List load_command) (cap1 : captured),
      rebind_commands lp64 fuel rebindings slide t.symtab t.strtab t.indirect_symtab mem
        cmds cap = some (cmds1, cap1) →
      cmds1 = cmds.map (command_after lp64 rebindings mem t) ∧
      cap1 = apply_writes cap (cmds.flatMap (command_writes lp64 rebindings mem t)) := by
  intro cmds
  induction cmds with
  | nil =>
    intro cap cmds1 cap1 h
    simp only [rebind_commands, Option.some.injEq, Prod.mk.injEq] at h
    simp [h.1.symm, h.2.symm, apply_writes]
  | cons c rest ih =>
    intro cap cmds1 cap1 h
    rw [rebind_commands] at h
    by_cases hd : is_data_segment lp64 c = true
    · have hd1 := (is_data_segment_iff lp64 c).1 hd
      rw [if_pos hd1.1, if_neg hd1.2] at h
      cases hs : rebind_sections lp64 fuel rebindings slide t.symtab t.strtab t.indirect_symtab
          mem c.sects cap with
      | none => simp [hs] at h
      | some r =>
        rcases r with ⟨sects1, c1⟩
        obtain ⟨hsects, hc1⟩ := rebind_sections_eq lp64 fuel rebindings slide t mem c.sects cap
          sects1 c1 hs
        rw [hs] at h
        simp only at h
        cases hr : rebind_commands lp64 fuel rebindings slide t.symtab t.strtab t.indirect_symtab
            mem rest c1 with
        | none => simp [hr] at h
        | some r2 =>
          rcases r2 with ⟨rest1, c2⟩
          obtain ⟨hrest, hc2⟩ := ih c1 rest1 c2 hr
          rw [hr] at h
          simp only [Option.some.injEq, Prod.mk.injEq] at h
          constructor
          · rw [← h.1, hrest, hsects]
            simp [command_after, hd]
          · rw [← h.2, hc2, hc1]
            simp [command_writes, hd, apply_writes_append]
    · have hrest : ∀ r, (match rebind_commands lp64 fuel rebindings slide t.symtab t.strtab
            t.indirect_symtab mem rest cap with
          | none => none
          | some (rest1, cap1) => some (c :: rest1, cap1)) = some r →
          r.1 = (c :: rest).map (command_after lp64 rebindings mem t) ∧
          r.2 = apply_writes cap ((c :: rest).flatMap (command_writes lp64 rebindings mem t)) := by
        intro r hr0
        cases hr : rebind_commands lp64 fuel rebindings slide t.symtab t.strtab t.indirect_symtab
            mem rest cap with
        | none => simp [hr] at hr0
        | some r2 =>
          rcases r2 with ⟨rest1, c2⟩
          obtain ⟨hrest, hc2⟩ := ih cap rest1 c2 hr
          rw [hr] at hr0
          simp only [Option.some.injEq] at hr0
          rw [← hr0]
          constructor
          · simp [command_after, hd, hrest]
          · simp [command_writes, hd, hc2]
      by_cases hcmd : c.cmd = LC_SEGMENT_ARCH_DEPENDENT lp64
      · have hseg : strcmp c.segname SEG_DATA ≠ 0 ∧ strcmp c.segname SEG_DATA_CONST ≠ 0 := by
          by_contra hcon
          exact hd ((is_data_segment_iff lp64 c).2 ⟨hcmd, hcon⟩)
        rw [if_pos hcmd, if_pos hseg] at h
        exact hrest _ h
      · rw [if_neg hcmd] at h
        exact hrest _ h

theorem rebind_commands_returns (lp64 : Bool) (fuel : Nat) (rebindings : List rebindings_entry)
    (slide : Int) (symtab strtab indirect_symtab : Nat) (mem : linkedit_memory)
    (hfuel : fuel ≤ UINT_RANGE) (hnel : ∀ cur ∈ rebindings, cur.rebindings_nel < fuel) :
    ∀ (cmds : List load_command) (cap : captured),
      (∀ c ∈ cmds, ∀ sect ∈ c.sects, slot_count lp64 sect < fuel) →
      ∃ r, rebind_commands lp64 fuel rebindings slide symtab strtab indirect_symtab mem
        cmds cap = some r := by
  intro cmds
  induction cmds with
  | nil => intro cap _; exact ⟨_, rfl⟩
  | cons c rest ih =>
    intro cap hall
    have hrest : ∀ c' ∈ rest, ∀ sect ∈ c'.sects, slot_count lp64 sect < fuel :=
      fun c' hc' => hall c' (List.mem_cons_of_mem _ hc')
    rw [rebind_commands]
    by_cases hcmd : c.cmd = LC_SEGMENT_ARCH_DEPENDENT lp64
    · rw [if_pos hcmd]
      by_cases hseg : strcmp c.segname SEG_DATA ≠ 0 ∧ strcmp c.segname SEG_DATA_CONST ≠ 0
      · rw [if_pos hseg]
        obtain ⟨⟨rest1, c1⟩, h1⟩ := ih cap hrest
        rw [h1]; exact ⟨_, rfl⟩
      · rw [if_neg hseg]
        obtain ⟨⟨sects1, c1⟩, h1⟩ := rebind_sections_returns lp64 fuel rebindings slide symtab
          strtab indirect_symtab mem hfuel hnel c.sects cap (hall c (List.mem_cons_self _ _))
        obtain ⟨⟨rest1, c2⟩, h2⟩ := ih c1 hrest
        rw [h1]; simp only [h2]; exact ⟨_, rfl⟩
    · rw [if_neg hcmd]
      obtain ⟨⟨rest1, c1⟩, h1⟩ := ih cap hrest
      rw [h1]; exact ⟨_, rfl⟩

theorem rebind_symbols_for_image_eq (lp64 : Bool) (fuel : Nat)
    (rebindings : List rebindings_entry) (header : mach_header_t) (slide : Int)
    (cap : captured) (header1 : mach_header_t) (cap1 : captured)
    (h : rebind_symbols_for_image lp64 fuel rebindings header slide cap = some (header1, cap1)) :
    header1 = image_after lp64 rebindings header slide ∧
    cap1 = apply_writes cap (image_writes lp64 rebindings header slide) := by
  unfold rebind_symbols_for_image at h
  unfold image_after image_writes
  cases ht : image_tables lp64 header slide with
  | none =>
    rw [ht] at h
    simp only [Option.some.injEq, Prod.mk.injEq] at h
    simp [h.1.symm, h.2.symm, apply_writes]
  | some t =>
    rw [ht] at h
    simp only at h
    cases hc : rebind_commands lp64 fuel rebindings slide t.symtab t.strtab t.indirect_symtab
        header.mem header.cmds cap with
    | none => simp [hc] at h
    | some r =>
      rcases r with ⟨cmds1, cap2⟩
      obtain ⟨hcmds, hcap⟩ := rebind_commands_eq lp64 fuel rebindings slide t header.mem
        header.cmds cap cmds1 cap2 hc
      rw [hc] at h
      simp only [Option.some.injEq, Prod.mk.injEq] at h
      rw [← h.1, ← h.2, hcmds, hcap]
      exact ⟨rfl, rfl⟩

theorem rebind_symbols_for_image_returns (lp64 : Bool) (fuel : Nat)
    (rebindings : List rebindings_entry) (header : mach_header_t) (slide : Int)
    (cap : captured) (hfuel : fuel ≤ UINT_RANGE)
    (hnel : ∀ cur ∈ rebindings, cur.rebindings_nel < fuel)
    (hsize : ∀ c ∈ header.cmds, ∀ sect ∈ c.sects, slot_count lp64 sect < fuel) :
    ∃ r, rebind_symbols_for_image lp64 fuel rebindings header slide cap = some r := by
  unfold rebind_symbols_for_image
  cases ht : image_tables lp64 header slide with
  | none => exact ⟨_, rfl⟩
  | some t =>
    obtain ⟨⟨cmds1, c1⟩, h4⟩ := rebind_commands_returns lp64 fuel rebindings slide
      t.symtab t.strtab t.indirect_symtab header.mem hfuel hnel header.cmds cap hsize
    simp only [h4]; exact ⟨_, rfl⟩

theorem rebind_images_eq (lp64 : Bool) (fuel : Nat) (rebindings : List rebindings_entry) :
    ∀ (images : List (mach_header_t × Int)) (cap : captured)
      (images1 : List (mach_header_t × Int)) (cap1 : captured),
      rebind_images lp64 fuel rebindings images cap = some (images1, cap1) →
      images1 = images_after lp64 rebindings images ∧
      cap1 = apply_writes cap (images_writes lp64 rebindings images) := by
  intro images
  induction images with
  | nil =>
    intro cap images1 cap1 h
    simp only [rebind_images, Option.some.injEq, Prod.mk.injEq] at h
    simp [h.1.symm, h.2.symm, apply_writes, images_after, images_writes]
  | cons hs rest ih =>
    intro cap images1 cap1 h
    rcases hs with ⟨header, slide⟩
    rw [rebind_images] at h
    cases h1 : rebind_symbols_for_image lp64 fuel rebindings header slide cap with
    | none => simp [h1] at h
    | some r =>
      rcases r with ⟨header1, c1⟩
      obtain ⟨hh, hc1⟩ := rebind_symbols_for_image_eq lp64 fuel rebindings header slide cap
        header1 c1 h1
      rw [h1] at h
      simp only at h
      cases h2 : rebind_images lp64 fuel rebindings rest c1 with
      | none => simp [h2] at h
      | some r2 =>
        rcases r2 with ⟨rest1, c2⟩
        obtain ⟨hrest, hc2⟩ := ih c1 rest1 c2 h2
        rw [h2] at h
        simp only [Option.some.injEq, Prod.mk.injEq] at h
        constructor
        · rw [← h.1, hrest, hh]; simp [images_after]
        · rw [← h.2, hc2, hc1]; simp [images_writes, apply_writes_append]

theorem rebind_images_returns (lp64 : Bool) (fuel : Nat) (rebindings : List rebindings_entry) :
    ∀ (images : List (mach_header_t × Int)) (cap : captured),
      fuel_suffices lp64 fuel rebindings images →
      ∃ r, rebind_images lp64 fuel rebindings images cap = some r := by
  intro images
  induction images with
  | nil => intro cap _; exact ⟨_, rfl⟩
  | cons hs rest ih =>
    intro cap hf
    rcases hs with ⟨header, slide⟩
    obtain ⟨hfuel, hnel, hsize⟩ := hf
    obtain ⟨⟨header1, c1⟩, h1⟩ := rebind_symbols_for_image_returns lp64 fuel rebindings header
      slide cap hfuel hnel (hsize (header, slide) (List.mem_cons_self _ _))
    obtain ⟨⟨rest1, c2⟩, h2⟩ := ih c1
      ⟨hfuel, hnel, fun hs hhs => hsize hs (List.mem_cons_of_mem _ hhs)⟩
    rw [rebind_images, h1]; simp only [h2]; exact ⟨_, rfl⟩

/-! ## The registry and the entry points: lemmas -/

theorem prepend_rebindings_ok (head : List rebindings_entry) (a : List rebinding) (nel : Nat) :
    prepend_rebindings true true head a nel = (0, new_entry a nel :: head) := rfl

theorem prepend_rebindings_fail (m1 m2 : Bool) (hm : (m1 && m2) = false)
    (head : List rebindings_entry) (a : List rebinding) (nel : Nat) :
    prepend_rebindings m1 m2 head a nel = (-1, head) := by
  cases m1 <;> cases m2 <;> simp_all [prepend_rebindings]

/-- What a successful `rebind_symbols` leaves behind. -/
theorem rebind_symbols_eq (lp64 : Bool) (fuel : Nat) (p : process) (a : List rebinding)
    (nel : Nat) (r : Int) (p1 : process)
    (h : rebind_symbols lp64 fuel true true p a nel = some (r, p1)) :
    r = 0 ∧ p1._rebindings_head = new_entry a nel :: p._rebindings_head ∧
    p1.images = images_after lp64 (new_entry a nel :: p._rebindings_head) p.images ∧
    p1.cap = apply_writes p.cap
      (images_writes lp64 (new_entry a nel :: p._rebindings_head) p.images) ∧
    p1.add_image_callbacks =
      if p._rebindings_head = [] then p.add_image_callbacks + 1 else p.add_image_callbacks := by
  unfold rebind_symbols at h
  rw [prepend_rebindings_ok] at h
  simp only [lt_self_iff_false, if_false, List.tail_cons] at h
  by_cases hnil : p._rebindings_head = []
  · rw [if_pos hnil] at h
    unfold _dyld_register_func_for_add_image at h
    simp only at h
    cases hi : rebind_images lp64 fuel (new_entry a nel :: p._rebindings_head) p.images p.cap with
    | none => simp [hi] at h
    | some res =>
      rcases res with ⟨images1, cap1⟩
      obtain ⟨h1, h2⟩ := rebind_images_eq lp64 fuel _ _ _ _ _ hi
      rw [hi] at h
      simp only [Option.some.injEq, Prod.mk.injEq] at h
      obtain ⟨hr, hp⟩ := h
      subst hp
      simp [hr.symm, h1, h2, hnil]
  · rw [if_neg hnil] at h
    cases hi : rebind_images lp64 fuel (new_entry a nel :: p._rebindings_head) p.images p.cap with
    | none => simp [hi] at h
    | some res =>
      rcases res with ⟨images1, cap1⟩
      obtain ⟨h1, h2⟩ := rebind_images_eq lp64 fuel _ _ _ _ _ hi
      rw [hi] at h
      simp only [Option.some.injEq, Prod.mk.injEq] at h
      obtain ⟨hr, hp⟩ := h
      subst hp
      simp [hr.symm, h1, h2, hnil]

theorem rebind_symbols_returns (lp64 : Bool) (fuel : Nat) (p : process) (a : List rebinding)
    (nel : Nat)
    (hf : fuel_suffices lp64 fuel (new_entry a nel :: p._rebindings_head) p.images) :
    ∃ p1, rebind_symbols lp64 fuel true true p a nel = some (0, p1) := by
  obtain ⟨⟨images1, cap1⟩, hi⟩ := rebind_images_returns lp64 fuel _ p.images p.cap hf
  unfold rebind_symbols
  rw [prepend_rebindings_ok]
  simp only [lt_self_iff_false, if_false, List.tail_cons]
  by_cases hnil : p._rebindings_head = []
  · rw [if_pos hnil]
    unfold _dyld_register_func_for_add_image
    simp only [hi]
    exact ⟨_, rfl⟩
  · rw [if_neg hnil]
    simp only [hi]
    exact ⟨_, rfl⟩

theorem rebind_symbols_fail (lp64 : Bool) (fuel : Nat) (m1 m2 : Bool)
    (hm : (m1 && m2) = false) (p : process) (a : List rebinding) (nel : Nat) :
    rebind_symbols lp64 fuel m1 m2 p a nel = some (-1, p) := by
  unfold rebind_symbols
  rw [prepend_rebindings_fail m1 m2 hm]
  simp

/-! ## Chains of one request -/

theorem rebinding_matches_eq (s : List Nat) (r : rebinding) :
    rebinding_matches s r =
      (cstr s != [] && (cstr s).drop 1 == cstr r.name && cstr r.name != []) := by
  rw [Bool.eq_iff_iff, rebinding_matches_iff]
  simp only [Bool.and_eq_true, bne_iff_ne, ne_eq, beq_iff_eq]
  constructor
  · rintro ⟨m, h1, h2⟩
    rw [h1]
    exact ⟨⟨List.cons_ne_nil _ _, rfl⟩, h2⟩
  · rintro ⟨⟨h1, h2⟩, h3⟩
    cases hc : cstr s with
    | nil => exact absurd hc h1
    | cons m rest =>
      rw [hc] at h2
      simp only [List.drop_succ_cons, List.drop_zero] at h2
      exact ⟨m, by rw [h2], h3⟩

theorem slot_lookup_single (lp64 : Bool) (r : rebinding) (mem : linkedit_memory)
    (t : table_addresses) (reserved1 i : Nat) :
    slot_lookup lp64 [⟨[r], 1⟩] mem t reserved1 i =
      if slot_names lp64 mem t reserved1 i r.name = true ∧ cstr r.name ≠ [] then some r
      else none := by
  unfold slot_lookup slot_names
  cases slot_symbol lp64 mem t reserved1 i with
  | none => simp
  | some s =>
    simp only [chain_lookup, entry_lookup, entry_lookup_from, List.getD_cons_zero]
    rw [rebinding_matches_eq]
    by_cases h1 : cstr r.name = []
    · simp [h1]
    · simp only [h1, ne_eq, not_false_eq_true, bne_iff_ne, Bool.and_true, and_true,
        Bool.and_eq_true, beq_iff_eq]
      split_ifs <;> rfl

theorem flatMap_range_single {α : Type} (f : Nat → List α) (k : Nat) :
    ∀ n, (∀ j, j < n → j ≠ k → f j = []) →
      (List.range n).flatMap f = if k < n then f k else [] := by
  intro n
  induction n with
  | zero => intro _; simp
  | succ n ih =>
    intro h
    rw [List.range_succ, List.flatMap_append, ih (fun j hj hne => h j (by omega) hne)]
    by_cases hk : k < n
    · have : n ≠ k := by omega
      simp [hk, Nat.lt_succ_of_lt hk, h n (by omega) this]
    · by_cases hkn : k = n
      · subst hkn; simp
      · have h1 : ¬ k < n + 1 := by omega
        simp [hk, h1, h n (by omega) (fun h' => hkn h'.symm)]

/-! ## C1: the scenario of one request and one matching slot -/

/-- C1 (amended).  Engine run on one section with the chain of the single request
`(n, R, &orig)`, `orig` being cell `c`: when `n` is not empty and slot `k` is the only
slot of the section that resolves to a marker character followed by `n`, the call
returns (given fuel for the slots, which must number fewer than `2 ^ 32`), and after
it slot `k` holds `R`, every other slot holds its previous value, and `orig` holds
the value slot `k` held before the call if that value differs from `R`; if slot `k`
held `R` already, nothing is written through `replaced`. -/
theorem C1_single_request_rebinds_one_slot (lp64 : Bool) (fuel : Nat) (sect : section_t)
    (slide : Int) (t : table_addresses) (mem : linkedit_memory) (cap : captured)
    (n : List Nat) (R c k : Nat)
    (hk : k < slot_count lp64 sect)
    (hn : cstr n ≠ [])
    (hres : slot_names lp64 mem t sect.reserved1 k n = true)
    (honly : ∀ j, j < slot_count lp64 sect → j ≠ k →
      slot_names lp64 mem t sect.reserved1 j n = false) :
    (slot_count lp64 sect < fuel → 1 < fuel → fuel ≤ UINT_RANGE →
      ∃ r, perform_rebinding_with_section lp64 fuel [⟨[⟨n, R, some c⟩], 1⟩] sect slide
        t.symtab t.strtab t.indirect_symtab mem cap = some r) ∧
    ∀ sect1 cap1,
      perform_rebinding_with_section lp64 fuel [⟨[⟨n, R, some c⟩], 1⟩] sect slide
        t.symtab t.strtab t.indirect_symtab mem cap = some (sect1, cap1) →
      sect1.indirect_symbol_bindings k = R ∧
      (∀ j, j ≠ k → sect1.indirect_symbol_bindings j = sect.indirect_symbol_bindings j) ∧
      (sect.indirect_symbol_bindings k ≠ R →
        cap1.cells c = sect.indirect_symbol_bindings k ∧
        cap1.log = cap.log ++ [⟨k, c, sect.indirect_symbol_bindings k⟩]) ∧
      (sect.indirect_symbol_bindings k = R → cap1 = cap) := by
  constructor
  · intro h1 h2 h3
    exact perform_rebinding_with_section_returns lp64 fuel _ sect slide _ _ _ mem cap h3
      (by intro cur hcur; simp only [List.mem_singleton] at hcur; subst hcur; exact h2) h1
  · intro sect1 cap1 hrun
    obtain ⟨-, hs, hc⟩ := perform_rebinding_with_section_eq lp64 fuel _ sect slide t mem cap
      sect1 cap1 hrun
    have hlk : slot_lookup lp64 [⟨[⟨n, R, some c⟩], 1⟩] mem t sect.reserved1 k =
        some ⟨n, R, some c⟩ := by
      rw [slot_lookup_single, if_pos ⟨hres, hn⟩]
    have hlj : ∀ j, j < slot_count lp64 sect → j ≠ k →
        slot_lookup lp64 [⟨[⟨n, R, some c⟩], 1⟩] mem t sect.reserved1 j = none := by
      intro j hj hjk
      rw [slot_lookup_single, if_neg]
      simp [honly j hj hjk]
    have hw : (List.range (slot_count lp64 sect)).flatMap (fun i =>
        slot_writes lp64 [⟨[⟨n, R, some c⟩], 1⟩] mem t sect.reserved1 i
          (sect.indirect_symbol_bindings i)) =
        if sect.indirect_symbol_bindings k ≠ R then [⟨k, c, sect.indirect_symbol_bindings k⟩]
        else [] := by
      rw [flatMap_range_single _ k _ (fun j hj hjk => by simp [slot_writes, hlj j hj hjk]),
        if_pos hk]
      simp [slot_writes, hlk]
    refine ⟨?_, ?_, ?_, ?_⟩
    · rw [hs]; simp [engine_after, hk, binding_after, hlk]
    · intro j hjk
      rw [hs]
      by_cases hj : j < slot_count lp64 sect
      · simp [engine_after, hj, binding_after, hlj j hj hjk]
      · simp [engine_after, hj]
    · intro hne
      rw [hc]
      simp only [engine_after, hw, if_pos hne]
      simp [apply_writes, write_replaced]
    · intro heq
      rw [hc]
      simp only [engine_after, hw]
      simp [heq, apply_writes]

/-- Witness of C1: the section of four slots whose slot 2 resolves to `_write`. -/
theorem C1_single_request_rebinds_one_slot_witness :
    (∃ r, perform_rebinding_with_section true 10 [⟨[⟨str_write, 77, some 0⟩], 1⟩] ex_section 0
      2000 3000 1000 ex_mem ex_cap = some r) ∧
    ∃ sect1 cap1, perform_rebinding_with_section true 10 [⟨[⟨str_write, 77, some 0⟩], 1⟩]
        ex_section 0 2000 3000 1000 ex_mem ex_cap = some (sect1, cap1) ∧
      sect1.indirect_symbol_bindings 2 = 77 ∧
      (∀ j, j ≠ 2 → sect1.indirect_symbol_bindings j = 100 + j) ∧
      cap1.cells 0 = 102 ∧ cap1.log = [⟨2, 0, 102⟩] := by
  have h := C1_single_request_rebinds_one_slot true 10 ex_section 0 ex_tables ex_mem ex_cap
    str_write 77 0 2 (by decide) (by decide) (by decide) (by decide)
  refine ⟨h.1 (by decide) (by decide) (by decide), _, _, rfl, ?_⟩
  obtain ⟨h1, h2, h3, -⟩ := h.2 _ _ rfl
  exact ⟨h1, h2, (h3 (by decide)).1, (h3 (by decide)).2⟩

/-- Counterexample to C1 as stated.  (a) Slot 2 is the only slot that resolves to
`_write` and holds `R = 77` already: after the call `orig` (cell 0) still holds 0,
not the value 77 that slot 2 held before the call.  (b) For the empty name, slot 0
of the second section is the only slot that resolves to the marker alone, and after
the call it holds 200, not `R = 77`. -/
theorem C1_counterexample :
    (slot_names true ex_mem ex_tables ex_section_hooked.reserved1 2 str_write = true ∧
      (∀ j, j < slot_count true ex_section_hooked → j ≠ 2 →
        slot_names true ex_mem ex_tables ex_section_hooked.reserved1 j str_write = false) ∧
      ex_section_hooked.indirect_symbol_bindings 2 = 77 ∧
      ∃ sect1 cap1, perform_rebinding_with_section true 10 [⟨[⟨str_write, 77, some 0⟩], 1⟩]
          ex_section_hooked 0 2000 3000 1000 ex_mem ex_cap = some (sect1, cap1) ∧
        cap1.cells 0 = 0) ∧
    (slot_names true ex_mem ex_tables ex_got.reserved1 0 [] = true ∧
      (∀ j, j < slot_count true ex_got → j ≠ 0 →
        slot_names true ex_mem ex_tables ex_got.reserved1 j [] = false) ∧
      ∃ sect1 cap1, perform_rebinding_with_section true 10 [⟨[⟨[], 77, some 0⟩], 1⟩]
          ex_got 0 2000 3000 1000 ex_mem ex_cap = some (sect1, cap1) ∧
        sect1.indirect_symbol_bindings 0 = 200) := by
  refine ⟨⟨by decide, by decide, by decide, _, _, rfl, by decide⟩,
    ⟨by decide, by decide, _, _, rfl, by decide⟩⟩

/-! ## What a pass over the images preserves -/

theorem section_after_reserved1 (lp64 : Bool) (rebindings : List rebindings_entry)
    (mem : linkedit_memory) (t : table_addresses) (sect : section_t) :
    (section_after lp64 rebindings mem t sect).reserved1 = sect.reserved1 := by
  unfold section_after; split_ifs <;> rfl

theorem section_after_slot_count (lp64 : Bool) (rebindings : List rebindings_entry)
    (mem : linkedit_memory) (t : table_addresses) (sect : section_t) :
    slot_count lp64 (section_after lp64 rebindings mem t sect) = slot_count lp64 sect := by
  unfold section_after; split_ifs <;> rfl

theorem section_after_is_symbol_pointers (lp64 : Bool) (rebindings : List rebindings_entry)
    (mem : linkedit_memory) (t : table_addresses) (sect : section_t) :
    is_symbol_pointers (section_after lp64 rebindings mem t sect) = is_symbol_pointers sect := by
  unfold section_after; split_ifs <;> rfl

theorem command_after_cmd (lp64 : Bool) (rebindings : List rebindings_entry)
    (mem : linkedit_memory) (t : table_addresses) (c : load_command) :
    (command_after lp64 rebindings mem t c).cmd = c.cmd := by
  unfold command_after; split_ifs <;> rfl

theorem command_after_segname (lp64 : Bool) (rebindings : List rebindings_entry)
    (mem : linkedit_memory) (t : table_addresses) (c : load_command) :
    (command_after lp64 rebindings mem t c).segname = c.segname := by
  unfold command_after; split_ifs <;> rfl

theorem command_after_is_data_segment (lp64 : Bool) (rebindings : List rebindings_entry)
    (mem : linkedit_memory) (t : table_addresses) (c : load_command) :
    is_data_segment lp64 (command_after lp64 rebindings mem t c) = is_data_segment lp64 c := by
  unfold is_data_segment
  rw [command_after_cmd, command_after_segname]

theorem find_commands_step_after (lp64 : Bool) (rebindings : List rebindings_entry)
    (mem : linkedit_memory) (t : table_addresses) (acc : found_commands) (c : load_command) :
    find_commands_step lp64
        ⟨acc.linkedit_segment.map (command_after lp64 rebindings mem t),
          acc.symtab_cmd.map (command_after lp64 rebindings mem t),
          acc.dysymtab_cmd.map (command_after lp64 rebindings mem t)⟩
        (command_after lp64 rebindings mem t c) =
      ⟨(find_commands_step lp64 acc c).linkedit_segment.map (command_after lp64 rebindings mem t),
        (find_commands_step lp64 acc c).symtab_cmd.map (command_after lp64 rebindings mem t),
        (find_commands_step lp64 acc c).dysymtab_cmd.map
          (command_after lp64 rebindings mem t)⟩ := by
  unfold find_commands_step
  rw [command_after_cmd, command_after_segname]
  split_ifs <;> rfl

theorem find_commands_foldl_after (lp64 : Bool) (rebindings : List rebindings_entry)
    (mem : linkedit_memory) (t : table_addresses) :
    ∀ (cmds : List load_command) (acc : found_commands),
      (cmds.map (command_after lp64 rebindings mem t)).foldl (find_commands_step lp64)
        ⟨acc.linkedit_segment.map (command_after lp64 rebindings mem t),
          acc.symtab_cmd.map (command_after lp64 rebindings mem t),
          acc.dysymtab_cmd.map (command_after lp64 rebindings mem t)⟩ =
      ⟨(cmds.foldl (find_commands_step lp64) acc).linkedit_segment.map
          (command_after lp64 rebindings mem t),
        (cmds.foldl (find_commands_step lp64) acc).symtab_cmd.map
          (command_after lp64 rebindings mem t),
        (cmds.foldl (find_commands_step lp64) acc).dysymtab_cmd.map
          (command_after lp64 rebindings mem t)⟩ := by
  intro cmds
  induction cmds with
  | nil => intro acc; rfl
  | cons c rest ih =>
    intro acc
    simp only [List.map_cons, List.foldl_cons]
    rw [find_commands_step_after, ih]

theorem command_after_fields (lp64 : Bool) (rebindings : List rebindings_entry)
    (mem : linkedit_memory) (t : table_addresses) (c : load_command) :
    (command_after lp64 rebindings mem t c).vmaddr = c.vmaddr ∧
    (command_after lp64 rebindings mem t c).fileoff = c.fileoff ∧
    (command_after lp64 rebindings mem t c).symoff = c.symoff ∧
    (command_after lp64 rebindings mem t c).stroff = c.stroff ∧
    (command_after lp64 rebindings mem t c).indirectsymoff = c.indirectsymoff ∧
    (command_after lp64 rebindings mem t c).nindirectsyms = c.nindirectsyms := by
  unfold command_after; split_ifs <;> exact ⟨rfl, rfl, rfl, rfl, rfl, rfl⟩

/-- The second loop over the load commands leaves the tables of the image where they are. -/
theorem image_tables_image_after (lp64 : Bool) (rebindings : List rebindings_entry)
    (header : mach_header_t) (slide slide1 : Int) :
    image_tables lp64 (image_after lp64 rebindings header slide) slide1 =
      image_tables lp64 header slide1 := by
  unfold image_after
  cases ht : image_tables lp64 header slide with
  | none => rfl
  | some t =>
    simp only
    unfold image_tables
    simp only
    have hf := find_commands_foldl_after lp64 rebindings header.mem t header.cmds
      ⟨none, none, none⟩
    simp only [Option.map_none'] at hf
    unfold find_commands
    rw [hf]
    by_cases hk : header.known = false
    · simp [hk]
    · simp only [hk, if_false]
      cases (List.foldl (find_commands_step lp64) ⟨none, none, none⟩ header.cmds).symtab_cmd with
      | none => rfl
      | some a =>
        cases (List.foldl (find_commands_step lp64) ⟨none, none, none⟩
            header.cmds).dysymtab_cmd with
        | none => rfl
        | some b =>
          cases (List.foldl (find_commands_step lp64) ⟨none, none, none⟩
              header.cmds).linkedit_segment with
          | none => rfl
          | some c =>
            obtain ⟨-, -, ha1, ha2, -, -⟩ := command_after_fields lp64 rebindings header.mem t a
            obtain ⟨-, -, -, -, hb1, hb2⟩ := command_after_fields lp64 rebindings header.mem t b
            obtain ⟨hc1, hc2, -, -, -, -⟩ := command_after_fields lp64 rebindings header.mem t c
            simp only [Option.map_some', linkedit_base, ha1, ha2, hb1, hb2, hc1, hc2]

/-! ## C2: shadowing order -/

theorem image_after_mem (lp64 : Bool) (rebindings : List rebindings_entry)
    (header : mach_header_t) (slide : Int) :
    (image_after lp64 rebindings header slide).mem = header.mem := by
  unfold image_after
  cases image_tables lp64 header slide <;> rfl

/-- After a pass over an image, a slot to which a request applies holds the
replacement of that request. -/
theorem image_after_slot_holds (lp64 : Bool) (rebindings : List rebindings_entry)
    (header : mach_header_t) (slide : Int) (t : table_addresses)
    (ht : image_tables lp64 header slide = some t)
    (c : load_command) (hc : c ∈ (image_after lp64 rebindings header slide).cmds)
    (hd : is_data_segment lp64 c = true) (sect : section_t) (hsect : sect ∈ c.sects)
    (hsp : is_symbol_pointers sect = true) (i : Nat) (hi : i < slot_count lp64 sect)
    (r : rebinding)
    (hr : slot_lookup lp64 rebindings header.mem t sect.reserved1 i = some r) :
    sect.indirect_symbol_bindings i = r.replacement := by
  unfold image_after at hc
  rw [ht] at hc
  simp only [List.mem_map] at hc
  obtain ⟨c0, -, hc0⟩ := hc
  subst hc0
  rw [command_after_is_data_segment] at hd
  unfold command_after at hsect
  rw [if_pos hd] at hsect
  simp only [List.mem_map] at hsect
  obtain ⟨s0, -, hs0⟩ := hsect
  subst hs0
  rw [section_after_is_symbol_pointers] at hsp
  rw [section_after_slot_count] at hi
  rw [section_after_reserved1] at hr
  unfold section_after
  rw [if_pos hsp]
  simp only [hi, if_true, binding_after, hr]

theorem images_after_slot_holds (lp64 : Bool) (rebindings : List rebindings_entry)
    (images : List (mach_header_t × Int)) (hs : mach_header_t × Int)
    (hhs : hs ∈ images_after lp64 rebindings images) (t : table_addresses)
    (ht : image_tables lp64 hs.1 hs.2 = some t)
    (c : load_command) (hc : c ∈ hs.1.cmds)
    (hd : is_data_segment lp64 c = true) (sect : section_t) (hsect : sect ∈ c.sects)
    (hsp : is_symbol_pointers sect = true) (i : Nat) (hi : i < slot_count lp64 sect)
    (r : rebinding)
    (hr : slot_lookup lp64 rebindings hs.1.mem t sect.reserved1 i = some r) :
    sect.indirect_symbol_bindings i = r.replacement := by
  unfold images_after at hhs
  simp only [List.mem_map] at hhs
  obtain ⟨hs0, -, h0⟩ := hhs
  subst h0
  simp only at ht hc hr
  rw [image_tables_image_after] at ht
  rw [image_after_mem] at hr
  exact image_after_slot_holds lp64 rebindings hs0.1 hs0.2 t ht c hc hd sect hsect hsp i hi r hr

theorem image_after_slot_count (lp64 : Bool) (fuel : Nat) (rebindings : List rebindings_entry)
    (header : mach_header_t) (slide : Int)
    (h : ∀ c ∈ header.cmds, ∀ sect ∈ c.sects, slot_count lp64 sect < fuel) :
    ∀ c ∈ (image_after lp64 rebindings header slide).cmds, ∀ sect ∈ c.sects,
      slot_count lp64 sect < fuel := by
  unfold image_after
  cases image_tables lp64 header slide with
  | none => exact h
  | some t =>
    intro c hc sect hsect
    simp only [List.mem_map] at hc
    obtain ⟨c0, hc0, h0⟩ := hc
    subst h0
    unfold command_after at hsect
    by_cases hd : is_data_segment lp64 c0 = true
    · rw [if_pos hd] at hsect
      simp only [List.mem_map] at hsect
      obtain ⟨s0, hs0, h1⟩ := hsect
      subst h1
      rw [section_after_slot_count]
      exact h c0 hc0 s0 hs0
    · rw [if_neg hd] at hsect
      exact h c0 hc0 sect hsect

theorem fuel_suffices_images_after (lp64 : Bool) (fuel : Nat)
    (rebindings rebindings1 : List rebindings_entry) (images : List (mach_header_t × Int))
    (h : fuel_suffices lp64 fuel rebindings images) :
    fuel_suffices lp64 fuel rebindings (images_after lp64 rebindings1 images) := by
  obtain ⟨h1, h2, h3⟩ := h
  refine ⟨h1, h2, ?_⟩
  intro hs hhs
  unfold images_after at hhs
  simp only [List.mem_map] at hhs
  obtain ⟨hs0, hmem, h0⟩ := hhs
  subst h0
  exact image_after_slot_count lp64 fuel rebindings1 hs0.1 hs0.2 (h3 hs0 hmem)

theorem fuel_suffices_tail (lp64 : Bool) (fuel : Nat) (cur : rebindings_entry)
    (rebindings : List rebindings_entry) (images : List (mach_header_t × Int))
    (h : fuel_suffices lp64 fuel (cur :: rebindings) images) :
    fuel_suffices lp64 fuel rebindings images :=
  ⟨h.1, fun c hc => h.2.1 c (List.mem_cons_of_mem _ hc), h.2.2⟩

theorem slot_lookup_cons_single (lp64 : Bool) (r : rebinding) (rest : List rebindings_entry)
    (mem : linkedit_memory) (t : table_addresses) (reserved1 i : Nat)
    (hn : cstr r.name ≠ []) (hres : slot_names lp64 mem t reserved1 i r.name = true) :
    slot_lookup lp64 (⟨[r], 1⟩ :: rest) mem t reserved1 i = some r := by
  unfold slot_lookup
  unfold slot_names at hres
  cases hs : slot_symbol lp64 mem t reserved1 i with
  | none => rw [hs] at hres; simp at hres
  | some s =>
    rw [hs] at hres
    simp only at hres ⊢
    have hm : rebinding_matches s r = true := by
      rw [rebinding_matches_eq]
      simp only [Bool.and_eq_true, bne_iff_ne, ne_eq] at hres ⊢
      exact ⟨hres, hn⟩
    simp [chain_lookup, entry_lookup, entry_lookup_from, hm]

/-- C2 (amended).  Shadowing order: when `rebind_symbols` registers `(n, R1)` and a
later `rebind_symbols` registers `(n, R2)`, for a name `n` that is not empty, then
after both calls every slot of every loaded image that is not skipped and whose
symbol name is a marker character followed by `n` holds `R2`, hence not `R1` when
`R1` differs from `R2`.  Both calls return when the fuel covers the slot counts and
the entry lengths, which must be below `2 ^ 32`. -/
theorem C2_later_registration_shadows (lp64 : Bool) (fuel : Nat) (p : process)
    (n : List Nat) (R1 R2 : Nat) (o1 o2 : Option Nat) (hn : cstr n ≠ []) :
    (fuel_suffices lp64 fuel (⟨[⟨n, R2, o2⟩], 1⟩ :: ⟨[⟨n, R1, o1⟩], 1⟩ :: p._rebindings_head)
        p.images →
      ∃ p1 p2, rebind_symbols lp64 fuel true true p [⟨n, R1, o1⟩] 1 = some (0, p1) ∧
        rebind_symbols lp64 fuel true true p1 [⟨n, R2, o2⟩] 1 = some (0, p2)) ∧
    ∀ r1 p1 r2 p2,
      rebind_symbols lp64 fuel true true p [⟨n, R1, o1⟩] 1 = some (r1, p1) →
      rebind_symbols lp64 fuel true true p1 [⟨n, R2, o2⟩] 1 = some (r2, p2) →
      every_slot lp64 p2.images (fun mem t sect i =>
        slot_names lp64 mem t sect.reserved1 i n = true →
          sect.indirect_symbol_bindings i = R2 ∧
            (R1 ≠ R2 → sect.indirect_symbol_bindings i ≠ R1)) := by
  constructor
  · intro hf
    obtain ⟨p1, hp1⟩ := rebind_symbols_returns lp64 fuel p [⟨n, R1, o1⟩] 1
      (fuel_suffices_tail lp64 fuel _ _ _ hf)
    obtain ⟨-, hh1, hi1, -, -⟩ := rebind_symbols_eq lp64 fuel p _ 1 0 p1 hp1
    obtain ⟨p2, hp2⟩ := rebind_symbols_returns lp64 fuel p1 [⟨n, R2, o2⟩] 1 (by
      rw [hh1, hi1]
      exact fuel_suffices_images_after lp64 fuel _ _ _ hf)
    exact ⟨p1, p2, hp1, hp2⟩
  · intro r1 p1 r2 p2 h1 h2 hs hhs t ht c hc hd sect hsect hsp i hi hname
    obtain ⟨-, -, hi2, -, -⟩ := rebind_symbols_eq lp64 fuel p1 _ 1 r2 p2 h2
    rw [hi2] at hhs
    have hlk := slot_lookup_cons_single lp64 ⟨n, R2, o2⟩ p1._rebindings_head hs.1.mem t
      sect.reserved1 i hn hname
    have := images_after_slot_holds lp64 _ p1.images hs hhs t ht c hc hd sect hsect hsp i hi _ hlk
    exact ⟨this, fun hne h => hne (by rw [← h, this])⟩

/-- Witness of C2: `write` is registered with 77 and then with 88 in the example
process; both slots that resolve to `_write` hold 88 afterwards. -/
theorem C2_later_registration_shadows_witness :
    cstr str_write ≠ [] ∧
    ∃ p1 p2, rebind_symbols true 10 true true ex_process [⟨str_write, 77, none⟩] 1 = some (0, p1) ∧
      rebind_symbols true 10 true true p1 [⟨str_write, 88, none⟩] 1 = some (0, p2) ∧
      every_slot true p2.images (fun mem t sect i =>
        slot_names true mem t sect.reserved1 i str_write = true →
          sect.indirect_symbol_bindings i = 88 ∧
            (77 ≠ 88 → sect.indirect_symbol_bindings i ≠ 77)) ∧
      slot_value p2 0 3 0 2 = some 88 ∧ slot_value p2 0 3 1 2 = some 88 :=
  ⟨by decide, _, _, rfl, rfl,
    (C2_later_registration_shadows true 10 ex_process str_write 77 88 none none
      (by decide)).2 _ _ _ _ rfl rfl,
    by decide, by decide⟩

/-- Counterexample to C2 as stated: for the empty name, slot 0 of the second section
of the example image resolves to the marker alone, and after the registrations of
`("", 77)` and `("", 88)` it holds 200, not 88. -/
theorem C2_counterexample :
    ∃ p1 p2, rebind_symbols true 10 true true ex_process [⟨[], 77, none⟩] 1 = some (0, p1) ∧
      rebind_symbols true 10 true true p1 [⟨[], 88, none⟩] 1 = some (0, p2) ∧
      image_tables true (ex_image [ex_section, ex_got]) 0 = some ex_tables ∧
      slot_names true ex_mem ex_tables ex_got.reserved1 0 [] = true ∧
      slot_value p2 0 3 1 0 = some 200 :=
  ⟨_, _, rfl, rfl, by decide, by decide, by decide⟩

/-! ## C3 and C4: slots that are skipped or whose name is too short -/

theorem apply_writes_log (ws : List capture_write) :
    ∀ cap : captured, (apply_writes cap ws).log = cap.log ++ ws := by
  induction ws with
  | nil => intro cap; simp [apply_writes]
  | cons w rest ih =>
    intro cap
    have := ih (write_replaced cap w.slot w.cell w.value)
    simp only [apply_writes, List.foldl_cons] at this ⊢
    rw [this]
    simp [write_replaced]

theorem slot_writes_slot (lp64 : Bool) (rebindings : List rebindings_entry)
    (mem : linkedit_memory) (t : table_addresses) (reserved1 i v : Nat) (w : capture_write)
    (hw : w ∈ slot_writes lp64 rebindings mem t reserved1 i v) :
    w.slot = i ∧ ∃ r, slot_lookup lp64 rebindings mem t reserved1 i = some r := by
  unfold slot_writes at hw
  cases hl : slot_lookup lp64 rebindings mem t reserved1 i with
  | none => rw [hl] at hw; simp at hw
  | some r =>
    rw [hl] at hw
    simp only at hw
    cases hr : r.replaced with
    | none => rw [hr] at hw; simp at hw
    | some c =>
      rw [hr] at hw
      simp only at hw
      split_ifs at hw
      · simp only [List.mem_singleton] at hw
        exact ⟨by rw [hw], r, rfl⟩
      · simp at hw

/-- A slot to which no request applies keeps its value, and no write through a
`replaced` pointer is made for it. -/
theorem perform_slot_untouched (lp64 : Bool) (fuel : Nat) (rebindings : List rebindings_entry)
    (sect : section_t) (slide : Int) (t : table_addresses) (mem : linkedit_memory)
    (cap : captured) (i : Nat)
    (hl : slot_lookup lp64 rebindings mem t sect.reserved1 i = none)
    (sect1 : section_t) (cap1 : captured)
    (hrun : perform_rebinding_with_section lp64 fuel rebindings sect slide t.symtab t.strtab
      t.indirect_symtab mem cap = some (sect1, cap1)) :
    sect1.indirect_symbol_bindings i = sect.indirect_symbol_bindings i ∧
    ∃ ws, cap1.log = cap.log ++ ws ∧ ∀ w ∈ ws, w.slot ≠ i := by
  obtain ⟨-, hs, hc⟩ := perform_rebinding_with_section_eq lp64 fuel rebindings sect slide t mem
    cap sect1 cap1 hrun
  constructor
  · rw [hs]
    by_cases hi : i < slot_count lp64 sect
    · simp [engine_after, hi, binding_after, hl]
    · simp [engine_after, hi]
  · refine ⟨_, by rw [hc]; exact apply_writes_log _ _, ?_⟩
    intro w hw hslot
    simp only [List.mem_flatMap, List.mem_range] at hw
    obtain ⟨j, -, hj⟩ := hw
    obtain ⟨h1, r, h2⟩ := slot_writes_slot lp64 rebindings mem t sect.reserved1 j _ w hj
    rw [h1] at hslot
    subst hslot
    rw [hl] at h2
    exact absurd h2 (by simp)

theorem chain_lookup_none (symbol_name : List Nat)
    (h : ∀ r, rebinding_matches symbol_name r = false) :
    ∀ rebindings : List rebindings_entry, chain_lookup symbol_name rebindings = none := by
  intro rebindings
  induction rebindings with
  | nil => rfl
  | cons cur next ih =>
    have : entry_lookup symbol_name cur = none :=
      entry_lookup_from_eq_none symbol_name cur cur.rebindings_nel 0 (fun j' _ _ => h _)
    simp [chain_lookup, this, ih]

theorem is_skipped_of_sentinel (x : Nat)
    (h : x = INDIRECT_SYMBOL_ABS ∨ x = INDIRECT_SYMBOL_LOCAL) : is_skipped x = true := by
  rcases h with h | h <;> subst h <;> decide

/-- C3.  Sentinel skip: for every section, every chain and every slot `i` whose
entry of the indirect symbol table, `indirect_symtab[reserved1 + i]`, equals
`INDIRECT_SYMBOL_ABS` or `INDIRECT_SYMBOL_LOCAL`, a call of
`perform_rebinding_with_section` that returns leaves slot `i` as it was and makes no
write through a `replaced` pointer for slot `i`, whatever the tables hold; the call
returns when the fuel covers the slot count and the entry lengths. -/
theorem C3_sentinel_slot_untouched (lp64 : Bool) (fuel : Nat)
    (rebindings : List rebindings_entry) (sect : section_t) (slide : Int)
    (t : table_addresses) (mem : linkedit_memory) (cap : captured) (i : Nat)
    (hsent : symtab_index_of mem t.indirect_symtab sect.reserved1 i = INDIRECT_SYMBOL_ABS ∨
      symtab_index_of mem t.indirect_symtab sect.reserved1 i = INDIRECT_SYMBOL_LOCAL) :
    (fuel ≤ UINT_RANGE → (∀ cur ∈ rebindings, cur.rebindings_nel < fuel) →
      slot_count lp64 sect < fuel →
      ∃ r, perform_rebinding_with_section lp64 fuel rebindings sect slide t.symtab t.strtab
        t.indirect_symtab mem cap = some r) ∧
    ∀ sect1 cap1,
      perform_rebinding_with_section lp64 fuel rebindings sect slide t.symtab t.strtab
        t.indirect_symtab mem cap = some (sect1, cap1) →
      sect1.indirect_symbol_bindings i = sect.indirect_symbol_bindings i ∧
      ∃ ws, cap1.log = cap.log ++ ws ∧ ∀ w ∈ ws, w.slot ≠ i := by
  constructor
  · intro h1 h2 h3
    exact perform_rebinding_with_section_returns lp64 fuel rebindings sect slide _ _ _ mem cap
      h1 h2 h3
  · intro sect1 cap1 hrun
    refine perform_slot_untouched lp64 fuel rebindings sect slide t mem cap i ?_ sect1 cap1 hrun
    simp [slot_lookup, slot_symbol, is_skipped_of_sentinel _ hsent]

/-- Witness of C3: slot 1 of the second example section is `INDIRECT_SYMBOL_ABS`. -/
theorem C3_sentinel_slot_untouched_witness :
    symtab_index_of ex_mem 1000 ex_got.reserved1 1 = INDIRECT_SYMBOL_ABS ∧
    ∃ sect1 cap1, perform_rebinding_with_section true 10 [⟨[⟨str_write, 77, some 0⟩], 1⟩]
        ex_got 0 2000 3000 1000 ex_mem ex_cap = some (sect1, cap1) ∧
      sect1.indirect_symbol_bindings 1 = 201 ∧
      ∃ ws, cap1.log = ex_cap.log ++ ws ∧ ∀ w ∈ ws, w.slot ≠ 1 :=
  ⟨by decide, _, _, rfl,
    (C3_sentinel_slot_untouched true 10 [⟨[⟨str_write, 77, some 0⟩], 1⟩] ex_got 0 ex_tables
      ex_mem ex_cap 1 (Or.inl (by decide))).2 _ _ rfl⟩

theorem rebinding_matches_short (s : List Nat) (hs : (cstr s).length ≤ 1) (r : rebinding) :
    rebinding_matches s r = false := by
  rw [rebinding_matches_eq]
  cases hc : cstr s with
  | nil => simp
  | cons m rest =>
    rw [hc] at hs
    simp only [List.length_cons] at hs
    have hrest : rest = [] := List.length_eq_zero.mp (by omega)
    subst hrest
    by_cases hn : cstr r.name = []
    · simp [hn]
    · have : ¬ ([] = cstr r.name) := fun h => hn h.symm
      simp [this]

/-- C4.  Name-boundary guard: for every chain, also one with a request whose name is
empty, and every slot whose resolved symbol name has length 0 or 1, no request
matches the name, and a call of `perform_rebinding_with_section` that returns leaves
the slot as it was and makes no write through a `replaced` pointer for it; the call
returns when the fuel covers the slot count and the entry lengths. -/
theorem C4_short_name_never_matches (lp64 : Bool) (fuel : Nat)
    (rebindings : List rebindings_entry) (sect : section_t) (slide : Int)
    (t : table_addresses) (mem : linkedit_memory) (cap : captured) (i : Nat)
    (symbol_name : List Nat)
    (hsym : slot_symbol lp64 mem t sect.reserved1 i = some symbol_name)
    (hshort : (cstr symbol_name).length ≤ 1) :
    (∀ r, rebinding_matches symbol_name r = false) ∧
    (fuel ≤ UINT_RANGE → (∀ cur ∈ rebindings, cur.rebindings_nel < fuel) →
      slot_count lp64 sect < fuel →
      ∃ r, perform_rebinding_with_section lp64 fuel rebindings sect slide t.symtab t.strtab
        t.indirect_symtab mem cap = some r) ∧
    ∀ sect1 cap1,
      perform_rebinding_with_section lp64 fuel rebindings sect slide t.symtab t.strtab
        t.indirect_symtab mem cap = some (sect1, cap1) →
      sect1.indirect_symbol_bindings i = sect.indirect_symbol_bindings i ∧
      ∃ ws, cap1.log = cap.log ++ ws ∧ ∀ w ∈ ws, w.slot ≠ i := by
  refine ⟨rebinding_matches_short symbol_name hshort, ?_, ?_⟩
  · intro h1 h2 h3
    exact perform_rebinding_with_section_returns lp64 fuel rebindings sect slide _ _ _ mem cap
      h1 h2 h3
  · intro sect1 cap1 hrun
    refine perform_slot_untouched lp64 fuel rebindings sect slide t mem cap i ?_ sect1 cap1 hrun
    simp only [slot_lookup, hsym]
    exact chain_lookup_none symbol_name (rebinding_matches_short symbol_name hshort) rebindings

/-- Witness of C4: slot 0 of the second example section resolves to `_`, and the
chain holds a request with the empty name and one with the name `_`. -/
theorem C4_short_name_never_matches_witness :
    slot_symbol true ex_mem ex_tables ex_got.reserved1 0 = some [95] ∧
    (cstr [95]).length ≤ 1 ∧
    ∃ sect1 cap1, perform_rebinding_with_section true 10
        [⟨[⟨[], 77, some 0⟩, ⟨[95], 78, some 1⟩], 2⟩] ex_got 0 2000 3000 1000 ex_mem ex_cap =
          some (sect1, cap1) ∧
      sect1.indirect_symbol_bindings 0 = 200 ∧
      ∃ ws, cap1.log = ex_cap.log ++ ws ∧ ∀ w ∈ ws, w.slot ≠ 0 :=
  ⟨by decide, by decide, _, _, rfl,
    (C4_short_name_never_matches true 10 [⟨[⟨[], 77, some 0⟩, ⟨[95], 78, some 1⟩], 2⟩] ex_got 0
      ex_tables ex_mem ex_cap 0 [95] (by decide) (by decide)).2.2 _ _ rfl⟩

/-! ## Passes that change nothing -/

theorem section_after_eq_self (lp64 : Bool) (rebindings : List rebindings_entry)
    (mem : linkedit_memory) (t : table_addresses) (sect : section_t)
    (h : is_symbol_pointers sect = true → ∀ i, i < slot_count lp64 sect →
      binding_after lp64 rebindings mem t sect.reserved1 i (sect.indirect_symbol_bindings i) =
        sect.indirect_symbol_bindings i) :
    section_after lp64 rebindings mem t sect = sect := by
  unfold section_after
  by_cases hsp : is_symbol_pointers sect = true
  · rw [if_pos hsp]
    have : (fun k => if k < slot_count lp64 sect then
          binding_after lp64 rebindings mem t sect.reserved1 k (sect.indirect_symbol_bindings k)
        else sect.indirect_symbol_bindings k) = sect.indirect_symbol_bindings := by
      funext k
      by_cases hk : k < slot_count lp64 sect
      · rw [if_pos hk]; exact h hsp k hk
      · rw [if_neg hk]
    rw [this]
  · rw [if_neg hsp]

theorem command_after_eq_self (lp64 : Bool) (rebindings : List rebindings_entry)
    (mem : linkedit_memory) (t : table_addresses) (c : load_command)
    (h : is_data_segment lp64 c = true → ∀ sect ∈ c.sects, is_symbol_pointers sect = true →
      ∀ i, i < slot_count lp64 sect →
      binding_after lp64 rebindings mem t sect.reserved1 i (sect.indirect_symbol_bindings i) =
        sect.indirect_symbol_bindings i) :
    command_after lp64 rebindings mem t c = c := by
  unfold command_after
  by_cases hd : is_data_segment lp64 c = true
  · rw [if_pos hd]
    have : c.sects.map (section_after lp64 rebindings mem t) = c.sects := by
      conv_rhs => rw [← List.map_id c.sects]
      apply List.map_congr_left
      intro sect hsect
      exact section_after_eq_self lp64 rebindings mem t sect (h hd sect hsect)
    rw [this]
  · rw [if_neg hd]

/-- A pass leaves the images as they are when every slot holds what the pass would
put there. -/
theorem images_after_eq_self (lp64 : Bool) (rebindings : List rebindings_entry)
    (images : List (mach_header_t × Int))
    (h : every_slot lp64 images (fun mem t sect i =>
      binding_after lp64 rebindings mem t sect.reserved1 i (sect.indirect_symbol_bindings i) =
        sect.indirect_symbol_bindings i)) :
    images_after lp64 rebindings images = images := by
  unfold images_after
  conv_rhs => rw [← List.map_id images]
  apply List.map_congr_left
  intro hs hhs
  have : image_after lp64 rebindings hs.1 hs.2 = hs.1 := by
    unfold image_after
    cases ht : image_tables lp64 hs.1 hs.2 with
    | none => rfl
    | some t =>
      simp only
      have : hs.1.cmds.map (command_after lp64 rebindings hs.1.mem t) = hs.1.cmds := by
        conv_rhs => rw [← List.map_id hs.1.cmds]
        apply List.map_congr_left
        intro c hc
        exact command_after_eq_self lp64 rebindings hs.1.mem t c
          (fun hd sect hsect hsp i hi => h hs hhs t ht c hc hd sect hsect hsp i hi)
      rw [this]
  simp [this]

/-- A pass makes no write through a `replaced` pointer when no slot calls for one. -/
theorem images_writes_eq_nil (lp64 : Bool) (rebindings : List rebindings_entry)
    (images : List (mach_header_t × Int))
    (h : every_slot lp64 images (fun mem t sect i =>
      slot_writes lp64 rebindings mem t sect.reserved1 i (sect.indirect_symbol_bindings i) =
        [])) :
    images_writes lp64 rebindings images = [] := by
  unfold images_writes
  rw [List.flatMap_eq_nil_iff]
  intro hs hhs
  unfold image_writes
  cases ht : image_tables lp64 hs.1 hs.2 with
  | none => rfl
  | some t =>
    simp only
    rw [List.flatMap_eq_nil_iff]
    intro c hc
    unfold command_writes
    by_cases hd : is_data_segment lp64 c = true
    · rw [if_pos hd, List.flatMap_eq_nil_iff]
      intro sect hsect
      unfold section_writes
      by_cases hsp : is_symbol_pointers sect = true
      · rw [if_pos hsp, List.flatMap_eq_nil_iff]
        intro i hi
        exact h hs hhs t ht c hc hd sect hsect hsp i (List.mem_range.1 hi)
      · rw [if_neg hsp]
    · rw [if_neg hd]

/-! ## C5: names that match no symbol -/

theorem rebinding_matches_default (s : List Nat) :
    rebinding_matches s (default : rebinding) = false := by
  rw [rebinding_matches_eq]
  simp [default, instInhabitedRebinding, cstr]

theorem getD_mem_or_default {α : Type} (l : List α) (j : Nat) (d : α) :
    l.getD j d ∈ l ∨ l.getD j d = d := by
  by_cases hj : j < l.length
  · left
    simp [List.getD_eq_getElem?_getD, List.getElem?_eq_getElem hj]
  · right
    simp [List.getD_eq_getElem?_getD, List.getElem?_eq_none (Nat.le_of_not_lt hj)]

theorem chain_lookup_none_of_members (symbol_name : List Nat) :
    ∀ rebindings : List rebindings_entry,
      (∀ cur ∈ rebindings, ∀ r ∈ cur.rebindings, rebinding_matches symbol_name r = false) →
      chain_lookup symbol_name rebindings = none := by
  intro rebindings
  induction rebindings with
  | nil => intro _; rfl
  | cons cur next ih =>
    intro h
    have : entry_lookup symbol_name cur = none := by
      apply entry_lookup_from_eq_none
      intro j _ _
      rcases getD_mem_or_default cur.rebindings j default with hm | hd
      · exact h cur (List.mem_cons_self _ _) _ hm
      · rw [hd]; exact rebinding_matches_default symbol_name
    simp [chain_lookup, this, ih (fun c hc => h c (List.mem_cons_of_mem _ hc))]

theorem slot_lookup_none_of_names (lp64 : Bool) (rebindings : List rebindings_entry)
    (mem : linkedit_memory) (t : table_addresses) (reserved1 i : Nat)
    (h : ∀ cur ∈ rebindings, ∀ r ∈ cur.rebindings,
      slot_names lp64 mem t reserved1 i r.name = false) :
    slot_lookup lp64 rebindings mem t reserved1 i = none := by
  unfold slot_lookup
  cases hs : slot_symbol lp64 mem t reserved1 i with
  | none => rfl
  | some s =>
    simp only
    apply chain_lookup_none_of_members
    intro cur hcur r hr
    have := h cur hcur r hr
    unfold slot_names at this
    rw [hs] at this
    simp only at this
    rw [rebinding_matches_eq, this]
    simp

/-- C5 (amended).  No cross-talk: for every process and every request array, if
neither a name of the array nor a name registered earlier equals the name after
the marker of the symbol of any slot of any loaded image, then `rebind_symbols`, its
allocations succeeding, returns 0 and leaves every slot of every image, and the
memory behind the `replaced` pointers, as they were.  The call returns when the
fuel covers the slot counts and the entry lengths, which must be below `2 ^ 32`. -/
theorem C5_unmatched_names_change_nothing (lp64 : Bool) (fuel : Nat) (p : process)
    (a : List rebinding) (nel : Nat)
    (hnames : ∀ r, (r ∈ a ∨ ∃ cur ∈ p._rebindings_head, r ∈ cur.rebindings) →
      every_slot lp64 p.images (fun mem t sect i =>
        slot_names lp64 mem t sect.reserved1 i r.name = false)) :
    (fuel_suffices lp64 fuel (new_entry a nel :: p._rebindings_head) p.images →
      ∃ p1, rebind_symbols lp64 fuel true true p a nel = some (0, p1)) ∧
    ∀ r p1, rebind_symbols lp64 fuel true true p a nel = some (r, p1) →
      r = 0 ∧ p1.images = p.images ∧ p1.cap = p.cap := by
  have hl : every_slot lp64 p.images (fun mem t sect i =>
      slot_lookup lp64 (new_entry a nel :: p._rebindings_head) mem t sect.reserved1 i =
        none) := by
    intro hs hhs t ht c hc hd sect hsect hsp i hi
    apply slot_lookup_none_of_names
    intro cur hcur r hr
    refine hnames r ?_ hs hhs t ht c hc hd sect hsect hsp i hi
    rcases List.mem_cons.1 hcur with h0 | h0
    · subst h0
      exact Or.inl (List.mem_of_mem_take hr)
    · exact Or.inr ⟨cur, h0, hr⟩
  constructor
  · exact rebind_symbols_returns lp64 fuel p a nel
  · intro r p1 hrun
    obtain ⟨h0, -, h1, h2, -⟩ := rebind_symbols_eq lp64 fuel p a nel r p1 hrun
    refine ⟨h0, ?_, ?_⟩
    · rw [h1]
      apply images_after_eq_self
      intro hs hhs t ht c hc hd sect hsect hsp i hi
      simp only [binding_after, hl hs hhs t ht c hc hd sect hsect hsp i hi]
    · rw [h2, images_writes_eq_nil]
      · rfl
      · intro hs hhs t ht c hc hd sect hsect hsp i hi
        simp only [slot_writes, hl hs hhs t ht c hc hd sect hsect hsp i hi]

/-- The slots of the example process are those of its two sections. -/
theorem ex_every_slot (P : linkedit_memory → table_addresses → section_t → Nat → Prop)
    (h1 : ∀ i, i < 4 → P ex_mem ex_tables ex_section i)
    (h2 : ∀ i, i < 4 → P ex_mem ex_tables ex_got i) :
    every_slot true ex_process.images P := by
  intro hs hhs t ht c hc hd sect hsect hsp i hi
  simp only [ex_process, List.mem_singleton] at hhs
  subst hhs
  have htab : image_tables true (ex_image [ex_section, ex_got]) 0 = some ex_tables := by decide
  simp only at ht hc
  rw [htab] at ht
  simp only [Option.some.injEq] at ht
  subst ht
  simp only [ex_image, ex_cmds, List.mem_cons, List.mem_singleton, List.not_mem_nil,
    or_false] at hc
  rcases hc with hc | hc | hc | hc
  · subst hc; exact absurd hd (by decide)
  · subst hc; exact absurd hd (by decide)
  · subst hc; exact absurd hd (by decide)
  · subst hc
    simp only [List.mem_cons, List.mem_singleton, List.not_mem_nil, or_false] at hsect
    rcases hsect with hsect | hsect
    · subst hsect; exact h1 i hi
    · subst hsect; exact h2 i hi

/-- Witness of C5: the name `xyz` is registered in the example process, whose
registry is empty and whose symbols are `_read`, `_open`, `_write`, `_close`, `_`. -/
theorem C5_unmatched_names_change_nothing_witness :
    ∃ p1, rebind_symbols true 10 true true ex_process [⟨[120, 121, 122], 99, some 0⟩] 1 =
        some (0, p1) ∧
      p1.images = ex_process.images ∧ p1.cap = ex_process.cap := by
  have h := C5_unmatched_names_change_nothing true 10 ex_process
    [⟨[120, 121, 122], 99, some 0⟩] 1 (by
      intro r hr
      rcases hr with hr | ⟨cur, hcur, -⟩
      · simp only [List.mem_singleton] at hr
        subst hr
        exact ex_every_slot _ (by decide) (by decide)
      · simp [ex_process] at hcur)
  exact ⟨_, rfl, (h.2 _ _ rfl).2⟩

/-- Counterexample to C5 as stated.  In the example process `open` is registered
with 77, then `rebind_symbols_image` rebinds `open` to 88 in the image, then the
name `xyz`, which is the name of no symbol of the image, is registered: that call
returns 0 and changes slot 1 of the first section from 88 to 77. -/
theorem C5_counterexample :
    ∃ p1 p2 p3,
      rebind_symbols true 10 true true ex_process [⟨str_open, 77, none⟩] 1 = some (0, p1) ∧
      rebind_symbols_image true 10 true true p1 0 0 [⟨str_open, 88, none⟩] 1 = some (0, p2) ∧
      rebind_symbols true 10 true true p2 [⟨[120, 121, 122], 99, none⟩] 1 = some (0, p3) ∧
      (∀ i, i < 4 → slot_names true ex_mem ex_tables ex_section.reserved1 i [120, 121, 122] =
        false) ∧
      (∀ i, i < 4 → slot_names true ex_mem ex_tables ex_got.reserved1 i [120, 121, 122] =
        false) ∧
      slot_value p2 0 3 0 1 = some 88 ∧ slot_value p3 0 3 0 1 = some 77 :=
  ⟨_, _, _, rfl, rfl, rfl, by decide, by decide, by decide, by decide⟩

/-! ## The same request submitted twice -/

theorem chain_lookup_dup (symbol_name : List Nat) (cur : rebindings_entry)
    (rest : List rebindings_entry) :
    chain_lookup symbol_name (cur :: cur :: rest) = chain_lookup symbol_name (cur :: rest) := by
  simp only [chain_lookup]
  cases entry_lookup symbol_name cur <;> rfl

theorem slot_lookup_dup (lp64 : Bool) (cur : rebindings_entry) (rest : List rebindings_entry) :
    slot_lookup lp64 (cur :: cur :: rest) = slot_lookup lp64 (cur :: rest) := by
  funext mem t reserved1 i
  unfold slot_lookup
  cases slot_symbol lp64 mem t reserved1 i with
  | none => rfl
  | some s => exact chain_lookup_dup s cur rest

theorem images_after_congr (lp64 : Bool) (c1 c2 : List rebindings_entry)
    (h : slot_lookup lp64 c1 = slot_lookup lp64 c2) :
    images_after lp64 c1 = images_after lp64 c2 ∧ images_writes lp64 c1 = images_writes lp64 c2 := by
  have hb : binding_after lp64 c1 = binding_after lp64 c2 := by
    funext mem t reserved1 i v
    unfold binding_after
    rw [h]
  have hw : slot_writes lp64 c1 = slot_writes lp64 c2 := by
    funext mem t reserved1 i v
    unfold slot_writes
    rw [h]
  have hs : section_after lp64 c1 = section_after lp64 c2 := by
    funext mem t sect
    unfold section_after
    rw [hb]
  have hsw : section_writes lp64 c1 = section_writes lp64 c2 := by
    funext mem t sect
    unfold section_writes
    rw [hw]
  have hc : command_after lp64 c1 = command_after lp64 c2 := by
    funext mem t c
    unfold command_after
    rw [hs]
  have hcw : command_writes lp64 c1 = command_writes lp64 c2 := by
    funext mem t c
    unfold command_writes
    rw [hsw]
  have hi : image_after lp64 c1 = image_after lp64 c2 := by
    funext header slide
    unfold image_after
    rw [hc]
  have hiw : image_writes lp64 c1 = image_writes lp64 c2 := by
    funext header slide
    unfold image_writes
    rw [hcw]
  constructor
  · funext images
    unfold images_after
    rw [hi]
  · funext images
    unfold images_writes
    rw [hiw]

/-- After a pass, every slot to which a request of the chain applies holds the
replacement of that request. -/
theorem images_after_settled (lp64 : Bool) (rebindings : List rebindings_entry)
    (images : List (mach_header_t × Int)) :
    every_slot lp64 (images_after lp64 rebindings images) (fun mem t sect i =>
      ∀ r, slot_lookup lp64 rebindings mem t sect.reserved1 i = some r →
        sect.indirect_symbol_bindings i = r.replacement) := by
  intro hs hhs t ht c hc hd sect hsect hsp i hi r hr
  exact images_after_slot_holds lp64 rebindings images hs hhs t ht c hc hd sect hsect hsp i hi r hr

/-- A second pass with the same chain changes no slot and makes no write through a
`replaced` pointer. -/
theorem images_after_idem (lp64 : Bool) (rebindings : List rebindings_entry)
    (images : List (mach_header_t × Int)) :
    images_after lp64 rebindings (images_after lp64 rebindings images) =
      images_after lp64 rebindings images ∧
    images_writes lp64 rebindings (images_after lp64 rebindings images) = [] := by
  have hset := images_after_settled lp64 rebindings images
  constructor
  · apply images_after_eq_self
    intro hs hhs t ht c hc hd sect hsect hsp i hi
    unfold binding_after
    cases hl : slot_lookup lp64 rebindings hs.1.mem t sect.reserved1 i with
    | none => rfl
    | some r => exact (hset hs hhs t ht c hc hd sect hsect hsp i hi r hl).symm
  · apply images_writes_eq_nil
    intro hs hhs t ht c hc hd sect hsect hsp i hi
    unfold slot_writes
    cases hl : slot_lookup lp64 rebindings hs.1.mem t sect.reserved1 i with
    | none => rfl
    | some r =>
      simp only
      cases r.replaced with
      | none => rfl
      | some c0 =>
        simp only [hset hs hhs t ht c hc hd sect hsect hsp i hi r hl, ne_eq, not_true_eq_false,
          if_false]

/-- The same request array submitted twice in a row through `rebind_symbols`: the
process after the second call has the images and the memory behind the `replaced`
pointers of the process after the first call. -/
theorem rebind_symbols_twice (lp64 : Bool) (fuel : Nat) (p : process) (a : List rebinding)
    (nel : Nat) (r1 : Int) (p1 : process) (r2 : Int) (p2 : process)
    (h1 : rebind_symbols lp64 fuel true true p a nel = some (r1, p1))
    (h2 : rebind_symbols lp64 fuel true true p1 a nel = some (r2, p2)) :
    p2.images = p1.images ∧ p2.cap = p1.cap := by
  obtain ⟨-, hh1, hi1, -, -⟩ := rebind_symbols_eq lp64 fuel p a nel r1 p1 h1
  obtain ⟨-, -, hi2, hc2, -⟩ := rebind_symbols_eq lp64 fuel p1 a nel r2 p2 h2
  rw [hh1] at hi2 hc2
  obtain ⟨hcong1, hcong2⟩ := images_after_congr lp64 _ _
    (slot_lookup_dup lp64 (new_entry a nel) p._rebindings_head)
  rw [hcong1] at hi2
  rw [hcong2] at hc2
  rw [hi1] at hi2 hc2
  obtain ⟨hid1, hid2⟩ := images_after_idem lp64 (new_entry a nel :: p._rebindings_head) p.images
  rw [hid1] at hi2
  rw [hid2] at hc2
  exact ⟨by rw [hi2, hi1], by rw [hc2]; rfl⟩

theorem rebind_symbols_twice_returns (lp64 : Bool) (fuel : Nat) (p : process)
    (a : List rebinding) (nel : Nat)
    (hf : fuel_suffices lp64 fuel (new_entry a nel :: p._rebindings_head) p.images) :
    ∃ p1 p2, rebind_symbols lp64 fuel true true p a nel = some (0, p1) ∧
      rebind_symbols lp64 fuel true true p1 a nel = some (0, p2) := by
  obtain ⟨p1, hp1⟩ := rebind_symbols_returns lp64 fuel p a nel hf
  obtain ⟨-, hh1, hi1, -, -⟩ := rebind_symbols_eq lp64 fuel p a nel 0 p1 hp1
  obtain ⟨p2, hp2⟩ := rebind_symbols_returns lp64 fuel p1 a nel (by
    rw [hh1, hi1]
    apply fuel_suffices_images_after
    exact ⟨hf.1, fun c hc => by
      rcases List.mem_cons.1 hc with h0 | h0
      · subst h0; exact hf.2.1 _ (List.mem_cons_self _ _)
      · exact hf.2.1 c h0, hf.2.2⟩)
  exact ⟨p1, p2, hp1, hp2⟩

/-! ## C6 and C7: the second submission -/

theorem slot_lookup_head (lp64 : Bool) (cur : rebindings_entry) (rest : List rebindings_entry)
    (mem : linkedit_memory) (t : table_addresses) (reserved1 i : Nat) (r : rebinding)
    (h : slot_lookup lp64 [cur] mem t reserved1 i = some r) :
    slot_lookup lp64 (cur :: rest) mem t reserved1 i = some r := by
  unfold slot_lookup at h ⊢
  cases hs : slot_symbol lp64 mem t reserved1 i with
  | none => rw [hs] at h; exact h
  | some s =>
    rw [hs] at h
    simp only [chain_lookup] at h ⊢
    cases he : entry_lookup s cur with
    | none => rw [he] at h; simp at h
    | some r0 => rw [he] at h; exact h

/-- A second pass over one image with the same chain changes no slot of it and makes
no write through a `replaced` pointer. -/
theorem rebind_symbols_for_image_twice (lp64 : Bool) (fuel : Nat)
    (rebindings : List rebindings_entry) (header : mach_header_t) (slide : Int)
    (cap : captured) (h1 : mach_header_t) (cap1 : captured) (h2 : mach_header_t)
    (cap2 : captured)
    (hrun1 : rebind_symbols_for_image lp64 fuel rebindings header slide cap = some (h1, cap1))
    (hrun2 : rebind_symbols_for_image lp64 fuel rebindings h1 slide cap1 = some (h2, cap2)) :
    h2 = h1 ∧ cap2 = cap1 := by
  obtain ⟨e1, -⟩ := rebind_symbols_for_image_eq lp64 fuel rebindings header slide cap h1 cap1
    hrun1
  obtain ⟨e2, e3⟩ := rebind_symbols_for_image_eq lp64 fuel rebindings h1 slide cap1 h2 cap2
    hrun2
  obtain ⟨hid1, hid2⟩ := images_after_idem lp64 rebindings [(header, slide)]
  simp only [images_after, images_writes, List.map_cons, List.map_nil, List.flatMap_cons,
    List.flatMap_nil, List.append_nil, List.cons.injEq, Prod.mk.injEq, and_true] at hid1 hid2
  rw [← e1] at hid1 hid2
  rw [hid1] at e2
  rw [hid2] at e3
  exact ⟨e2, by rw [e3]; rfl⟩

/-- C6.  Idempotence of the slots: when `rebind_symbols` is given the same request
array twice in a row, the images after the second call are the images after the
first call, slot for slot, and every slot to which a request of the array applies
holds that request's replacement; and a second `rebind_symbols_for_image` on an image
with the chain it was processed with leaves the image as it is.  Both calls return when the fuel covers the slot
counts and the entry lengths, which must be below `2 ^ 32`. -/
theorem C6_second_submission_keeps_slots (lp64 : Bool) (fuel : Nat) (p : process)
    (a : List rebinding) (nel : Nat) :
    (fuel_suffices lp64 fuel (new_entry a nel :: p._rebindings_head) p.images →
      ∃ p1 p2, rebind_symbols lp64 fuel true true p a nel = some (0, p1) ∧
        rebind_symbols lp64 fuel true true p1 a nel = some (0, p2)) ∧
    (∀ r1 p1 r2 p2,
      rebind_symbols lp64 fuel true true p a nel = some (r1, p1) →
      rebind_symbols lp64 fuel true true p1 a nel = some (r2, p2) →
      p2.images = p1.images ∧
      every_slot lp64 p2.images (fun mem t sect i =>
        ∀ r, slot_lookup lp64 [new_entry a nel] mem t sect.reserved1 i = some r →
          sect.indirect_symbol_bindings i = r.replacement)) ∧
    ∀ rebindings header slide cap h1 cap1 h2 cap2,
      rebind_symbols_for_image lp64 fuel rebindings header slide cap = some (h1, cap1) →
      rebind_symbols_for_image lp64 fuel rebindings h1 slide cap1 = some (h2, cap2) →
      h2 = h1 := by
  refine ⟨rebind_symbols_twice_returns lp64 fuel p a nel, ?_, ?_⟩
  · intro r1 p1 r2 p2 h1 h2
    refine ⟨(rebind_symbols_twice lp64 fuel p a nel r1 p1 r2 p2 h1 h2).1, ?_⟩
    obtain ⟨-, -, hi2, -, -⟩ := rebind_symbols_eq lp64 fuel p1 a nel r2 p2 h2
    rw [hi2]
    intro hs hhs t ht c hc hd sect hsect hsp i hi r hr
    exact images_after_settled lp64 _ p1.images hs hhs t ht c hc hd sect hsect hsp i hi r
      (slot_lookup_head lp64 _ _ _ _ _ _ r hr)
  · intro rebindings header slide cap h1 cap1 h2 cap2 hrun1 hrun2
    exact (rebind_symbols_for_image_twice lp64 fuel rebindings header slide cap h1 cap1 h2 cap2
      hrun1 hrun2).1

/-- Witness of C6: `write` is registered twice with 77 in the example process. -/
theorem C6_second_submission_keeps_slots_witness :
    ∃ p1 p2, rebind_symbols true 10 true true ex_process [⟨str_write, 77, some 0⟩] 1 =
        some (0, p1) ∧
      rebind_symbols true 10 true true p1 [⟨str_write, 77, some 0⟩] 1 = some (0, p2) ∧
      p2.images = p1.images ∧
      slot_value p1 0 3 0 2 = some 77 ∧ slot_value p2 0 3 0 2 = some 77 :=
  ⟨_, _, rfl, rfl,
    ((C6_second_submission_keeps_slots true 10 ex_process [⟨str_write, 77, some 0⟩] 1).2.1
      _ _ _ _ rfl rfl).1,
    by decide, by decide⟩

/-- C7 (amended).  When `rebind_symbols` is given the same request array twice in a
row, the first call makes one write through a `replaced` pointer for every slot
whose request has such a pointer and whose value differs from the replacement (the
writes `images_writes` lists), and the second call makes none: the memory behind
these pointers and the list of the writes made to it are after the second call what
they were after the first; the same holds of a second `rebind_symbols_for_image` on
an image with the chain it was processed with.  Both calls return when the fuel covers the slot counts
and the entry lengths, which must be below `2 ^ 32`. -/
theorem C7_second_submission_captures_nothing (lp64 : Bool) (fuel : Nat) (p : process)
    (a : List rebinding) (nel : Nat) :
    (fuel_suffices lp64 fuel (new_entry a nel :: p._rebindings_head) p.images →
      ∃ p1 p2, rebind_symbols lp64 fuel true true p a nel = some (0, p1) ∧
        rebind_symbols lp64 fuel true true p1 a nel = some (0, p2)) ∧
    (∀ r1 p1 r2 p2,
      rebind_symbols lp64 fuel true true p a nel = some (r1, p1) →
      rebind_symbols lp64 fuel true true p1 a nel = some (r2, p2) →
      p1.cap.log = p.cap.log ++
        images_writes lp64 (new_entry a nel :: p._rebindings_head) p.images ∧
      p2.cap = p1.cap ∧ p2.cap.log = p1.cap.log) ∧
    ∀ rebindings header slide cap h1 cap1 h2 cap2,
      rebind_symbols_for_image lp64 fuel rebindings header slide cap = some (h1, cap1) →
      rebind_symbols_for_image lp64 fuel rebindings h1 slide cap1 = some (h2, cap2) →
      cap2 = cap1 ∧ cap2.log = cap1.log := by
  refine ⟨rebind_symbols_twice_returns lp64 fuel p a nel, ?_, ?_⟩
  · intro r1 p1 r2 p2 h1 h2
    have h := (rebind_symbols_twice lp64 fuel p a nel r1 p1 r2 p2 h1 h2).2
    obtain ⟨-, -, -, hc1, -⟩ := rebind_symbols_eq lp64 fuel p a nel r1 p1 h1
    exact ⟨by rw [hc1]; exact apply_writes_log _ _, h, by rw [h]⟩
  · intro rebindings header slide cap h1 cap1 h2 cap2 hrun1 hrun2
    have h := (rebind_symbols_for_image_twice lp64 fuel rebindings header slide cap h1 cap1 h2
      cap2 hrun1 hrun2).2
    exact ⟨h, by rw [h]⟩

/-- Witness of C7: `write` is registered twice with 77 and a `replaced` pointer to
cell 0 in the example process. -/
theorem C7_second_submission_captures_nothing_witness :
    ∃ p1 p2, rebind_symbols true 10 true true ex_process [⟨str_write, 77, some 0⟩] 1 =
        some (0, p1) ∧
      rebind_symbols true 10 true true p1 [⟨str_write, 77, some 0⟩] 1 = some (0, p2) ∧
      p2.cap = p1.cap ∧ p2.cap.log = p1.cap.log :=
  ⟨_, _, rfl, rfl,
    ((C7_second_submission_captures_nothing true 10 ex_process [⟨str_write, 77, some 0⟩] 1).2.1
      _ _ _ _ rfl rfl).2⟩

/-- Counterexample to C7 as stated: in the example image two slots resolve to
`_write`, slot 2 of each section, and the first of the two calls writes the
`replaced` cell 0 twice, first the value 102 and then the value 202. -/
theorem C7_counterexample :
    ∃ p1 p2, rebind_symbols true 10 true true ex_process [⟨str_write, 77, some 0⟩] 1 =
        some (0, p1) ∧
      rebind_symbols true 10 true true p1 [⟨str_write, 77, some 0⟩] 1 = some (0, p2) ∧
      p1.cap.log = [⟨2, 0, 102⟩, ⟨2, 0, 202⟩] ∧ p2.cap.log = [⟨2, 0, 102⟩, ⟨2, 0, 202⟩] ∧
      p2.cap.cells 0 = 202 :=
  ⟨_, _, rfl, rfl, by decide, by decide, by decide⟩

/-! ## C8: allocation failure -/

theorem list_set_self {α : Type} : ∀ (l : List α) (i : Nat) (x : α), l[i]? = some x →
    l.set i x = l := by
  intro l
  induction l with
  | nil => intro i x h; simp at h
  | cons y ys ih =>
    intro i x h
    cases i with
    | zero =>
      simp only [List.getElem?_cons_zero, Option.some.injEq] at h
      simp [h]
    | succ i =>
      simp only [List.getElem?_cons_succ] at h
      simp [ih i x h]

/-- A pass with the empty chain changes no slot of an image and makes no write
through a `replaced` pointer. -/
theorem image_after_nil (lp64 : Bool) (header : mach_header_t) (slide : Int) :
    image_after lp64 [] header slide = header ∧ image_writes lp64 [] header slide = [] := by
  have hl : ∀ mem t reserved1 i, slot_lookup lp64 [] mem t reserved1 i = none := by
    intro mem t reserved1 i
    unfold slot_lookup
    cases slot_symbol lp64 mem t reserved1 i <;> rfl
  have h1 := images_after_eq_self lp64 [] [(header, slide)] (by
    intro hs hhs t ht c hc hd sect hsect hsp i hi
    simp only [binding_after, hl])
  have h2 := images_writes_eq_nil lp64 [] [(header, slide)] (by
    intro hs hhs t ht c hc hd sect hsect hsp i hi
    simp only [slot_writes, hl])
  simp only [images_after, images_writes, List.map_cons, List.map_nil, List.flatMap_cons,
    List.flatMap_nil, List.append_nil, List.cons.injEq, Prod.mk.injEq, and_true] at h1 h2
  exact ⟨h1, h2⟩

/-- C8.  Allocation failure is atomic: when one of the two allocations of
`prepend_rebindings` fails, `rebind_symbols` returns -1 and leaves the whole process
as it was: the global chain, the number of registered loader callbacks, every slot
of every image and the memory behind the `replaced` pointers; and
`rebind_symbols_image`, when it returns, returns -1 and leaves the process as it
was as well; it returns when the fuel covers the slot counts, which must be below
`2 ^ 32`. -/
theorem C8_allocation_failure_changes_nothing (lp64 : Bool) (fuel : Nat)
    (malloc_entry malloc_rebindings : Bool)
    (hfail : (malloc_entry && malloc_rebindings) = false)
    (p : process) (a : List rebinding) (nel : Nat) (header : Nat) (slide : Int) :
    rebind_symbols lp64 fuel malloc_entry malloc_rebindings p a nel = some (-1, p) ∧
    (∀ r p1, rebind_symbols_image lp64 fuel malloc_entry malloc_rebindings p header slide a
        nel = some (r, p1) → r = -1 ∧ p1 = p) ∧
    (fuel ≤ UINT_RANGE →
      (∀ hs ∈ p.images, ∀ c ∈ hs.1.cmds, ∀ sect ∈ c.sects, slot_count lp64 sect < fuel) →
      rebind_symbols_image lp64 fuel malloc_entry malloc_rebindings p header slide a nel =
        some (-1, p)) := by
  have hpart : ∀ r p1, rebind_symbols_image lp64 fuel malloc_entry malloc_rebindings p header
      slide a nel = some (r, p1) → r = -1 ∧ p1 = p := by
    intro r p1 hrun
    unfold rebind_symbols_image at hrun
    rw [prepend_rebindings_fail malloc_entry malloc_rebindings hfail] at hrun
    simp only at hrun
    cases hget : p.images[header]? with
    | none =>
      rw [hget] at hrun
      simp only [Option.some.injEq, Prod.mk.injEq] at hrun
      exact ⟨hrun.1.symm, hrun.2.symm⟩
    | some hs =>
      rcases hs with ⟨h, s⟩
      rw [hget] at hrun
      simp only at hrun
      cases hi : rebind_symbols_for_image lp64 fuel [] h slide p.cap with
      | none => simp [hi] at hrun
      | some res =>
        rcases res with ⟨h1, cap1⟩
        obtain ⟨e1, e2⟩ := rebind_symbols_for_image_eq lp64 fuel [] h slide p.cap h1 cap1 hi
        rw [(image_after_nil lp64 h slide).1] at e1
        rw [(image_after_nil lp64 h slide).2] at e2
        rw [hi] at hrun
        simp only [Option.some.injEq, Prod.mk.injEq] at hrun
        refine ⟨hrun.1.symm, ?_⟩
        rw [← hrun.2, e1, e2, list_set_self _ _ _ hget]
        rfl
  refine ⟨rebind_symbols_fail lp64 fuel malloc_entry malloc_rebindings hfail p a nel, hpart, ?_⟩
  intro hfuel hsize
  have hex : ∃ res, rebind_symbols_image lp64 fuel malloc_entry malloc_rebindings p header
      slide a nel = some res := by
    unfold rebind_symbols_image
    rw [prepend_rebindings_fail malloc_entry malloc_rebindings hfail]
    simp only
    cases hget : p.images[header]? with
    | none => exact ⟨_, rfl⟩
    | some hs =>
      rcases hs with ⟨h, s⟩
      simp only
      obtain ⟨⟨h1, cap1⟩, hi⟩ := rebind_symbols_for_image_returns lp64 fuel [] h slide p.cap
        hfuel (fun cur hcur => by simp at hcur)
        (hsize (h, s) (List.getElem?_mem hget))
      rw [hi]
      exact ⟨_, rfl⟩
  obtain ⟨⟨r, p1⟩, hres⟩ := hex
  obtain ⟨hr, hp⟩ := hpart r p1 hres
  rw [hres, hr, hp]

/-- Witness of C8: the second allocation fails in the example process. -/
theorem C8_allocation_failure_changes_nothing_witness :
    rebind_symbols true 10 true false ex_process [⟨str_write, 77, some 0⟩] 1 =
      some (-1, ex_process) ∧
    rebind_symbols_image true 10 true false ex_process 0 0 [⟨str_write, 77, some 0⟩] 1 =
      some (-1, ex_process) := by
  have h := C8_allocation_failure_changes_nothing true 10 true false rfl ex_process
    [⟨str_write, 77, some 0⟩] 1 0 0
  exact ⟨h.1, h.2.2 (by decide) (by decide)⟩

/-! ## C9 and C10: the registry -/

theorem prepend_rebindings_suffix (m1 m2 : Bool) (c : List rebindings_entry)
    (a : List rebinding) (nel : Nat) : c <:+ (prepend_rebindings m1 m2 c a nel).2 := by
  unfold prepend_rebindings
  split_ifs
  · exact List.suffix_refl c
  · exact List.suffix_refl c
  · exact List.suffix_cons _ c

/-- C9.  Registration prepends: when both allocations succeed, `prepend_rebindings`
on a chain `c` and a request array `a` of length `n` returns 0 and leaves the chain
that consists of a new entry, which holds the `n` requests of `a` in their order,
followed by `c` unchanged.  Whether or not the allocations succeed, `c` is a suffix
of the chain after the call, so that after any sequence of calls of
`prepend_rebindings`, and after any call of `rebind_symbols`, the earlier chain is a
suffix of the later one. -/
theorem C9_registration_prepends (c : List rebindings_entry) (a : List rebinding) :
    prepend_rebindings true true c a a.length =
      (0, { rebindings := a, rebindings_nel := a.length } :: c) ∧
    (∀ m1 m2 nel, c <:+ (prepend_rebindings m1 m2 c a nel).2) ∧
    (∀ calls : List (Bool × Bool × List rebinding × Nat),
      c <:+ calls.foldl
        (fun head x => (prepend_rebindings x.1 x.2.1 head x.2.2.1 x.2.2.2).2) c) ∧
    (∀ lp64 fuel m1 m2 (p : process) nel r p1, p._rebindings_head = c →
      rebind_symbols lp64 fuel m1 m2 p a nel = some (r, p1) → c <:+ p1._rebindings_head) := by
  refine ⟨?_, fun m1 m2 nel => prepend_rebindings_suffix m1 m2 c a nel, ?_, ?_⟩
  · simp [prepend_rebindings]
  · intro calls
    induction calls generalizing c with
    | nil => exact List.suffix_refl c
    | cons x rest ih =>
      simp only [List.foldl_cons]
      exact List.IsSuffix.trans (prepend_rebindings_suffix x.1 x.2.1 c x.2.2.1 x.2.2.2) (ih _)
  · intro lp64 fuel m1 m2 p nel r p1 hc hrun
    subst hc
    by_cases hm : (m1 && m2) = false
    · rw [rebind_symbols_fail lp64 fuel m1 m2 hm] at hrun
      simp only [Option.some.injEq, Prod.mk.injEq] at hrun
      rw [← hrun.2]
    · simp only [Bool.not_eq_false, Bool.and_eq_true] at hm
      obtain ⟨h1, h2⟩ := hm
      subst h1; subst h2
      obtain ⟨-, hh, -, -, -⟩ := rebind_symbols_eq lp64 fuel p a nel r p1 hrun
      rw [hh]
      exact List.suffix_cons _ _

/-- C10.  `rebind_symbols_image` is isolated from the global registry: a call that
returns leaves the global chain and the number of registered loader callbacks as they
were; its result is the same whatever the global chain is, but for the chain it
carries along; and when the allocations succeed the image and the memory behind the
`replaced` pointers are those `rebind_symbols_for_image` produces for the image with
the chain of the one entry built from the given requests. -/
theorem C10_single_image_submission_isolated (lp64 : Bool) (fuel : Nat) (m1 m2 : Bool)
    (p : process) (header : Nat) (slide : Int) (a : List rebinding) (nel : Nat) :
    (∀ r p1, rebind_symbols_image lp64 fuel m1 m2 p header slide a nel = some (r, p1) →
      p1._rebindings_head = p._rebindings_head ∧
        p1.add_image_callbacks = p.add_image_callbacks) ∧
    (∀ g : List rebindings_entry,
      rebind_symbols_image lp64 fuel m1 m2 { p with _rebindings_head := g } header slide a nel =
        (rebind_symbols_image lp64 fuel m1 m2 p header slide a nel).map
          (fun rp => (rp.1, { rp.2 with _rebindings_head := g }))) ∧
    (∀ h s, p.images[header]? = some (h, s) →
      rebind_symbols_image lp64 fuel true true p header slide a nel =
        (rebind_symbols_for_image lp64 fuel [new_entry a nel] h slide p.cap).map
          (fun hc => (0, { p with images := p.images.set header (hc.1, s), cap := hc.2 }))) := by
  refine ⟨?_, ?_, ?_⟩
  · intro r p1 hrun
    unfold rebind_symbols_image at hrun
    simp only at hrun
    cases hget : p.images[header]? with
    | none =>
      rw [hget] at hrun
      simp only [Option.some.injEq, Prod.mk.injEq] at hrun
      rw [← hrun.2]
      exact ⟨rfl, rfl⟩
    | some hs =>
      rcases hs with ⟨h, s⟩
      rw [hget] at hrun
      simp only at hrun
      cases hi : rebind_symbols_for_image lp64 fuel (prepend_rebindings m1 m2 [] a nel).2 h slide
          p.cap with
      | none => simp [hi] at hrun
      | some res =>
        rw [hi] at hrun
        simp only [Option.some.injEq, Prod.mk.injEq] at hrun
        rw [← hrun.2]
        exact ⟨rfl, rfl⟩
  · intro g
    unfold rebind_symbols_image
    simp only
    cases hget : p.images[header]? with
    | none => rfl
    | some hs =>
      rcases hs with ⟨h, s⟩
      simp only
      cases rebind_symbols_for_image lp64 fuel (prepend_rebindings m1 m2 [] a nel).2 h slide
          p.cap with
      | none => rfl
      | some res => rfl
  · intro h s hget
    unfold rebind_symbols_image
    rw [prepend_rebindings_ok]
    simp only [hget]
    cases rebind_symbols_for_image lp64 fuel [new_entry a nel] h slide p.cap with
    | none => rfl
    | some res => rfl

/-- Witness of C10: the example image is given the request for `write` through
`rebind_symbols_image`, in a process whose registry holds a request for `write` with
another replacement; slot 2 of the first section holds 88 afterwards and the
registry is as it was. -/
theorem C10_single_image_submission_isolated_witness :
    ∃ p1, rebind_symbols_image true 10 true true
        { ex_process with _rebindings_head := [⟨[⟨str_write, 77, none⟩], 1⟩] } 0 0
        [⟨str_write, 88, some 0⟩] 1 = some (0, p1) ∧
      p1._rebindings_head = [⟨[⟨str_write, 77, none⟩], 1⟩] ∧
      p1.add_image_callbacks = 0 ∧
      slot_value p1 0 3 0 2 = some 88 ∧ p1.cap.cells 0 = 202 :=
  ⟨_, rfl,
    ((C10_single_image_submission_isolated true 10 true true
      { ex_process with _rebindings_head := [⟨[⟨str_write, 77, none⟩], 1⟩] } 0 0
      [⟨str_write, 88, some 0⟩] 1).1 _ _ rfl).1,
    by decide, by decide, by decide⟩

/-! ## C11: the loader callback is registered once -/

/-- A call of `rebind_symbols_image` that returns leaves the global chain and the
number of registered loader callbacks as they were. -/
theorem rebind_symbols_image_registry (lp64 : Bool) (fuel : Nat) (m1 m2 : Bool)
    (p : process) (header : Nat) (slide : Int) (a : List rebinding) (nel : Nat)
    (r : Int) (p1 : process)
    (hrun : rebind_symbols_image lp64 fuel m1 m2 p header slide a nel = some (r, p1)) :
    p1._rebindings_head = p._rebindings_head ∧
      p1.add_image_callbacks = p.add_image_callbacks := by
  unfold rebind_symbols_image at hrun
  simp only at hrun
  cases hget : p.images[header]? with
  | none =>
    rw [hget] at hrun
    simp only [Option.some.injEq, Prod.mk.injEq] at hrun
    rw [← hrun.2]
    exact ⟨rfl, rfl⟩
  | some hs =>
    rcases hs with ⟨h, s⟩
    rw [hget] at hrun
    simp only at hrun
    cases hi : rebind_symbols_for_image lp64 fuel (prepend_rebindings m1 m2 [] a nel).2 h slide
        p.cap with
    | none => simp [hi] at hrun
    | some res =>
      rw [hi] at hrun
      simp only [Option.some.injEq, Prod.mk.injEq] at hrun
      rw [← hrun.2]
      exact ⟨rfl, rfl⟩

/-- What one call does to the global chain and to the number of registered loader
callbacks. -/
theorem run_call_registry (lp64 : Bool) (fuel : Nat) (p : process) (call : api_call)
    (r : Int) (p1 : process) (h : run_call lp64 fuel p call = some (r, p1)) :
    p1._rebindings_head.length =
      p._rebindings_head.length + (if is_registration call = true then 1 else 0) ∧
    p1.add_image_callbacks =
      if is_registration call = true ∧ p._rebindings_head = [] then p.add_image_callbacks + 1
      else p.add_image_callbacks := by
  cases call with
  | rebind_symbols m1 m2 a nel =>
    simp only [run_call] at h
    by_cases hm : (m1 && m2) = false
    · rw [rebind_symbols_fail lp64 fuel m1 m2 hm] at h
      simp only [Option.some.injEq, Prod.mk.injEq] at h
      rw [← h.2]
      simp [is_registration, hm]
    · have hm1 : (m1 && m2) = true := by simpa using hm
      simp only [Bool.and_eq_true] at hm
      have h1 : m1 = true := by simp_all
      have h2 : m2 = true := by simp_all
      subst h1; subst h2
      obtain ⟨-, hh, -, -, hcb⟩ := rebind_symbols_eq lp64 fuel p a nel r p1 h
      rw [hh, hcb]
      by_cases hnil : p._rebindings_head = []
      · simp [is_registration, hnil]
      · simp [is_registration, hnil]
  | rebind_symbols_image m1 m2 header slide a nel =>
    simp only [run_call] at h
    obtain ⟨hh, hcb⟩ := rebind_symbols_image_registry lp64 fuel m1 m2 p header slide a nel r p1 h
    simp [is_registration, hh, hcb]

theorem run_calls_registry (lp64 : Bool) (fuel : Nat) :
    ∀ (calls : List api_call) (p0 p : process), run_calls lp64 fuel p0 calls = some p →
      p._rebindings_head.length =
        p0._rebindings_head.length + calls.countP is_registration := by
  intro calls
  induction calls with
  | nil =>
    intro p0 p h
    simp only [run_calls, Option.some.injEq] at h
    simp [h]
  | cons call rest ih =>
    intro p0 p h
    rw [run_calls] at h
    cases hc : run_call lp64 fuel p0 call with
    | none => simp [hc] at h
    | some res =>
      rcases res with ⟨r, p1⟩
      rw [hc] at h
      simp only at h
      obtain ⟨h1, -⟩ := run_call_registry lp64 fuel p0 call r p1 hc
      rw [ih p1 p h, h1, List.countP_cons]
      omega

theorem run_calls_append (lp64 : Bool) (fuel : Nat) :
    ∀ (pre post : List api_call) (p0 : process),
      run_calls lp64 fuel p0 (pre ++ post) =
        match run_calls lp64 fuel p0 pre with
        | none => none
        | some p => run_calls lp64 fuel p post := by
  intro pre
  induction pre with
  | nil => intro post p0; rfl
  | cons call rest ih =>
    intro post p0
    simp only [List.cons_append, run_calls]
    cases run_call lp64 fuel p0 call with
    | none => rfl
    | some res => exact ih post res.2

/-- C11.  First-versus-later registration.  In a process that starts with an empty
registry and no registered loader callback, after every sequence of calls of
`rebind_symbols` and `rebind_symbols_image`, successful or failing, the chain has
one entry for each successful `rebind_symbols` call and the callback has been
registered once if there was such a call and not at all otherwise; a call registers
the callback exactly when it is a successful `rebind_symbols` call that no successful
one precedes; and a successful `rebind_symbols` call in a process whose chain is not
empty is the pass of `rebind_images` over the loaded images, in the order of their
indices, with the chain that has the new entry in front. -/
theorem C11_callback_registered_once (lp64 : Bool) (fuel : Nat) (p0 : process)
    (hhead : p0._rebindings_head = []) (hcb : p0.add_image_callbacks = 0) :
    (∀ calls p, run_calls lp64 fuel p0 calls = some p →
      p._rebindings_head.length = calls.countP is_registration ∧
      p.add_image_callbacks = if calls.countP is_registration = 0 then 0 else 1) ∧
    (∀ pre call p r p1, run_calls lp64 fuel p0 pre = some p →
      run_call lp64 fuel p call = some (r, p1) →
      (p1.add_image_callbacks = p.add_image_callbacks + 1 ↔
        is_registration call = true ∧ pre.countP is_registration = 0) ∧
      (p1.add_image_callbacks = p.add_image_callbacks ↔
        ¬ (is_registration call = true ∧ pre.countP is_registration = 0))) ∧
    (∀ (p : process) a nel, p._rebindings_head ≠ [] →
      rebind_symbols lp64 fuel true true p a nel =
        (rebind_images lp64 fuel (new_entry a nel :: p._rebindings_head) p.images p.cap).map
          (fun res => (0, { p with _rebindings_head := new_entry a nel :: p._rebindings_head,
                                   images := res.1, cap := res.2 }))) := by
  have hstep : ∀ pre call p r p1, run_calls lp64 fuel p0 pre = some p →
      run_call lp64 fuel p call = some (r, p1) →
      p1.add_image_callbacks =
        if is_registration call = true ∧ pre.countP is_registration = 0 then
          p.add_image_callbacks + 1
        else p.add_image_callbacks := by
    intro pre call p r p1 hpre hcall
    have hlen := run_calls_registry lp64 fuel pre p0 p hpre
    rw [hhead] at hlen
    simp only [List.length_nil, Nat.zero_add] at hlen
    have hnil : p._rebindings_head = [] ↔ pre.countP is_registration = 0 := by
      rw [← hlen]; exact List.length_eq_zero.symm
    rw [(run_call_registry lp64 fuel p call r p1 hcall).2]
    simp only [hnil]
  refine ⟨?_, ?_, ?_⟩
  · intro calls
    induction calls using List.reverseRecOn with
    | nil =>
      intro p h
      simp only [run_calls, Option.some.injEq] at h
      simp [← h, hhead, hcb]
    | append_singleton pre call ih =>
      intro p h
      rw [run_calls_append] at h
      cases hpre : run_calls lp64 fuel p0 pre with
      | none => simp [hpre] at h
      | some p' =>
        rw [hpre] at h
        simp only [run_calls] at h
        cases hc : run_call lp64 fuel p' call with
        | none => simp [hc] at h
        | some res =>
          rcases res with ⟨r, p1⟩
          rw [hc] at h
          simp only [Option.some.injEq] at h
          subst h
          obtain ⟨ih1, ih2⟩ := ih p' hpre
          obtain ⟨h1, -⟩ := run_call_registry lp64 fuel p' call r p1 hc
          have h2 := hstep pre call p' r p1 hpre hc
          rw [List.countP_append, List.countP_singleton]
          constructor
          · rw [h1, ih1]
          · rw [h2, ih2]
            by_cases hreg : is_registration call = true
            · by_cases hz : pre.countP is_registration = 0
              · simp [hreg, hz]
              · simp [hreg, hz]
            · by_cases hz : pre.countP is_registration = 0
              · simp [hreg, hz]
              · simp [hreg, hz]
  · intro pre call p r p1 hpre hcall
    have h2 := hstep pre call p r p1 hpre hcall
    by_cases hc : is_registration call = true ∧ pre.countP is_registration = 0
    · rw [if_pos hc] at h2
      exact ⟨⟨fun _ => hc, fun _ => h2⟩, ⟨fun h => by omega, fun h => absurd hc h⟩⟩
    · rw [if_neg hc] at h2
      exact ⟨⟨fun h => by omega, fun h => absurd h hc⟩, ⟨fun _ => hc, fun _ => h2⟩⟩
  · intro p a nel hne
    unfold rebind_symbols
    rw [prepend_rebindings_ok]
    simp only [lt_self_iff_false, if_false, List.tail_cons, if_neg hne]
    cases rebind_images lp64 fuel (new_entry a nel :: p._rebindings_head) p.images p.cap with
    | none => rfl
    | some res => rfl

/-- Witness of C11: in the example process a failing registration, a call of
`rebind_symbols_image` and two successful registrations are made in turn. -/
theorem C11_callback_registered_once_witness :
    ∃ p, run_calls true 10 ex_process ex_calls = some p ∧
      p._rebindings_head.length = 2 ∧ p.add_image_callbacks = 1 ∧
      slot_value p 0 3 0 2 = some 77 ∧ slot_value p 0 3 0 1 = some 88 := by
  have h := (C11_callback_registered_once true 10 ex_process rfl rfl).1 ex_calls _ rfl
  exact ⟨_, rfl, h.1, h.2, by decide, by decide⟩

/-! ## The requests of a chain -/

theorem entry_lookup_from_eq_find (symbol_name : List Nat) (cur : rebindings_entry) :
    ∀ k j, entry_lookup_from symbol_name cur k j =
      ((List.range' j k).map fun j => cur.rebindings.getD j default).find?
        (rebinding_matches symbol_name) := by
  intro k
  induction k with
  | zero => intro j; rfl
  | succ k ih =>
    intro j
    rw [entry_lookup_from, List.range'_succ, List.map_cons, List.find?_cons, ih (j + 1)]
    cases rebinding_matches symbol_name (cur.rebindings.getD j default) <;> rfl

/-- The first matching request of a chain is the first request, in the order in
which the requests are consulted, that passes the test of lines 192-193. -/
theorem chain_lookup_eq_find (symbol_name : List Nat) :
    ∀ rebindings : List rebindings_entry,
      chain_lookup symbol_name rebindings =
        (chain_requests rebindings).find? (rebinding_matches symbol_name) := by
  intro rebindings
  induction rebindings with
  | nil => rfl
  | cons cur next ih =>
    have he : entry_lookup symbol_name cur =
        ((List.range cur.rebindings_nel).map fun j => cur.rebindings.getD j default).find?
          (rebinding_matches symbol_name) := by
      rw [entry_lookup, entry_lookup_from_eq_find, List.range_eq_range']
    simp only [chain_lookup, chain_requests, List.flatMap_cons, List.find?_append]
    rw [he]
    simp only [chain_requests] at ih
    rw [ih]
    cases ((List.range cur.rebindings_nel).map fun j => cur.rebindings.getD j default).find?
      (rebinding_matches symbol_name) <;> rfl

theorem rebinding_matches_iff_names (lp64 : Bool) (mem : linkedit_memory)
    (t : table_addresses) (reserved1 i : Nat) (s : List Nat)
    (hs : slot_symbol lp64 mem t reserved1 i = some s) (r : rebinding) :
    rebinding_matches s r = true ↔
      (cstr r.name ≠ [] ∧ slot_names lp64 mem t reserved1 i r.name = true) := by
  rw [rebinding_matches_eq]
  unfold slot_names
  rw [hs]
  simp only [Bool.and_eq_true, bne_iff_ne, ne_eq, beq_iff_eq]
  constructor
  · rintro ⟨⟨h1, h2⟩, h3⟩; exact ⟨h3, h1, h2⟩
  · rintro ⟨h3, h1, h2⟩; exact ⟨⟨h1, h2⟩, h3⟩

/-- The request applied to a slot is a request of the chain with a name that is not
empty and follows the marker in the name of the slot. -/
theorem slot_lookup_some (lp64 : Bool) (rebindings : List rebindings_entry)
    (mem : linkedit_memory) (t : table_addresses) (reserved1 i : Nat) (r : rebinding)
    (h : slot_lookup lp64 rebindings mem t reserved1 i = some r) :
    r ∈ chain_requests rebindings ∧ cstr r.name ≠ [] ∧
      slot_names lp64 mem t reserved1 i r.name = true := by
  unfold slot_lookup at h
  cases hs : slot_symbol lp64 mem t reserved1 i with
  | none => rw [hs] at h; simp at h
  | some s =>
    rw [hs] at h
    simp only at h
    rw [chain_lookup_eq_find] at h
    have h1 := List.mem_of_find?_eq_some h
    have h2 := List.find?_some h
    exact ⟨h1, (rebinding_matches_iff_names lp64 mem t reserved1 i s hs r).1 h2⟩

/-- No request is applied to a slot exactly when no request of the chain has a name
that is not empty and follows the marker in the name of the slot. -/
theorem slot_lookup_eq_none_iff (lp64 : Bool) (rebindings : List rebindings_entry)
    (mem : linkedit_memory) (t : table_addresses) (reserved1 i : Nat) :
    slot_lookup lp64 rebindings mem t reserved1 i = none ↔
      ∀ r ∈ chain_requests rebindings,
        ¬ (cstr r.name ≠ [] ∧ slot_names lp64 mem t reserved1 i r.name = true) := by
  unfold slot_lookup
  cases hs : slot_symbol lp64 mem t reserved1 i with
  | none =>
    simp only [true_iff]
    intro r _ hr
    have := hr.2
    unfold slot_names at this
    rw [hs] at this
    simp at this
  | some s =>
    simp only
    rw [chain_lookup_eq_find, List.find?_eq_none]
    constructor
    · intro h r hr hm
      exact h r hr ((rebinding_matches_iff_names lp64 mem t reserved1 i s hs r).2 hm)
    · intro h r hr hm
      exact h r hr ((rebinding_matches_iff_names lp64 mem t reserved1 i s hs r).1 hm)

/-! ## C12: two images -/

theorem image_section_image_after (lp64 : Bool) (rebindings : List rebindings_entry)
    (header : mach_header_t) (slide : Int) (c s : Nat) :
    image_section (image_after lp64 rebindings header slide) c s =
      (image_section header c s).map fun cs =>
        match image_tables lp64 header slide with
        | none => cs
        | some t =>
          (command_after lp64 rebindings header.mem t cs.1,
            if is_data_segment lp64 cs.1 = true then
              section_after lp64 rebindings header.mem t cs.2
            else cs.2) := by
  unfold image_after image_section
  cases ht : image_tables lp64 header slide with
  | none =>
    simp only
    cases header.cmds[c]? with
    | none => rfl
    | some cmd =>
      simp only
      cases cmd.sects[s]? <;> rfl
  | some t =>
    simp only [List.getElem?_map]
    cases header.cmds[c]? with
    | none => rfl
    | some cmd =>
      simp only [Option.map_some']
      by_cases hd : is_data_segment lp64 cmd = true
      · simp only [command_after, hd, if_true, List.getElem?_map]
        cases hs : cmd.sects[s]? with
        | none => simp
        | some sect => simp [hd]
      · simp only [command_after, hd, if_false]
        cases hs : cmd.sects[s]? with
        | none => simp [hs]
        | some sect => simp [hs, hd]

/-- The value of every slot of an image after a pass, section by section: a targeted
slot holds the replacement of a request of the chain whose name, not empty, follows
the marker in the name of the slot; every other slot holds its value from before. -/
theorem image_after_slot_values (lp64 : Bool) (rebindings : List rebindings_entry)
    (header : mach_header_t) (slide : Int) (c s : Nat) (cmd : load_command) (sect : section_t)
    (h : image_section header c s = some (cmd, sect)) :
    ∃ cmd1 sect1, image_section (image_after lp64 rebindings header slide) c s =
        some (cmd1, sect1) ∧
      ∀ i,
        (slot_is_targeted lp64 rebindings header slide cmd sect i →
          ∃ t r, image_tables lp64 header slide = some t ∧ r ∈ chain_requests rebindings ∧
            cstr r.name ≠ [] ∧ slot_names lp64 header.mem t sect.reserved1 i r.name = true ∧
            sect1.indirect_symbol_bindings i = r.replacement) ∧
        (¬ slot_is_targeted lp64 rebindings header slide cmd sect i →
          sect1.indirect_symbol_bindings i = sect.indirect_symbol_bindings i) := by
  rw [image_section_image_after, h]
  simp only [Option.map_some']
  cases ht : image_tables lp64 header slide with
  | none =>
    refine ⟨cmd, sect, rfl, fun i => ⟨?_, fun _ => rfl⟩⟩
    rintro ⟨t, h1, -⟩
    rw [ht] at h1
    simp at h1
  | some t =>
    simp only
    refine ⟨_, _, rfl, fun i => ?_⟩
    by_cases hex : is_data_segment lp64 cmd = true ∧ is_symbol_pointers sect = true ∧
        i < slot_count lp64 sect
    · obtain ⟨hd, hsp, hi⟩ := hex
      simp only [hd, if_true, section_after, hsp, hi, binding_after]
      cases hl : slot_lookup lp64 rebindings header.mem t sect.reserved1 i with
      | none =>
        have hno := (slot_lookup_eq_none_iff lp64 rebindings header.mem t sect.reserved1 i).1 hl
        refine ⟨?_, fun _ => rfl⟩
        rintro ⟨t', h1, -, -, -, r, hr, hn, hnames⟩
        rw [ht] at h1
        simp only [Option.some.injEq] at h1
        subst h1
        exact absurd ⟨hn, hnames⟩ (hno r hr)
      | some r =>
        obtain ⟨h1, h2, h3⟩ := slot_lookup_some lp64 rebindings header.mem t sect.reserved1 i r hl
        refine ⟨fun _ => ⟨t, r, rfl, h1, h2, h3, rfl⟩, fun hnot => ?_⟩
        exact absurd ⟨t, ht, hd, hsp, hi, r, h1, h2, h3⟩ hnot
    · have hnt : ¬ slot_is_targeted lp64 rebindings header slide cmd sect i := by
        rintro ⟨t', -, hd, hsp, hi, -⟩
        exact hex ⟨hd, hsp, hi⟩
      refine ⟨fun h => absurd h hnt, fun _ => ?_⟩
      by_cases hd : is_data_segment lp64 cmd = true
      · simp only [hd, if_true, section_after]
        by_cases hsp : is_symbol_pointers sect = true
        · have hi : ¬ i < slot_count lp64 sect := fun hi => hex ⟨hd, hsp, hi⟩
          simp only [hsp, if_true, hi, if_false]
        · simp only [hsp]
          rfl
      · simp only [hd]
        rfl

/-- The slots of an example image are those of its sections. -/
theorem ex_image_every_slot (sects : List section_t)
    (P : linkedit_memory → table_addresses → section_t → Nat → Prop)
    (h : ∀ sect ∈ sects, ∀ i, i < slot_count true sect → P ex_mem ex_tables sect i) :
    every_slot true [(ex_image sects, 0)] P := by
  intro hs hhs t ht c hc hd sect hsect hsp i hi
  simp only [List.mem_singleton] at hhs
  subst hhs
  have htab : image_tables true (ex_image sects) 0 = some ex_tables := by
    rfl
  simp only at ht hc
  rw [htab] at ht
  simp only [Option.some.injEq] at ht
  subst ht
  simp only [ex_image, ex_cmds, List.mem_cons, List.mem_singleton, List.not_mem_nil,
    or_false] at hc
  rcases hc with hc | hc | hc | hc
  · subst hc; exact absurd hd (by decide)
  · subst hc; exact absurd hd (by decide)
  · subst hc; exact absurd hd (by decide)
  · subst hc
    exact h sect hsect i hi

/-- C12 (amended).  Per-image independence: for every chain and every two images
`A` and `B` such that no slot of `A` resolves to a marker character followed by the
name of a request of the chain, processing `A` and then `B`, or `B` and then `A`, with
`rebind_symbols_for_image` leaves `A` as it was and gives `B` and the memory behind
the `replaced` pointers the contents that processing `B` alone gives them; in `B` a
slot that the engine examines and whose name is a marker character followed by the
name, not empty, of a request of the chain holds the replacement of such a request,
and every other slot holds its value from before.  The calls return when the fuel
covers the slot counts and the entry lengths, which must be below `2 ^ 32`. -/
theorem C12_images_processed_independently (lp64 : Bool) (fuel : Nat)
    (rebindings : List rebindings_entry) (A : mach_header_t) (sA : Int)
    (B : mach_header_t) (sB : Int) (cap : captured)
    (hA : every_slot lp64 [(A, sA)] (fun mem t sect i =>
      ∀ r ∈ chain_requests rebindings, slot_names lp64 mem t sect.reserved1 i r.name = false)) :
    (fuel_suffices lp64 fuel rebindings [(A, sA), (B, sB)] →
      ∃ res, rebind_images lp64 fuel rebindings [(A, sA), (B, sB)] cap = some res) ∧
    (∀ images1 cap1,
      (rebind_images lp64 fuel rebindings [(A, sA), (B, sB)] cap = some (images1, cap1) ∨
        rebind_images lp64 fuel rebindings [(B, sB), (A, sA)] cap =
          some (images1.reverse, cap1)) →
      ∃ B1, images1 = [(A, sA), (B1, sB)] ∧
        rebind_symbols_for_image lp64 fuel rebindings B sB cap = some (B1, cap1) ∧
        ∀ c s cmd sect, image_section B c s = some (cmd, sect) →
          ∃ cmd1 sect1, image_section B1 c s = some (cmd1, sect1) ∧
            ∀ i,
              (slot_is_targeted lp64 rebindings B sB cmd sect i →
                ∃ t r, image_tables lp64 B sB = some t ∧ r ∈ chain_requests rebindings ∧
                  cstr r.name ≠ [] ∧
                  slot_names lp64 B.mem t sect.reserved1 i r.name = true ∧
                  sect1.indirect_symbol_bindings i = r.replacement) ∧
              (¬ slot_is_targeted lp64 rebindings B sB cmd sect i →
                sect1.indirect_symbol_bindings i = sect.indirect_symbol_bindings i)) := by
  have hl : every_slot lp64 [(A, sA)] (fun mem t sect i =>
      slot_lookup lp64 rebindings mem t sect.reserved1 i = none) := by
    intro hs hhs t ht c hc hd sect hsect hsp i hi
    rw [slot_lookup_eq_none_iff]
    intro r hr hm
    have := hA hs hhs t ht c hc hd sect hsect hsp i hi r hr
    rw [this] at hm
    exact absurd hm.2 (by simp)
  have hAimg : images_after lp64 rebindings [(A, sA)] = [(A, sA)] :=
    images_after_eq_self lp64 rebindings [(A, sA)] (by
      intro hs hhs t ht c hc hd sect hsect hsp i hi
      simp only [binding_after, hl hs hhs t ht c hc hd sect hsect hsp i hi])
  have hAwr : images_writes lp64 rebindings [(A, sA)] = [] :=
    images_writes_eq_nil lp64 rebindings [(A, sA)] (by
      intro hs hhs t ht c hc hd sect hsect hsp i hi
      simp only [slot_writes, hl hs hhs t ht c hc hd sect hsect hsp i hi])
  simp only [images_after, images_writes, List.map_cons, List.map_nil, List.flatMap_cons,
    List.flatMap_nil, List.append_nil, List.cons.injEq, Prod.mk.injEq, and_true] at hAimg hAwr
  have hArun : ∀ cap0 r, rebind_symbols_for_image lp64 fuel rebindings A sA cap0 = some r →
      r = (A, cap0) := by
    intro cap0 r hr
    rcases r with ⟨A1, c1⟩
    obtain ⟨e1, e2⟩ := rebind_symbols_for_image_eq lp64 fuel rebindings A sA cap0 A1 c1 hr
    rw [hAimg] at e1
    rw [hAwr] at e2
    rw [e1, e2]
    rfl
  constructor
  · intro hf
    exact rebind_images_returns lp64 fuel rebindings _ cap hf
  · intro images1 cap1 hrun
    have key : ∃ B1, rebind_symbols_for_image lp64 fuel rebindings B sB cap = some (B1, cap1) ∧
        images1 = [(A, sA), (B1, sB)] := by
      rcases hrun with hrun | hrun
      · simp only [rebind_images] at hrun
        cases hra : rebind_symbols_for_image lp64 fuel rebindings A sA cap with
        | none => simp [hra] at hrun
        | some ra =>
          have := hArun cap ra hra
          subst this
          rw [hra] at hrun
          simp only at hrun
          cases hrb : rebind_symbols_for_image lp64 fuel rebindings B sB cap with
          | none => simp [hrb] at hrun
          | some rb =>
            rcases rb with ⟨B1, c2⟩
            rw [hrb] at hrun
            simp only [Option.some.injEq, Prod.mk.injEq] at hrun
            refine ⟨B1, ?_, hrun.1.symm⟩
            rw [← hrun.2]
      · simp only [rebind_images] at hrun
        cases hrb : rebind_symbols_for_image lp64 fuel rebindings B sB cap with
        | none => simp [hrb] at hrun
        | some rb =>
          rcases rb with ⟨B1, c2⟩
          rw [hrb] at hrun
          simp only at hrun
          cases hra : rebind_symbols_for_image lp64 fuel rebindings A sA c2 with
          | none => simp [hra] at hrun
          | some ra =>
            have := hArun c2 ra hra
            subst this
            rw [hra] at hrun
            simp only [Option.some.injEq, Prod.mk.injEq] at hrun
            obtain ⟨h1, h2⟩ := hrun
            have h3 : images1 = [(A, sA), (B1, sB)] := by
              have := congrArg List.reverse h1
              simpa using this.symm
            subst h2
            exact ⟨B1, rfl, h3⟩
    obtain ⟨B1, hB, himg⟩ := key
    refine ⟨B1, himg, hB, ?_⟩
    obtain ⟨e1, -⟩ := rebind_symbols_for_image_eq lp64 fuel rebindings B sB cap B1 cap1 hB
    intro c s cmd sect hsec
    rw [e1]
    exact image_after_slot_values lp64 rebindings B sB c s cmd sect hsec

/-- Witness of C12: the chain holds the request for `open`; image `A` has the second
example section, in which no slot resolves to `_open`, and image `B` the first, whose
slot 1 does. -/
theorem C12_images_processed_independently_witness :
    ∃ images1 cap1,
      rebind_images true 10 [⟨[⟨str_open, 88, some 0⟩], 1⟩]
        [(ex_image [ex_got], 0), (ex_image [ex_section], 0)] ex_cap = some (images1, cap1) ∧
      (∃ B1, images1 = [(ex_image [ex_got], 0), (B1, 0)] ∧
        rebind_symbols_for_image true 10 [⟨[⟨str_open, 88, some 0⟩], 1⟩]
          (ex_image [ex_section]) 0 ex_cap = some (B1, cap1)) ∧
      slot_value ⟨[], images1, 0, cap1⟩ 1 3 0 1 = some 88 ∧
      slot_value ⟨[], images1, 0, cap1⟩ 1 3 0 2 = some 102 ∧
      slot_value ⟨[], images1, 0, cap1⟩ 0 3 0 2 = some 202 := by
  have hreq : chain_requests [⟨[⟨str_open, 88, some 0⟩], 1⟩] = [⟨str_open, 88, some 0⟩] := rfl
  have hnames : ∀ i, i < 4 →
      slot_names true ex_mem ex_tables ex_got.reserved1 i str_open = false := by decide
  have h := C12_images_processed_independently true 10 [⟨[⟨str_open, 88, some 0⟩], 1⟩]
    (ex_image [ex_got]) 0 (ex_image [ex_section]) 0 ex_cap
    (ex_image_every_slot [ex_got] _ (by
      intro sect hsect i hi r hr
      simp only [List.mem_singleton] at hsect
      subst hsect
      rw [hreq] at hr
      simp only [List.mem_singleton] at hr
      subst hr
      exact hnames i hi))
  refine ⟨_, _, rfl, ?_, by decide, by decide, by decide⟩
  obtain ⟨B1, h1, h2, -⟩ := h.2 _ _ (Or.inl rfl)
  exact ⟨B1, h1, h2⟩

/-- Counterexample to C12 as stated: the chain holds a request with the empty name;
no slot of image `A` (the first example section) resolves to the marker alone, slot 0
of image `B` (the second example section) does, so that its name after the marker
equals the registered name, and after `A` and `B` were processed it still holds
200, not the replacement 77. -/
theorem C12_counterexample :
    ∃ images1 cap1,
      rebind_images true 10 [⟨[⟨[], 77, none⟩], 1⟩]
        [(ex_image [ex_section], 0), (ex_image [ex_got], 0)] ex_cap = some (images1, cap1) ∧
      (∀ i, i < 4 → slot_names true ex_mem ex_tables ex_section.reserved1 i [] = false) ∧
      slot_names true ex_mem ex_tables ex_got.reserved1 0 [] = true ∧
      slot_value ⟨[], images1, 0, cap1⟩ 1 3 0 0 = some 200 :=
  ⟨_, _, rfl, by decide, by decide, by decide⟩

/-! ## C13: the engine against its description -/

theorem is_skipped_iff (x : Nat) :
    is_skipped x = true ↔ (x = INDIRECT_SYMBOL_ABS ∨ x = INDIRECT_SYMBOL_LOCAL ∨
      x = (INDIRECT_SYMBOL_LOCAL ||| INDIRECT_SYMBOL_ABS)) := by
  unfold is_skipped
  simp only [Bool.or_eq_true, beq_iff_eq, or_assoc]

theorem rebinding_matches_long (s : List Nat) (hs : 2 ≤ (cstr s).length) (r : rebinding) :
    rebinding_matches s r = (cstr r.name == (cstr s).drop 1) := by
  rw [rebinding_matches_eq, Bool.eq_iff_iff]
  simp only [Bool.and_eq_true, bne_iff_ne, ne_eq, beq_iff_eq]
  constructor
  · rintro ⟨⟨-, h⟩, -⟩; exact h.symm
  · intro h
    refine ⟨⟨?_, h.symm⟩, ?_⟩
    · intro hc; rw [hc] at hs; simp at hs
    · intro hc
      rw [hc] at h
      have := congrArg List.length h
      simp only [List.length_nil, List.length_drop] at this
      omega

theorem binding_after_eq_spec (lp64 : Bool) (rebindings : List rebindings_entry)
    (mem : linkedit_memory) (t : table_addresses) (reserved1 i v : Nat) :
    binding_after lp64 rebindings mem t reserved1 i v =
      spec_slot_value lp64 rebindings mem t reserved1 i v := by
  unfold binding_after slot_lookup slot_symbol spec_slot_value
  by_cases hsk : is_skipped (symtab_index_of mem t.indirect_symtab reserved1 i) = true
  · rw [if_pos hsk, if_pos ((is_skipped_iff _).1 hsk)]
  · rw [if_neg hsk, if_neg (fun h => hsk ((is_skipped_iff _).2 h))]
    simp only
    by_cases hlen : (cstr (symbol_name_of lp64 mem t.symtab t.strtab
        (symtab_index_of mem t.indirect_symtab reserved1 i))).length < 2
    · rw [if_pos hlen, chain_lookup_none _ (rebinding_matches_short _ (by omega))]
    · rw [if_neg hlen, chain_lookup_eq_find]
      have hfun : rebinding_matches (symbol_name_of lp64 mem t.symtab t.strtab
          (symtab_index_of mem t.indirect_symtab reserved1 i)) =
          fun r => cstr r.name == (cstr (symbol_name_of lp64 mem t.symtab t.strtab
            (symtab_index_of mem t.indirect_symtab reserved1 i))).drop 1 := by
        funext r
        exact rebinding_matches_long _ (by omega) r
      rw [hfun]

theorem rebindings_loop_diverges (symbol_name : List Nat) (i : Nat) (cur : rebindings_entry)
    (hnel : UINT_RANGE ≤ cur.rebindings_nel)
    (hno : ∀ j, rebinding_matches symbol_name (cur.rebindings.getD j default) = false) :
    ∀ (fuel j : Nat) (st : engine_state), j < UINT_RANGE →
      rebindings_loop symbol_name i cur fuel j st = none := by
  intro fuel
  induction fuel with
  | zero => intro j st _; rfl
  | succ fuel ih =>
    intro j st hj
    have hlt : j < cur.rebindings_nel := by omega
    have hmod : (j + 1) % UINT_RANGE < UINT_RANGE := Nat.mod_lt _ (by decide)
    have hm := hno j
    unfold rebinding_matches at hm
    rw [rebindings_loop, if_pos hlt]
    simp only [hm, Bool.false_eq_true, if_false]
    exact ih _ st hmod

theorem slot_lookup_first_request (lp64 : Bool) (r1 : rebinding) (more : List rebinding)
    (nel : Nat) (next : List rebindings_entry) (mem : linkedit_memory) (t : table_addresses)
    (reserved1 i : Nat) (hnel : 0 < nel) (hn : cstr r1.name ≠ [])
    (hres : slot_names lp64 mem t reserved1 i r1.name = true) :
    slot_lookup lp64 (⟨r1 :: more, nel⟩ :: next) mem t reserved1 i = some r1 := by
  unfold slot_lookup
  cases hs : slot_symbol lp64 mem t reserved1 i with
  | none => simp [slot_names, hs] at hres
  | some s =>
    have hm : rebinding_matches s r1 = true :=
      (rebinding_matches_iff_names lp64 mem t reserved1 i s hs r1).2 ⟨hn, hres⟩
    obtain ⟨k, rfl⟩ : ∃ k, nel = k + 1 := ⟨nel - 1, by omega⟩
    simp only [chain_lookup, entry_lookup, entry_lookup_from, List.getD_cons_zero, hm, if_true]

/-- C13 (code bug). The engine against its description, for every build, chain,
section, table addresses and table contents.  (1) When the section has fewer than
`2 ^ 32` slots and every entry of the chain fewer than `2 ^ 32` requests, the call
returns, given that much fuel.  (2) Whenever it returns, every slot below
`section.size / pointer_size` holds the value `spec_slot_value` describes (the
replacement of the first request, head to tail and by increasing index, whose name
equals the symbol name after the marker; the previous value for a sentinel, for a
name of fewer than 2 characters and when no request matches), and every slot from that
index on holds its previous value.  (3) For a section of `2 ^ 32` slots or more the
counter `uint i` wraps before it reaches the slot count and the call never returns,
whatever the fuel.  (4) The same holds for the counter `uint j` when the head entry
of the chain has `2 ^ 32` requests or more, none of which matches slot 0.  (5) When
the first two requests of the head entry have the same name, a slot that resolves to
that name holds the replacement of the first of the two. -/
theorem C13_engine_equals_reference (lp64 : Bool) (fuel : Nat)
    (rebindings : List rebindings_entry) (sect : section_t) (slide : Int)
    (t : table_addresses) (mem : linkedit_memory) (cap : captured) :
    (fuel ≤ UINT_RANGE → (∀ cur ∈ rebindings, cur.rebindings_nel < fuel) →
      slot_count lp64 sect < fuel →
      ∃ res, perform_rebinding_with_section lp64 fuel rebindings sect slide t.symtab t.strtab
        t.indirect_symtab mem cap = some res) ∧
    (∀ sect1 cap1,
      perform_rebinding_with_section lp64 fuel rebindings sect slide t.symtab t.strtab
        t.indirect_symtab mem cap = some (sect1, cap1) →
      ∀ i, sect1.indirect_symbol_bindings i =
        if i < slot_count lp64 sect then
          spec_slot_value lp64 rebindings mem t sect.reserved1 i (sect.indirect_symbol_bindings i)
        else sect.indirect_symbol_bindings i) ∧
    (UINT_RANGE ≤ slot_count lp64 sect →
      perform_rebinding_with_section lp64 fuel rebindings sect slide t.symtab t.strtab
        t.indirect_symtab mem cap = none) ∧
    (∀ cur next symbol_name, rebindings = cur :: next → UINT_RANGE ≤ cur.rebindings_nel →
      0 < slot_count lp64 sect →
      slot_symbol lp64 mem t sect.reserved1 0 = some symbol_name →
      (∀ j, rebinding_matches symbol_name (cur.rebindings.getD j default) = false) →
      perform_rebinding_with_section lp64 fuel rebindings sect slide t.symtab t.strtab
        t.indirect_symtab mem cap = none) ∧
    (∀ r1 r2 more nel next sect1 cap1, rebindings = ⟨r1 :: r2 :: more, nel⟩ :: next →
      2 ≤ nel → cstr r1.name = cstr r2.name → cstr r2.name ≠ [] →
      perform_rebinding_with_section lp64 fuel rebindings sect slide t.symtab t.strtab
        t.indirect_symtab mem cap = some (sect1, cap1) →
      ∀ i, i < slot_count lp64 sect →
        slot_names lp64 mem t sect.reserved1 i r2.name = true →
        sect1.indirect_symbol_bindings i = r1.replacement) := by
  refine ⟨?_, ?_, ?_, ?_, ?_⟩
  · intro h1 h2 h3
    exact perform_rebinding_with_section_returns lp64 fuel rebindings sect slide _ _ _ mem cap
      h1 h2 h3
  · intro sect1 cap1 hrun i
    obtain ⟨-, hsect, -⟩ := perform_rebinding_with_section_eq lp64 fuel rebindings sect slide t
      mem cap sect1 cap1 hrun
    rw [hsect]
    simp only [engine_after, binding_after_eq_spec]
  · intro hsize
    unfold perform_rebinding_with_section
    rw [symbol_loop_diverges lp64 fuel rebindings sect.size sect.reserved1 t.symtab t.strtab
      t.indirect_symtab mem hsize fuel 0 ⟨sect.indirect_symbol_bindings, cap⟩ (by decide)]
  · intro cur next symbol_name hre hnel hcount hsym hno
    subst hre
    unfold perform_rebinding_with_section
    cases fuel with
    | zero => rfl
    | succ fuel =>
      have hsk : is_skipped (symtab_index_of mem t.indirect_symtab sect.reserved1 0) = false := by
        unfold slot_symbol at hsym
        by_contra hc
        simp only [Bool.not_eq_false] at hc
        simp [hc] at hsym
      have hname : symbol_name_of lp64 mem t.symtab t.strtab
          (symtab_index_of mem t.indirect_symtab sect.reserved1 0) = symbol_name := by
        unfold slot_symbol at hsym
        simpa [hsk] using hsym
      have hloop := rebindings_loop_diverges symbol_name 0 cur hnel hno (fuel + 1) 0
        ⟨sect.indirect_symbol_bindings, cap⟩ (by decide)
      have hcount1 : 0 < sect.size / sizeof_ptr lp64 := hcount
      rw [symbol_loop, if_pos hcount1]
      simp only [hsk, Bool.false_eq_true, if_false, hname, chain_loop, hloop]
  · intro r1 r2 more nel next sect1 cap1 hre hnel hname hne hrun i hi hres
    subst hre
    obtain ⟨-, hsect, -⟩ := perform_rebinding_with_section_eq lp64 fuel _ sect slide t
      mem cap sect1 cap1 hrun
    have hres1 : slot_names lp64 mem t sect.reserved1 i r1.name = true := by
      unfold slot_names at hres ⊢
      rw [hname]; exact hres
    have hl := slot_lookup_first_request lp64 r1 (r2 :: more) nel next mem t sect.reserved1 i
      (by omega) (by rw [hname]; exact hne) hres1
    rw [hsect]
    simp only [engine_after, if_pos hi, binding_after, hl]

/-- The failing input of C13: on the 64-bit build, for the section of `2 ^ 35` bytes,
which has `2 ^ 32` slots, no amount of fuel makes the engine return, here with the
chain that holds the request for `write`. -/
theorem C13_counterexample :
    slot_count true ex_section_huge = UINT_RANGE ∧
    ¬ ∃ fuel res, perform_rebinding_with_section true fuel [⟨[⟨str_write, 77, none⟩], 1⟩]
      ex_section_huge 0 ex_tables.symtab ex_tables.strtab ex_tables.indirect_symtab ex_mem
      ex_cap = some res := by
  refine ⟨by decide, ?_⟩
  rintro ⟨fuel, res, h⟩
  unfold perform_rebinding_with_section at h
  rw [symbol_loop_diverges true fuel _ ex_section_huge.size ex_section_huge.reserved1 _ _ _
    ex_mem (by decide) fuel 0 _ (by decide)] at h
  exact Option.noConfusion h

/-! ## C14: the capture guard -/

theorem filter_slot_flatMap_range (f : Nat → List capture_write)
    (hf : ∀ j, ∀ w ∈ f j, w.slot = j) (i : Nat) :
    ∀ n, ((List.range n).flatMap f).filter (fun w => w.slot == i) =
      if i < n then f i else [] := by
  intro n
  induction n with
  | zero => simp
  | succ n ih =>
    rw [List.range_succ, List.flatMap_append, List.filter_append, ih]
    simp only [List.flatMap_cons, List.flatMap_nil, List.append_nil]
    by_cases hin : i = n
    · subst hin
      have h1 : (f i).filter (fun w => w.slot == i) = f i := by
        rw [List.filter_eq_self]
        intro w hw
        simp [hf i w hw]
      simp [h1]
    · have h1 : (f n).filter (fun w => w.slot == i) = [] := by
        rw [List.filter_eq_nil_iff]
        intro w hw
        simp only [beq_iff_eq, hf n w hw]
        exact fun h => hin h.symm
      rw [h1, List.append_nil]
      by_cases hlt : i < n
      · rw [if_pos hlt, if_pos (by omega)]
      · rw [if_neg hlt, if_neg (by omega)]

theorem chain_lookup_matches (symbol_name : List Nat) (rebindings : List rebindings_entry)
    (r : rebinding) (h : chain_lookup symbol_name rebindings = some r) :
    rebinding_matches symbol_name r = true := by
  rw [chain_lookup_eq_find] at h
  exact List.find?_some h

theorem perform_writes_for_slot (lp64 : Bool) (fuel : Nat) (rebindings : List rebindings_entry)
    (sect : section_t) (slide : Int) (t : table_addresses) (mem : linkedit_memory)
    (cap : captured) (i : Nat) (sect1 : section_t) (cap1 : captured)
    (hrun : perform_rebinding_with_section lp64 fuel rebindings sect slide t.symtab t.strtab
      t.indirect_symtab mem cap = some (sect1, cap1)) :
    writes_for_slot cap cap1 i =
      if i < slot_count lp64 sect then
        slot_writes lp64 rebindings mem t sect.reserved1 i (sect.indirect_symbol_bindings i)
      else [] := by
  obtain ⟨-, -, hcap⟩ := perform_rebinding_with_section_eq lp64 fuel rebindings sect slide t
    mem cap sect1 cap1 hrun
  unfold writes_for_slot
  rw [hcap]
  simp only [engine_after, apply_writes_log, List.drop_left]
  exact filter_slot_flatMap_range _
    (fun j w hw => (slot_writes_slot lp64 rebindings mem t sect.reserved1 j _ w hw).1) i _

/-- C14. Capture guard.  Let `r` be the request that matches slot `i` of a section, the
first matching request of the chain.  The engine returns (given fuel above the slot
count and the entry lengths), and whenever it returns the slot holds `r.replacement`,
in every case; the writes through `replaced` pointers made for the slot are the single
write of the value the slot held before the run to the cell of `r.replaced` when
`r.replaced` is not null and that value differs from `r.replacement`, and none
otherwise.  The same holds of one run of the loop over the chain (lines 180-225) from
any state: the cell receives the value of the slot before the overwrite exactly when
`r.replaced` is not null and the slot differs from `r.replacement`, and the memory
behind the `replaced` pointers is unchanged otherwise. -/
theorem C14_capture_guard (lp64 : Bool) (fuel : Nat) (rebindings : List rebindings_entry)
    (sect : section_t) (slide : Int) (t : table_addresses) (mem : linkedit_memory)
    (cap : captured) (i : Nat) (r : rebinding)
    (hi : i < slot_count lp64 sect)
    (hr : slot_lookup lp64 rebindings mem t sect.reserved1 i = some r) :
    (fuel ≤ UINT_RANGE → (∀ cur ∈ rebindings, cur.rebindings_nel < fuel) →
      slot_count lp64 sect < fuel →
      ∃ res, perform_rebinding_with_section lp64 fuel rebindings sect slide t.symtab t.strtab
        t.indirect_symtab mem cap = some res) ∧
    (∀ sect1 cap1,
      perform_rebinding_with_section lp64 fuel rebindings sect slide t.symtab t.strtab
        t.indirect_symtab mem cap = some (sect1, cap1) →
      sect1.indirect_symbol_bindings i = r.replacement ∧
      (∀ c, r.replaced = some c → sect.indirect_symbol_bindings i ≠ r.replacement →
        writes_for_slot cap cap1 i = [⟨i, c, sect.indirect_symbol_bindings i⟩]) ∧
      ((r.replaced = none ∨ sect.indirect_symbol_bindings i = r.replacement) →
        writes_for_slot cap cap1 i = []) ∧
      (writes_for_slot cap cap1 i ≠ [] ↔
        (r.replaced ≠ none ∧ sect.indirect_symbol_bindings i ≠ r.replacement))) ∧
    (∀ symbol_name st st1, chain_lookup symbol_name rebindings = some r →
      chain_loop symbol_name i fuel rebindings st = some st1 →
      rebinding_matches symbol_name r = true ∧
      st1.indirect_symbol_bindings i = r.replacement ∧
      (∀ c, r.replaced = some c → st.indirect_symbol_bindings i ≠ r.replacement →
        st1.cap = write_replaced st.cap i c (st.indirect_symbol_bindings i) ∧
        st1.cap.cells c = st.indirect_symbol_bindings i) ∧
      ((r.replaced = none ∨ st.indirect_symbol_bindings i = r.replacement) →
        st1.cap = st.cap)) := by
  refine ⟨?_, ?_, ?_⟩
  · intro h1 h2 h3
    exact perform_rebinding_with_section_returns lp64 fuel rebindings sect slide _ _ _ mem cap
      h1 h2 h3
  · intro sect1 cap1 hrun
    obtain ⟨-, hsect, -⟩ := perform_rebinding_with_section_eq lp64 fuel rebindings sect slide t
      mem cap sect1 cap1 hrun
    have hw := perform_writes_for_slot lp64 fuel rebindings sect slide t mem cap i sect1 cap1 hrun
    rw [if_pos hi] at hw
    unfold slot_writes at hw
    rw [hr] at hw
    simp only at hw
    refine ⟨?_, ?_, ?_, ?_⟩
    · rw [hsect]
      simp only [engine_after, if_pos hi, binding_after, hr]
    · intro c hc hne
      rw [hw, hc]
      simp only [if_pos hne]
    · intro h
      rw [hw]
      cases hc : r.replaced with
      | none => rfl
      | some c =>
        rcases h with h | h
        · rw [hc] at h; exact Option.noConfusion h
        · simp only [h, ne_eq, not_true_eq_false, if_false]
    · rw [hw]
      cases hc : r.replaced with
      | none => simp
      | some c =>
        by_cases hne : sect.indirect_symbol_bindings i = r.replacement
        · simp [hne]
        · simp [hne]
  · intro symbol_name st st1 hl hloop
    have h1 := chain_loop_eq symbol_name i fuel rebindings st st1 hloop
    unfold chain_apply at h1
    rw [hl] at h1
    simp only at h1
    subst h1
    refine ⟨chain_lookup_matches symbol_name rebindings r hl, ?_, ?_, ?_⟩
    · rw [apply_rebinding_bindings]
      simp only [if_true]
    · intro c hc hne
      have : (apply_rebinding i r st).cap =
          write_replaced st.cap i c (st.indirect_symbol_bindings i) := by
        unfold apply_rebinding write_binding
        simp only [hc, if_pos hne]
      rw [this]
      exact ⟨rfl, by simp [write_replaced]⟩
    · intro h
      rw [apply_rebinding_cap]
      cases hc : r.replaced with
      | none => rfl
      | some c =>
        rcases h with h | h
        · rw [hc] at h; exact Option.noConfusion h
        · simp only [h, ne_eq, not_true_eq_false, if_false]; rfl

/-- Witness of C14: the first example section and the request for `write` with
replacement 77 and the cell 5; slot 2 resolves to `_write` and holds 102. -/
theorem C14_capture_guard_witness :
    ∃ sect1 cap1,
      perform_rebinding_with_section true 10 [⟨[⟨str_write, 77, some 5⟩], 1⟩] ex_section 0
        ex_tables.symtab ex_tables.strtab ex_tables.indirect_symtab ex_mem ex_cap =
          some (sect1, cap1) ∧
      sect1.indirect_symbol_bindings 2 = 77 ∧
      writes_for_slot ex_cap cap1 2 = [⟨2, 5, 102⟩] ∧
      cap1.cells 5 = 102 := by
  have h := (C14_capture_guard true 10 [⟨[⟨str_write, 77, some 5⟩], 1⟩] ex_section 0 ex_tables
    ex_mem ex_cap 2 ⟨str_write, 77, some 5⟩ (by decide) (by decide)).2.1
  refine ⟨_, _, rfl, ?_⟩
  obtain ⟨h1, h2, -, -⟩ := h _ _ rfl
  exact ⟨h1, h2 5 rfl (by decide), by decide⟩

/-! ## C15: the comparison of names -/

theorem cstr_long_cons (s : List Nat) (hs : 2 ≤ (cstr s).length) :
    ∃ m rest, s = m :: rest ∧ m ≠ 0 ∧ cstr s = m :: cstr rest ∧ 1 ≤ (cstr rest).length := by
  cases s with
  | nil => simp [cstr] at hs
  | cons m rest =>
    by_cases hm : m = 0
    · subst hm; rw [cstr_cons_zero] at hs; simp at hs
    · refine ⟨m, rest, rfl, hm, cstr_cons_ne m rest hm, ?_⟩
      rw [cstr_cons_ne m rest hm] at hs
      simp only [List.length_cons] at hs
      omega

theorem chain_lookup_one (symbol_name : List Nat) (r : rebinding) :
    chain_lookup symbol_name [⟨[r], 1⟩] =
      if rebinding_matches symbol_name r = true then some r else none := by
  simp only [chain_lookup, entry_lookup, entry_lookup_from, List.getD_cons_zero]
  split_ifs <;> rfl

/-- C15. Name comparison.  For a symbol name of at least two characters and any
request, the test of lines 172 and 192-193 succeeds if and only if the symbol name
without its first character equals the name of the request, as whole strings: a
request whose name is a proper prefix of it, or of which it is a proper prefix, does
not match.  The outcome is the same whatever character stands first.  The loop over the
chain that holds the request alone returns and applies the request exactly in that
case. -/
theorem C15_name_comparison (symbol_name : List Nat) (r : rebinding)
    (hs : 2 ≤ (cstr symbol_name).length) :
    ((symbol_name_longer_than_1 symbol_name && strcmp (symbol_name.drop 1) r.name == 0) = true ↔
      (cstr symbol_name).drop 1 = cstr r.name) ∧
    (∀ extra, extra ≠ [] →
      ((cstr symbol_name).drop 1 = cstr r.name ++ extra ∨
        (cstr symbol_name).drop 1 ++ extra = cstr r.name) →
      (symbol_name_longer_than_1 symbol_name && strcmp (symbol_name.drop 1) r.name == 0) =
        false) ∧
    (∀ m, m ≠ 0 →
      (symbol_name_longer_than_1 (m :: symbol_name.drop 1) &&
        strcmp ((m :: symbol_name.drop 1).drop 1) r.name == 0) =
      (symbol_name_longer_than_1 symbol_name && strcmp (symbol_name.drop 1) r.name == 0)) ∧
    (∀ i fuel st, 2 ≤ fuel → fuel ≤ UINT_RANGE →
      chain_loop symbol_name i fuel [⟨[r], 1⟩] st =
        some (if (cstr symbol_name).drop 1 = cstr r.name then apply_rebinding i r st
          else st)) := by
  have hiff : ∀ s : List Nat, 2 ≤ (cstr s).length →
      ((symbol_name_longer_than_1 s && strcmp (s.drop 1) r.name == 0) = true ↔
        (cstr s).drop 1 = cstr r.name) := by
    intro s hs1
    have h1 := rebinding_matches_long s hs1 r
    unfold rebinding_matches at h1
    rw [h1, beq_iff_eq]
    exact eq_comm
  refine ⟨hiff symbol_name hs, ?_, ?_, ?_⟩
  · intro extra hextra h
    rw [← Bool.not_eq_true, hiff symbol_name hs]
    intro heq
    have hlen : extra.length ≠ 0 := fun h0 => hextra (List.length_eq_zero.1 h0)
    rcases h with h | h
    · rw [heq] at h
      have := congrArg List.length h
      simp only [List.length_append] at this
      omega
    · rw [heq] at h
      have := congrArg List.length h
      simp only [List.length_append] at this
      omega
  · intro m hm
    obtain ⟨m0, rest, hrest, hm0, hc, hlen⟩ := cstr_long_cons symbol_name hs
    subst hrest
    have hs2 : 2 ≤ (cstr (m :: (m0 :: rest).drop 1)).length := by
      simp only [List.drop_succ_cons, List.drop_zero, cstr_cons_ne m rest hm, List.length_cons]
      omega
    rw [Bool.eq_iff_iff, hiff _ hs2, hiff _ hs, hc]
    simp only [List.drop_succ_cons, List.drop_zero, cstr_cons_ne m rest hm]
  · intro i fuel st h2 hfuel
    obtain ⟨st1, hst1⟩ := chain_loop_returns symbol_name i fuel hfuel [⟨[r], 1⟩] st (by
      intro cur hcur
      simp only [List.mem_singleton] at hcur
      subst hcur
      exact h2)
    have heq := chain_loop_eq symbol_name i fuel _ st st1 hst1
    rw [hst1, heq]
    unfold chain_apply
    rw [chain_lookup_one]
    have hm := hiff symbol_name hs
    by_cases hc : (cstr symbol_name).drop 1 = cstr r.name
    · rw [if_pos hc, if_pos (by unfold rebinding_matches; exact hm.2 hc)]
    · rw [if_neg hc, if_neg (by unfold rebinding_matches; exact fun h => hc (hm.1 h))]

/-- Witness of C15: the symbol name `_write` and the request for `write`; the
request for `writ` and the one for `writes` do not match, and the name `xwrite`
matches as `_write` does. -/
theorem C15_name_comparison_witness :
    2 ≤ (cstr [95, 119, 114, 105, 116, 101]).length ∧
    (symbol_name_longer_than_1 [95, 119, 114, 105, 116, 101] &&
      strcmp ([95, 119, 114, 105, 116, 101].drop 1) str_write == 0) = true ∧
    (symbol_name_longer_than_1 [95, 119, 114, 105, 116, 101] &&
      strcmp ([95, 119, 114, 105, 116, 101].drop 1) [119, 114, 105, 116] == 0) = false ∧
    (symbol_name_longer_than_1 [95, 119, 114, 105, 116, 101] &&
      strcmp ([95, 119, 114, 105, 116, 101].drop 1) [119, 114, 105, 116, 101, 115] == 0) =
        false ∧
    (symbol_name_longer_than_1 [120, 119, 114, 105, 116, 101] &&
      strcmp ([120, 119, 114, 105, 116, 101].drop 1) str_write == 0) = true :=
  ⟨by decide,
    (C15_name_comparison [95, 119, 114, 105, 116, 101] ⟨str_write, 77, none⟩ (by decide)).1.2
      (by decide),
    by decide, by decide, by decide⟩

/-! ## C16: images the resolver skips -/

theorem arch_ne_symtab (lp64 : Bool) : LC_SEGMENT_ARCH_DEPENDENT lp64 ≠ LC_SYMTAB := by
  cases lp64 <;> decide

theorem arch_ne_dysymtab (lp64 : Bool) : LC_SEGMENT_ARCH_DEPENDENT lp64 ≠ LC_DYSYMTAB := by
  cases lp64 <;> decide

theorem find_commands_append (lp64 : Bool) (cmds : List load_command) (c : load_command) :
    find_commands lp64 (cmds ++ [c]) = find_commands_step lp64 (find_commands lp64 cmds) c := by
  unfold find_commands
  rw [List.foldl_append]
  rfl

theorem getLast?_filter_append_singleton (p : load_command → Bool) (cmds : List load_command)
    (c : load_command) :
    ((cmds ++ [c]).filter p).getLast? =
      if p c = true then some c else (cmds.filter p).getLast? := by
  rw [List.filter_append]
  by_cases hp : p c = true
  · simp [hp]
  · simp [hp]

theorem find_commands_eq (lp64 : Bool) (cmds : List load_command) :
    find_commands lp64 cmds =
      { linkedit_segment := (cmds.filter (is_linkedit_segment lp64)).getLast?
        symtab_cmd := (cmds.filter is_symtab_command).getLast?
        dysymtab_cmd := (cmds.filter is_dysymtab_command).getLast? } := by
  induction cmds using List.reverseRecOn with
  | nil => rfl
  | append_singleton cmds c ih =>
    rw [find_commands_append, ih, getLast?_filter_append_singleton,
      getLast?_filter_append_singleton, getLast?_filter_append_singleton]
    unfold find_commands_step is_linkedit_segment is_symtab_command is_dysymtab_command
    by_cases h1 : c.cmd = LC_SEGMENT_ARCH_DEPENDENT lp64
    · have h2 : c.cmd ≠ LC_SYMTAB := by rw [h1]; exact arch_ne_symtab lp64
      have h3 : c.cmd ≠ LC_DYSYMTAB := by rw [h1]; exact arch_ne_dysymtab lp64
      have hb1 : (c.cmd == LC_SEGMENT_ARCH_DEPENDENT lp64) = true := beq_iff_eq.2 h1
      have hb2 : (c.cmd == LC_SYMTAB) = false := beq_eq_false_iff_ne.2 h2
      have hb3 : (c.cmd == LC_DYSYMTAB) = false := beq_eq_false_iff_ne.2 h3
      rw [if_pos h1, hb1, hb2, hb3]
      by_cases h4 : strcmp c.segname SEG_LINKEDIT = 0
      · have hb4 : (strcmp c.segname SEG_LINKEDIT == 0) = true := beq_iff_eq.2 h4
        rw [if_pos h4, hb4]
        rfl
      · have hb4 : (strcmp c.segname SEG_LINKEDIT == 0) = false := beq_eq_false_iff_ne.2 h4
        rw [if_neg h4, hb4]
        rfl
    · have hb1 : (c.cmd == LC_SEGMENT_ARCH_DEPENDENT lp64) = false := beq_eq_false_iff_ne.2 h1
      rw [if_neg h1, hb1]
      by_cases h2 : c.cmd = LC_SYMTAB
      · have h3 : c.cmd ≠ LC_DYSYMTAB := by rw [h2]; decide
        have hb2 : (c.cmd == LC_SYMTAB) = true := beq_iff_eq.2 h2
        have hb3 : (c.cmd == LC_DYSYMTAB) = false := beq_eq_false_iff_ne.2 h3
        rw [if_pos h2, hb2, hb3]
        rfl
      · have hb2 : (c.cmd == LC_SYMTAB) = false := beq_eq_false_iff_ne.2 h2
        rw [if_neg h2, hb2]
        by_cases h3 : c.cmd = LC_DYSYMTAB
        · have hb3 : (c.cmd == LC_DYSYMTAB) = true := beq_iff_eq.2 h3
          rw [if_pos h3, hb3]
          rfl
        · have hb3 : (c.cmd == LC_DYSYMTAB) = false := beq_eq_false_iff_ne.2 h3
          rw [if_neg h3, hb3]
          rfl

theorem image_tables_eq_none (lp64 : Bool) (header : mach_header_t) (slide : Int)
    (h : header.known = false ∨
      (find_commands lp64 header.cmds).linkedit_segment = none ∨
      (find_commands lp64 header.cmds).symtab_cmd = none ∨
      (find_commands lp64 header.cmds).dysymtab_cmd = none ∨
      ∃ d, (find_commands lp64 header.cmds).dysymtab_cmd = some d ∧ d.nindirectsyms = 0) :
    image_tables lp64 header slide = none := by
  unfold image_tables
  by_cases hk : header.known = false
  · rw [if_pos hk]
  · rw [if_neg hk]
    cases h1 : (find_commands lp64 header.cmds).symtab_cmd with
    | none => rfl
    | some a =>
      cases h2 : (find_commands lp64 header.cmds).dysymtab_cmd with
      | none => rfl
      | some b =>
        cases h3 : (find_commands lp64 header.cmds).linkedit_segment with
        | none => rfl
        | some c =>
          rcases h with h | h | h | h | ⟨d, hd, hz⟩
          · exact absurd h hk
          · rw [h3] at h; exact Option.noConfusion h
          · rw [h1] at h; exact Option.noConfusion h
          · rw [h2] at h; exact Option.noConfusion h
          · rw [h2] at hd
            simp only [Option.some.injEq] at hd
            subst hd
            simp only [hz, if_true]

theorem rebind_symbols_for_image_skip (lp64 : Bool) (fuel : Nat)
    (rebindings : List rebindings_entry) (header : mach_header_t) (slide : Int)
    (cap : captured) (h : image_tables lp64 header slide = none) :
    rebind_symbols_for_image lp64 fuel rebindings header slide cap = some (header, cap) := by
  unfold rebind_symbols_for_image
  rw [h]

/-- C16. Resolver skip.  When the loader does not know the image, or its load commands
hold no architecture-dependent segment command named `__LINKEDIT`, or no `LC_SYMTAB`
command, or no `LC_DYSYMTAB` command, or the `LC_DYSYMTAB` command that is used (the
last one) has `nindirectsyms = 0`, then for every chain and whatever the fuel
`rebind_symbols_for_image` returns, and it returns the image and the memory behind the
`replaced` pointers as they were: no slot is modified and nothing is written through a
`replaced` pointer. -/
theorem C16_resolver_skip (lp64 : Bool) (fuel : Nat) (rebindings : List rebindings_entry)
    (header : mach_header_t) (slide : Int) (cap : captured)
    (h : header.known = false ∨
      (∀ c ∈ header.cmds,
        ¬ (c.cmd = LC_SEGMENT_ARCH_DEPENDENT lp64 ∧ cstr c.segname = cstr SEG_LINKEDIT)) ∨
      (∀ c ∈ header.cmds, c.cmd ≠ LC_SYMTAB) ∨
      (∀ c ∈ header.cmds, c.cmd ≠ LC_DYSYMTAB) ∨
      ∃ d, (header.cmds.filter is_dysymtab_command).getLast? = some d ∧ d.nindirectsyms = 0) :
    image_tables lp64 header slide = none ∧
    rebind_symbols_for_image lp64 fuel rebindings header slide cap = some (header, cap) := by
  have hnone : image_tables lp64 header slide = none := by
    apply image_tables_eq_none
    rw [find_commands_eq]
    rcases h with h | h | h | h | ⟨d, hd, hz⟩
    · exact Or.inl h
    · refine Or.inr (Or.inl ?_)
      have : header.cmds.filter (is_linkedit_segment lp64) = [] := by
        rw [List.filter_eq_nil_iff]
        intro c hc hl
        unfold is_linkedit_segment at hl
        simp only [Bool.and_eq_true, beq_iff_eq] at hl
        exact h c hc ⟨hl.1, (strcmp_eq_zero_iff _ _).1 hl.2⟩
      simp only [this, List.getLast?_nil]
    · refine Or.inr (Or.inr (Or.inl ?_))
      have : header.cmds.filter is_symtab_command = [] := by
        rw [List.filter_eq_nil_iff]
        intro c hc hl
        unfold is_symtab_command at hl
        exact h c hc (beq_iff_eq.1 hl)
      simp only [this, List.getLast?_nil]
    · refine Or.inr (Or.inr (Or.inr (Or.inl ?_)))
      have : header.cmds.filter is_dysymtab_command = [] := by
        rw [List.filter_eq_nil_iff]
        intro c hc hl
        unfold is_dysymtab_command at hl
        exact h c hc (beq_iff_eq.1 hl)
      simp only [this, List.getLast?_nil]
    · exact Or.inr (Or.inr (Or.inr (Or.inr ⟨d, hd, hz⟩)))
  exact ⟨hnone, rebind_symbols_for_image_skip lp64 fuel rebindings header slide cap hnone⟩

/-- Witness of C16: the example image without its `LC_DYSYMTAB` command, and the
chain that holds the request for `write`; with no fuel at all the call returns the
image as it was. -/
theorem C16_resolver_skip_witness :
    (∀ c ∈ ex_image_no_dysymtab.cmds, c.cmd ≠ LC_DYSYMTAB) ∧
    rebind_symbols_for_image true 0 [⟨[⟨str_write, 77, some 5⟩], 1⟩] ex_image_no_dysymtab 0
      ex_cap = some (ex_image_no_dysymtab, ex_cap) :=
  ⟨by decide,
    (C16_resolver_skip true 0 [⟨[⟨str_write, 77, some 5⟩], 1⟩] ex_image_no_dysymtab 0 ex_cap
      (Or.inr (Or.inr (Or.inr (Or.inl (by decide)))))).2⟩

/-! ## C17: the sections the resolver selects -/

theorem perform_rebinding_with_section_flags (lp64 : Bool) (fuel : Nat)
    (rebindings : List rebindings_entry) (sect : section_t) (slide : Int)
    (symtab strtab indirect_symtab : Nat) (mem : linkedit_memory) (cap : captured)
    (sect1 : section_t) (cap1 : captured)
    (h : perform_rebinding_with_section lp64 fuel rebindings sect slide symtab strtab
      indirect_symtab mem cap = some (sect1, cap1)) :
    sect1.flags = sect.flags := by
  unfold perform_rebinding_with_section at h
  split at h
  · exact Option.noConfusion h
  · simp only [Option.some.injEq, Prod.mk.injEq] at h
    rw [← h.1]

theorem engine_runs_append (lp64 : Bool) (fuel : Nat) (rebindings : List rebindings_entry)
    (slide : Int) (symtab strtab indirect_symtab : Nat) (mem : linkedit_memory)
    (B B1 : List section_t) (c1 c2 : captured)
    (hB : engine_runs lp64 fuel rebindings slide symtab strtab indirect_symtab mem B c1 =
      some (B1, c2)) :
    ∀ (A A1 : List section_t) (cap : captured),
      engine_runs lp64 fuel rebindings slide symtab strtab indirect_symtab mem A cap =
        some (A1, c1) →
      engine_runs lp64 fuel rebindings slide symtab strtab indirect_symtab mem (A ++ B) cap =
        some (A1 ++ B1, c2) := by
  intro A
  induction A with
  | nil =>
    intro A1 cap h
    simp only [engine_runs, Option.some.injEq, Prod.mk.injEq] at h
    rw [← h.1, h.2]
    exact hB
  | cons a A ih =>
    intro A1 cap h
    rw [engine_runs] at h
    rw [List.cons_append, engine_runs]
    cases hp : perform_rebinding_with_section lp64 fuel rebindings a slide symtab strtab
        indirect_symtab mem cap with
    | none => rw [hp] at h; exact Option.noConfusion h
    | some r =>
      rcases r with ⟨s1, cp⟩
      rw [hp] at h
      simp only at h ⊢
      cases hr : engine_runs lp64 fuel rebindings slide symtab strtab indirect_symtab mem A
          cp with
      | none => rw [hr] at h; exact Option.noConfusion h
      | some r2 =>
        rcases r2 with ⟨rest1, cq⟩
        rw [hr] at h
        simp only [Option.some.injEq, Prod.mk.injEq] at h
        obtain ⟨h1, h2⟩ := h
        subst h2
        rw [ih rest1 cp hr, ← h1]
        rfl

theorem rebind_sections_runs (lp64 : Bool) (fuel : Nat) (rebindings : List rebindings_entry)
    (slide : Int) (symtab strtab indirect_symtab : Nat) (mem : linkedit_memory) :
    ∀ (sects : List section_t) (cap : captured) (sects1 : List section_t) (cap1 : captured),
      rebind_sections lp64 fuel rebindings slide symtab strtab indirect_symtab mem
        sects cap = some (sects1, cap1) →
      engine_runs lp64 fuel rebindings slide symtab strtab indirect_symtab mem
        (sects.filter is_symbol_pointers) cap =
          some (sects1.filter is_symbol_pointers, cap1) := by
  intro sects
  induction sects with
  | nil =>
    intro cap sects1 cap1 h
    simp only [rebind_sections, Option.some.injEq, Prod.mk.injEq] at h
    rw [← h.1, ← h.2]
    rfl
  | cons sect rest ih =>
    intro cap sects1 cap1 h
    rw [rebind_sections] at h
    have hrun : ∀ s1 c1, is_symbol_pointers sect = true →
        perform_rebinding_with_section lp64 fuel rebindings sect slide symtab strtab
          indirect_symtab mem cap = some (s1, c1) →
        (match rebind_sections lp64 fuel rebindings slide symtab strtab indirect_symtab mem
            rest c1 with
          | none => none
          | some (rest1, cap3) => some (s1 :: rest1, cap3)) = some (sects1, cap1) →
        engine_runs lp64 fuel rebindings slide symtab strtab indirect_symtab mem
          ((sect :: rest).filter is_symbol_pointers) cap =
            some (sects1.filter is_symbol_pointers, cap1) := by
      intro s1 c1 hsp hp h
      have hfl := perform_rebinding_with_section_flags lp64 fuel rebindings sect slide symtab
        strtab indirect_symtab mem cap s1 c1 hp
      have hsp1 : is_symbol_pointers s1 = true := by
        unfold is_symbol_pointers at hsp ⊢
        rw [hfl]; exact hsp
      cases hr : rebind_sections lp64 fuel rebindings slide symtab strtab indirect_symtab
          mem rest c1 with
      | none => rw [hr] at h; exact Option.noConfusion h
      | some r2 =>
        rcases r2 with ⟨rest1, c3⟩
        rw [hr] at h
        simp only [Option.some.injEq, Prod.mk.injEq] at h
        rw [← h.1, ← h.2, List.filter_cons_of_pos hsp, List.filter_cons_of_pos hsp1,
          engine_runs, hp]
        simp only [ih c1 rest1 c3 hr]
    by_cases hlazy : sect.flags &&& SECTION_TYPE = S_LAZY_SYMBOL_POINTERS
    · have hnl : ¬ sect.flags &&& SECTION_TYPE = S_NON_LAZY_SYMBOL_POINTERS := by
        rw [hlazy]; exact lazy_ne_non_lazy
      have hsp : is_symbol_pointers sect = true := by simp [is_symbol_pointers, hlazy]
      rw [if_pos hlazy] at h
      cases hp : perform_rebinding_with_section lp64 fuel rebindings sect slide symtab strtab
          indirect_symtab mem cap with
      | none => rw [hp] at h; exact Option.noConfusion h
      | some r =>
        rcases r with ⟨s1, c1⟩
        have hfl := perform_rebinding_with_section_flags lp64 fuel rebindings sect slide symtab
          strtab indirect_symtab mem cap s1 c1 hp
        rw [hp] at h
        simp only [hfl, if_neg hnl] at h
        exact hrun s1 c1 hsp hp h
    · rw [if_neg hlazy] at h
      simp only at h
      by_cases hnl : sect.flags &&& SECTION_TYPE = S_NON_LAZY_SYMBOL_POINTERS
      · have hsp : is_symbol_pointers sect = true := by simp [is_symbol_pointers, hnl]
        rw [if_pos hnl] at h
        cases hp : perform_rebinding_with_section lp64 fuel rebindings sect slide symtab
            strtab indirect_symtab mem cap with
        | none => rw [hp] at h; exact Option.noConfusion h
        | some r =>
          rcases r with ⟨s1, c1⟩
          rw [hp] at h
          simp only at h
          exact hrun s1 c1 hsp hp h
      · have hsp : is_symbol_pointers sect = false := by simp [is_symbol_pointers, hlazy, hnl]
        rw [if_neg hnl] at h
        simp only at h
        cases hr : rebind_sections lp64 fuel rebindings slide symtab strtab
            indirect_symtab mem rest cap with
        | none => rw [hr] at h; exact Option.noConfusion h
        | some r2 =>
          rcases r2 with ⟨rest1, c3⟩
          rw [hr] at h
          simp only [Option.some.injEq, Prod.mk.injEq] at h
          rw [← h.1, ← h.2, List.filter_cons_of_neg (by simp [hsp]),
            List.filter_cons_of_neg (by simp [hsp])]
          exact ih cap rest1 c3 hr

theorem selected_sections_cons (lp64 : Bool) (c : load_command) (rest : List load_command) :
    selected_sections lp64 (c :: rest) =
      (if is_data_segment lp64 c then c.sects.filter is_symbol_pointers else []) ++
        selected_sections lp64 rest := by
  simp only [selected_sections, List.flatMap_cons]

theorem rebind_commands_runs (lp64 : Bool) (fuel : Nat) (rebindings : List rebindings_entry)
    (slide : Int) (symtab strtab indirect_symtab : Nat) (mem : linkedit_memory) :
    ∀ (cmds : List load_command) (cap : captured) (cmds1 : List load_command) (cap1 : captured),
      rebind_commands lp64 fuel rebindings slide symtab strtab indirect_symtab mem
        cmds cap = some (cmds1, cap1) →
      engine_runs lp64 fuel rebindings slide symtab strtab indirect_symtab mem
        (selected_sections lp64 cmds) cap = some (selected_sections lp64 cmds1, cap1) := by
  intro cmds
  induction cmds with
  | nil =>
    intro cap cmds1 cap1 h
    simp only [rebind_commands, Option.some.injEq, Prod.mk.injEq] at h
    rw [← h.1, ← h.2]
    rfl
  | cons c rest ih =>
    intro cap cmds1 cap1 h
    rw [rebind_commands] at h
    have hkeep : is_data_segment lp64 c = false →
        (match rebind_commands lp64 fuel rebindings slide symtab strtab indirect_symtab mem
            rest cap with
          | none => none
          | some (rest1, cap1) => some (c :: rest1, cap1)) = some (cmds1, cap1) →
        engine_runs lp64 fuel rebindings slide symtab strtab indirect_symtab mem
          (selected_sections lp64 (c :: rest)) cap =
            some (selected_sections lp64 cmds1, cap1) := by
      intro hd h
      cases hr : rebind_commands lp64 fuel rebindings slide symtab strtab indirect_symtab mem
          rest cap with
      | none => rw [hr] at h; exact Option.noConfusion h
      | some r2 =>
        rcases r2 with ⟨rest1, c2⟩
        rw [hr] at h
        simp only [Option.some.injEq, Prod.mk.injEq] at h
        rw [← h.1, ← h.2, selected_sections_cons, selected_sections_cons, hd]
        exact ih cap rest1 c2 hr
    by_cases hd : is_data_segment lp64 c = true
    · have hd1 := (is_data_segment_iff lp64 c).1 hd
      rw [if_pos hd1.1, if_neg hd1.2] at h
      cases hs : rebind_sections lp64 fuel rebindings slide symtab strtab indirect_symtab
          mem c.sects cap with
      | none => rw [hs] at h; exact Option.noConfusion h
      | some r =>
        rcases r with ⟨sects1, c1⟩
        rw [hs] at h
        simp only at h
        cases hr : rebind_commands lp64 fuel rebindings slide symtab strtab indirect_symtab
            mem rest c1 with
        | none => rw [hr] at h; exact Option.noConfusion h
        | some r2 =>
          rcases r2 with ⟨rest1, c2⟩
          rw [hr] at h
          simp only [Option.some.injEq, Prod.mk.injEq] at h
          have hd2 : is_data_segment lp64 { c with sects := sects1 } = true := hd
          rw [← h.1, ← h.2, selected_sections_cons, selected_sections_cons, hd, hd2]
          simp only [if_true]
          exact engine_runs_append lp64 fuel rebindings slide symtab strtab indirect_symtab mem
            _ _ c1 c2 (ih c1 rest1 c2 hr) _ _ cap
            (rebind_sections_runs lp64 fuel rebindings slide symtab strtab indirect_symtab mem
              c.sects cap sects1 c1 hs)
    · have hd0 : is_data_segment lp64 c = false := by
        cases hb : is_data_segment lp64 c with
        | true => exact absurd hb hd
        | false => rfl
      by_cases hcmd : c.cmd = LC_SEGMENT_ARCH_DEPENDENT lp64
      · have hseg : strcmp c.segname SEG_DATA ≠ 0 ∧ strcmp c.segname SEG_DATA_CONST ≠ 0 := by
          by_contra hcon
          exact hd ((is_data_segment_iff lp64 c).2 ⟨hcmd, hcon⟩)
        rw [if_pos hcmd, if_pos hseg] at h
        exact hkeep hd0 h
      · rw [if_neg hcmd] at h
        exact hkeep hd0 h

theorem mem_selected_sections (lp64 : Bool) (cmds : List load_command) (sect : section_t) :
    sect ∈ selected_sections lp64 cmds ↔
      ∃ c ∈ cmds, sect ∈ c.sects ∧ c.cmd = LC_SEGMENT_ARCH_DEPENDENT lp64 ∧
        (cstr c.segname = cstr SEG_DATA ∨ cstr c.segname = cstr SEG_DATA_CONST) ∧
        (sect.flags &&& SECTION_TYPE = S_LAZY_SYMBOL_POINTERS ∨
          sect.flags &&& SECTION_TYPE = S_NON_LAZY_SYMBOL_POINTERS) := by
  unfold selected_sections
  rw [List.mem_flatMap]
  constructor
  · rintro ⟨c, hc, hs⟩
    by_cases hd : is_data_segment lp64 c = true
    · rw [if_pos hd, List.mem_filter] at hs
      unfold is_data_segment at hd
      unfold is_symbol_pointers at hs
      simp only [Bool.and_eq_true, Bool.or_eq_true, beq_iff_eq, strcmp_eq_zero_iff] at hd hs
      exact ⟨c, hc, hs.1, hd.1, hd.2, hs.2⟩
    · rw [if_neg hd] at hs
      exact absurd hs (List.not_mem_nil _)
  · rintro ⟨c, hc, hs, h1, h2, h3⟩
    have hd : is_data_segment lp64 c = true := by
      unfold is_data_segment
      simp only [Bool.and_eq_true, Bool.or_eq_true, beq_iff_eq, strcmp_eq_zero_iff]
      exact ⟨h1, h2⟩
    refine ⟨c, hc, ?_⟩
    rw [if_pos hd, List.mem_filter]
    unfold is_symbol_pointers
    simp only [Bool.or_eq_true, beq_iff_eq]
    exact ⟨hs, h3⟩

/-- C17. Section selection.  For an image that passes the resolver checks, with the
table addresses `t`: the call returns, given fuel above the slot counts and the entry
lengths; whenever it returns, its effect is that of running the engine once on each
section of `selected_sections`, in load-command order and then section order, each run
starting from the memory the previous one left, and the selected sections of the image
afterwards are the results of these runs; every section that is not selected, because
its segment command is not an architecture-dependent one named `__DATA` or
`__DATA_CONST` or because its type is neither `S_LAZY_SYMBOL_POINTERS` nor
`S_NON_LAZY_SYMBOL_POINTERS`, is the same after the call.  The last part spells out
which sections are selected. -/
theorem C17_section_selection (lp64 : Bool) (fuel : Nat) (rebindings : List rebindings_entry)
    (header : mach_header_t) (slide : Int) (cap : captured) (t : table_addresses)
    (ht : image_tables lp64 header slide = some t) :
    (fuel ≤ UINT_RANGE → (∀ cur ∈ rebindings, cur.rebindings_nel < fuel) →
      (∀ c ∈ header.cmds, ∀ sect ∈ c.sects, slot_count lp64 sect < fuel) →
      ∃ res, rebind_symbols_for_image lp64 fuel rebindings header slide cap = some res) ∧
    (∀ header1 cap1,
      rebind_symbols_for_image lp64 fuel rebindings header slide cap = some (header1, cap1) →
      engine_runs lp64 fuel rebindings slide t.symtab t.strtab t.indirect_symtab header.mem
        (selected_sections lp64 header.cmds) cap =
          some (selected_sections lp64 header1.cmds, cap1) ∧
      ∀ c s cmd sect, image_section header c s = some (cmd, sect) →
        ¬ (is_data_segment lp64 cmd = true ∧ is_symbol_pointers sect = true) →
        ∃ cmd1, image_section header1 c s = some (cmd1, sect)) ∧
    (∀ sect, sect ∈ selected_sections lp64 header.cmds ↔
      ∃ c ∈ header.cmds, sect ∈ c.sects ∧ c.cmd = LC_SEGMENT_ARCH_DEPENDENT lp64 ∧
        (cstr c.segname = cstr SEG_DATA ∨ cstr c.segname = cstr SEG_DATA_CONST) ∧
        (sect.flags &&& SECTION_TYPE = S_LAZY_SYMBOL_POINTERS ∨
          sect.flags &&& SECTION_TYPE = S_NON_LAZY_SYMBOL_POINTERS)) := by
  refine ⟨?_, ?_, mem_selected_sections lp64 header.cmds⟩
  · intro h1 h2 h3
    exact rebind_symbols_for_image_returns lp64 fuel rebindings header slide cap h1 h2 h3
  · intro header1 cap1 hrun
    constructor
    · unfold rebind_symbols_for_image at hrun
      rw [ht] at hrun
      simp only at hrun
      cases hc : rebind_commands lp64 fuel rebindings slide t.symtab t.strtab t.indirect_symtab
          header.mem header.cmds cap with
      | none => rw [hc] at hrun; exact Option.noConfusion hrun
      | some r =>
        rcases r with ⟨cmds1, c1⟩
        rw [hc] at hrun
        simp only [Option.some.injEq, Prod.mk.injEq] at hrun
        rw [← hrun.1, ← hrun.2]
        exact rebind_commands_runs lp64 fuel rebindings slide _ _ _ header.mem header.cmds cap
          cmds1 c1 hc
    · intro c s cmd sect hsec hnot
      obtain ⟨hh, -⟩ := rebind_symbols_for_image_eq lp64 fuel rebindings header slide cap
        header1 cap1 hrun
      rw [hh, image_section_image_after, hsec, ht]
      simp only [Option.map_some']
      by_cases hd : is_data_segment lp64 cmd = true
      · have hsp : ¬ is_symbol_pointers sect = true := fun h => hnot ⟨hd, h⟩
        refine ⟨command_after lp64 rebindings header.mem t cmd, ?_⟩
        rw [if_pos hd]
        unfold section_after
        rw [if_neg hsp]
      · refine ⟨command_after lp64 rebindings header.mem t cmd, ?_⟩
        rw [if_neg hd]

/-- Witness of C17: the example image with a lazy symbol pointer section, a section
of another type and a non-lazy symbol pointer section in its `__DATA` segment; the
engine runs on the first and the third, and the second is unchanged. -/
theorem C17_section_selection_witness :
    image_tables true (ex_image [ex_section, ex_plain, ex_got]) 0 = some ex_tables ∧
    selected_sections true (ex_image [ex_section, ex_plain, ex_got]).cmds =
      [ex_section, ex_got] ∧
    ∃ header1 cap1,
      rebind_symbols_for_image true 10 [⟨[⟨str_write, 77, some 5⟩], 1⟩]
        (ex_image [ex_section, ex_plain, ex_got]) 0 ex_cap = some (header1, cap1) ∧
      engine_runs true 10 [⟨[⟨str_write, 77, some 5⟩], 1⟩] 0 ex_tables.symtab ex_tables.strtab
        ex_tables.indirect_symtab ex_mem [ex_section, ex_got] ex_cap =
          some (selected_sections true header1.cmds, cap1) ∧
      (∃ cmd1, image_section header1 3 1 = some (cmd1, ex_plain)) ∧
      slot_value ⟨[], [(header1, 0)], 0, cap1⟩ 0 3 0 2 = some 77 ∧
      slot_value ⟨[], [(header1, 0)], 0, cap1⟩ 0 3 2 2 = some 77 := by
  have h := (C17_section_selection true 10 [⟨[⟨str_write, 77, some 5⟩], 1⟩]
    (ex_image [ex_section, ex_plain, ex_got]) 0 ex_cap ex_tables rfl).2.1
  refine ⟨rfl, rfl, _, _, rfl, ?_, ?_, by decide, by decide⟩
  · exact (h _ _ rfl).1
  · exact (h _ _ rfl).2 3 1 _ ex_plain rfl (by decide)

/-! ## C18: the addresses of the tables -/

theorem linkedit_base_cast (lp64 : Bool) (slide : Int) (c : load_command) :
    (linkedit_base lp64 slide c : Int) =
      (slide + (c.vmaddr : Int) - (c.fileoff : Int)) % (UINTPTR_RANGE lp64 : Int) := by
  unfold linkedit_base
  have hpos : (UINTPTR_RANGE lp64 : Int) ≠ 0 := by
    unfold UINTPTR_RANGE
    exact_mod_cast (Nat.pow_pos (by decide : 0 < 2)).ne'
  exact Int.toNat_of_nonneg (Int.emod_nonneg _ hpos)

theorem linkedit_base_lt (lp64 : Bool) (slide : Int) (c : load_command) :
    linkedit_base lp64 slide c < UINTPTR_RANGE lp64 := by
  have hpos : (0 : Int) < (UINTPTR_RANGE lp64 : Int) := by
    unfold UINTPTR_RANGE
    exact_mod_cast (Nat.pow_pos (by decide : 0 < 2))
  have h := Int.emod_lt_of_pos (slide + (c.vmaddr : Int) - (c.fileoff : Int)) hpos
  rw [← linkedit_base_cast] at h
  exact_mod_cast h

theorem image_tables_some (lp64 : Bool) (header : mach_header_t) (slide : Int)
    (t : table_addresses) (ht : image_tables lp64 header slide = some t) :
    ∃ linkedit_segment symtab_cmd dysymtab_cmd,
      (find_commands lp64 header.cmds).linkedit_segment = some linkedit_segment ∧
      (find_commands lp64 header.cmds).symtab_cmd = some symtab_cmd ∧
      (find_commands lp64 header.cmds).dysymtab_cmd = some dysymtab_cmd ∧
      header.known = true ∧ dysymtab_cmd.nindirectsyms ≠ 0 ∧
      t = { symtab := table_address lp64 (linkedit_base lp64 slide linkedit_segment)
              symtab_cmd.symoff
            strtab := table_address lp64 (linkedit_base lp64 slide linkedit_segment)
              symtab_cmd.stroff
            indirect_symtab := table_address lp64 (linkedit_base lp64 slide linkedit_segment)
              dysymtab_cmd.indirectsymoff } := by
  unfold image_tables at ht
  by_cases hk : header.known = false
  · rw [if_pos hk] at ht; exact Option.noConfusion ht
  · rw [if_neg hk] at ht
    cases h1 : (find_commands lp64 header.cmds).symtab_cmd with
    | none => rw [h1] at ht; exact Option.noConfusion ht
    | some a =>
      cases h2 : (find_commands lp64 header.cmds).dysymtab_cmd with
      | none => rw [h1, h2] at ht; exact Option.noConfusion ht
      | some b =>
        cases h3 : (find_commands lp64 header.cmds).linkedit_segment with
        | none => rw [h1, h2, h3] at ht; exact Option.noConfusion ht
        | some c =>
          rw [h1, h2, h3] at ht
          simp only at ht
          by_cases hz : b.nindirectsyms = 0
          · rw [if_pos hz] at ht; exact Option.noConfusion ht
          · rw [if_neg hz] at ht
            simp only [Option.some.injEq] at ht
            refine ⟨c, a, b, rfl, rfl, rfl, ?_, hz, ht.symm⟩
            cases hb : header.known with
            | true => rfl
            | false => exact absurd hb hk

/-- C18. Table addresses.  For an image that passes the resolver checks, with the
table addresses `t` the resolver computes: the segment command, the `LC_SYMTAB`
command and the `LC_DYSYMTAB` command that are used are the last of their kind in the
list of load commands; the base is `slide + vmaddr - fileoff` of that segment command
modulo `2 ^ w`, with `w` the pointer width, 64 or 32; the three tables lie at the base
plus `symoff`, `stroff` and `indirectsymoff`, modulo `2 ^ w`; these are the addresses
handed to the second loop and so to the engine, and the addresses at which the engine
reads the entry, the symbol and the name of a slot. -/
theorem C18_table_addresses (lp64 : Bool) (header : mach_header_t) (slide : Int)
    (t : table_addresses) (ht : image_tables lp64 header slide = some t) :
    ∃ linkedit_segment symtab_cmd dysymtab_cmd,
      (header.cmds.filter (is_linkedit_segment lp64)).getLast? = some linkedit_segment ∧
      (header.cmds.filter is_symtab_command).getLast? = some symtab_cmd ∧
      (header.cmds.filter is_dysymtab_command).getLast? = some dysymtab_cmd ∧
      UINTPTR_RANGE lp64 = 2 ^ (if lp64 then 64 else 32) ∧
      (linkedit_base lp64 slide linkedit_segment : Int) =
        (slide + (linkedit_segment.vmaddr : Int) - (linkedit_segment.fileoff : Int)) %
          (UINTPTR_RANGE lp64 : Int) ∧
      t.symtab =
        (linkedit_base lp64 slide linkedit_segment + symtab_cmd.symoff) % UINTPTR_RANGE lp64 ∧
      t.strtab =
        (linkedit_base lp64 slide linkedit_segment + symtab_cmd.stroff) % UINTPTR_RANGE lp64 ∧
      t.indirect_symtab =
        (linkedit_base lp64 slide linkedit_segment + dysymtab_cmd.indirectsymoff) %
          UINTPTR_RANGE lp64 ∧
      (∀ fuel rebindings cap,
        rebind_symbols_for_image lp64 fuel rebindings header slide cap =
          match rebind_commands lp64 fuel rebindings slide t.symtab t.strtab t.indirect_symtab
              header.mem header.cmds cap with
          | none => none
          | some (cmds1, cap1) => some ({ header with cmds := cmds1 }, cap1)) ∧
      (∀ reserved1 i,
        slot_symbol lp64 header.mem t reserved1 i =
          if is_skipped (header.mem.u32_at (t.indirect_symtab + 4 * (reserved1 + i)) % 2 ^ 32)
          then none
          else some (header.mem.bytes_at (t.strtab +
            (header.mem.nlist_at (t.symtab + sizeof_nlist lp64 *
              (header.mem.u32_at (t.indirect_symtab + 4 * (reserved1 + i)) % 2 ^ 32))).n_strx %
                2 ^ 32))) := by
  obtain ⟨l, s, d, h1, h2, h3, -, -, heq⟩ := image_tables_some lp64 header slide t ht
  rw [find_commands_eq] at h1 h2 h3
  refine ⟨l, s, d, h1, h2, h3, ?_, linkedit_base_cast lp64 slide l, ?_, ?_, ?_, ?_, ?_⟩
  · cases lp64 <;> rfl
  · rw [heq]; rfl
  · rw [heq]; rfl
  · rw [heq]; rfl
  · intro fuel rebindings cap
    unfold rebind_symbols_for_image
    rw [ht]
  · intro reserved1 i
    rfl

/-- Witness of C18: the image `ex_image_doubled` with the slide `-4096`; the last
`__LINKEDIT` segment gives the base `-4096 + 20480 - 16384 = 0`, and the last
`LC_SYMTAB` and `LC_DYSYMTAB` commands give the tables at 2000, 3000 and 1000. -/
theorem C18_table_addresses_witness :
    image_tables true ex_image_doubled (-4096) = some ex_tables ∧
    (∃ linkedit_segment symtab_cmd dysymtab_cmd,
      (ex_image_doubled.cmds.filter (is_linkedit_segment true)).getLast? =
        some linkedit_segment ∧
      (ex_image_doubled.cmds.filter is_symtab_command).getLast? = some symtab_cmd ∧
      (ex_image_doubled.cmds.filter is_dysymtab_command).getLast? = some dysymtab_cmd ∧
      ex_tables.symtab =
        (linkedit_base true (-4096) linkedit_segment + symtab_cmd.symoff) %
          UINTPTR_RANGE true ∧
      ex_tables.strtab =
        (linkedit_base true (-4096) linkedit_segment + symtab_cmd.stroff) %
          UINTPTR_RANGE true ∧
      ex_tables.indirect_symtab =
        (linkedit_base true (-4096) linkedit_segment + dysymtab_cmd.indirectsymoff) %
          UINTPTR_RANGE true) ∧
    ((ex_image_doubled.cmds.filter (is_linkedit_segment true)).getLast?.map
      fun c => c.vmaddr) = some 20480 ∧
    ((ex_image_doubled.cmds.filter is_symtab_command).getLast?.map
      fun c => c.symoff) = some 2000 ∧
    ((ex_image_doubled.cmds.filter is_dysymtab_command).getLast?.map
      fun c => c.indirectsymoff) = some 1000 := by
  obtain ⟨l, s, d, h1, h2, h3, -, -, h4, h5, h6, -⟩ :=
    C18_table_addresses true ex_image_doubled (-4096) ex_tables (by decide)
  exact ⟨by decide, ⟨l, s, d, h1, h2, h3, h4, h5, h6⟩, by decide, by decide, by decide⟩

/-! ## C19: the sentinel test -/

/-- C19. Exact sentinel test.  The entry `indirect_table[reserved1 + i]` makes the
engine skip slot `i` if and only if it is exactly `INDIRECT_SYMBOL_ABS`, exactly
`INDIRECT_SYMBOL_LOCAL` or exactly `INDIRECT_SYMBOL_LOCAL | INDIRECT_SYMBOL_ABS`; the
combined value differs from both sentinels and is skipped; a sentinel bit together
with other bits is not skipped.  Whenever the engine returns, a skipped slot holds
its previous value, and for any other entry the entry is used as the index into the
symbol table: the slot holds the replacement of the first request that matches the
name read through that index, or its previous value when there is none. -/
theorem C19_exact_sentinel_test (lp64 : Bool) (fuel : Nat) (rebindings : List rebindings_entry)
    (sect : section_t) (slide : Int) (t : table_addresses) (mem : linkedit_memory)
    (cap : captured) :
    (∀ x, is_skipped x = true ↔
      (x = INDIRECT_SYMBOL_ABS ∨ x = INDIRECT_SYMBOL_LOCAL ∨
        x = (INDIRECT_SYMBOL_LOCAL ||| INDIRECT_SYMBOL_ABS))) ∧
    ((INDIRECT_SYMBOL_LOCAL ||| INDIRECT_SYMBOL_ABS) ≠ INDIRECT_SYMBOL_ABS ∧
      (INDIRECT_SYMBOL_LOCAL ||| INDIRECT_SYMBOL_ABS) ≠ INDIRECT_SYMBOL_LOCAL ∧
      is_skipped (INDIRECT_SYMBOL_LOCAL ||| INDIRECT_SYMBOL_ABS) = true) ∧
    (is_skipped (INDIRECT_SYMBOL_ABS ||| 3) = false ∧
      is_skipped (INDIRECT_SYMBOL_LOCAL ||| 1) = false ∧
      is_skipped (INDIRECT_SYMBOL_LOCAL ||| INDIRECT_SYMBOL_ABS ||| 1) = false) ∧
    (∀ sect1 cap1,
      perform_rebinding_with_section lp64 fuel rebindings sect slide t.symtab t.strtab
        t.indirect_symtab mem cap = some (sect1, cap1) →
      ∀ i, i < slot_count lp64 sect →
        sect1.indirect_symbol_bindings i =
          if symtab_index_of mem t.indirect_symtab sect.reserved1 i = INDIRECT_SYMBOL_ABS ∨
              symtab_index_of mem t.indirect_symtab sect.reserved1 i = INDIRECT_SYMBOL_LOCAL ∨
              symtab_index_of mem t.indirect_symtab sect.reserved1 i =
                (INDIRECT_SYMBOL_LOCAL ||| INDIRECT_SYMBOL_ABS) then
            sect.indirect_symbol_bindings i
          else
            match chain_lookup (symbol_name_of lp64 mem t.symtab t.strtab
                (symtab_index_of mem t.indirect_symtab sect.reserved1 i)) rebindings with
            | some r => r.replacement
            | none => sect.indirect_symbol_bindings i) := by
  refine ⟨is_skipped_iff, ⟨by decide, by decide, by decide⟩, ⟨by decide, by decide, by decide⟩,
    ?_⟩
  intro sect1 cap1 hrun i hi
  obtain ⟨-, hsect, -⟩ := perform_rebinding_with_section_eq lp64 fuel rebindings sect slide t
    mem cap sect1 cap1 hrun
  rw [hsect]
  simp only [engine_after, if_pos hi, binding_after, slot_lookup, slot_symbol]
  by_cases hsk : is_skipped (symtab_index_of mem t.indirect_symtab sect.reserved1 i) = true
  · rw [if_pos hsk, if_pos ((is_skipped_iff _).1 hsk)]
  · rw [if_neg hsk, if_neg (fun h => hsk ((is_skipped_iff _).2 h))]

/-- Example for C19: in the tables `ex_mem_flagged` slot 0 of the first example
section has the entry `INDIRECT_SYMBOL_ABS ||| 3`, which is used as an index and
leads to `_write`, so the slot receives 77; slot 1 has the combined value and keeps
101; slot 2 resolves to `_write` through the index 3. -/
theorem C19_exact_sentinel_test_witness :
    ∃ sect1 cap1,
      perform_rebinding_with_section true 10 [⟨[⟨str_write, 77, none⟩], 1⟩] ex_section 0
        ex_tables.symtab ex_tables.strtab ex_tables.indirect_symtab ex_mem_flagged ex_cap =
          some (sect1, cap1) ∧
      symtab_index_of ex_mem_flagged ex_tables.indirect_symtab ex_section.reserved1 0 =
        (INDIRECT_SYMBOL_ABS ||| 3) ∧
      symtab_index_of ex_mem_flagged ex_tables.indirect_symtab ex_section.reserved1 1 =
        (INDIRECT_SYMBOL_LOCAL ||| INDIRECT_SYMBOL_ABS) ∧
      sect1.indirect_symbol_bindings 0 = 77 ∧
      sect1.indirect_symbol_bindings 1 = 101 ∧
      sect1.indirect_symbol_bindings 2 = 77 ∧
      sect1.indirect_symbol_bindings 3 = 103 := by
  have h := (C19_exact_sentinel_test true 10 [⟨[⟨str_write, 77, none⟩], 1⟩] ex_section 0
    ex_tables ex_mem_flagged ex_cap).2.2.2
  refine ⟨_, _, rfl, by decide, by decide, ?_, ?_, by decide, by decide⟩
  · rw [h _ _ rfl 0 (by decide)]
    decide
  · rw [h _ _ rfl 1 (by decide)]
    decide

/-! ## C20: a hook on a hook -/

theorem perform_single_slot (lp64 : Bool) (fuel : Nat) (rebindings : List rebindings_entry)
    (sect : section_t) (slide : Int) (t : table_addresses) (mem : linkedit_memory)
    (cap : captured) (k : Nat) (r : rebinding)
    (hk : k < slot_count lp64 sect)
    (hlk : slot_lookup lp64 rebindings mem t sect.reserved1 k = some r)
    (hlj : ∀ j, j < slot_count lp64 sect → j ≠ k →
      slot_lookup lp64 rebindings mem t sect.reserved1 j = none)
    (sect1 : section_t) (cap1 : captured)
    (hrun : perform_rebinding_with_section lp64 fuel rebindings sect slide t.symtab t.strtab
      t.indirect_symtab mem cap = some (sect1, cap1)) :
    sect1.reserved1 = sect.reserved1 ∧ sect1.size = sect.size ∧
    sect1.indirect_symbol_bindings k = r.replacement ∧
    (∀ j, j ≠ k → sect1.indirect_symbol_bindings j = sect.indirect_symbol_bindings j) ∧
    (∀ c, r.replaced = some c → sect.indirect_symbol_bindings k ≠ r.replacement →
      cap1 = write_replaced cap k c (sect.indirect_symbol_bindings k)) ∧
    ((r.replaced = none ∨ sect.indirect_symbol_bindings k = r.replacement) → cap1 = cap) := by
  obtain ⟨-, hs, hc⟩ := perform_rebinding_with_section_eq lp64 fuel _ sect slide t mem cap
    sect1 cap1 hrun
  have hw : (List.range (slot_count lp64 sect)).flatMap (fun i =>
      slot_writes lp64 rebindings mem t sect.reserved1 i (sect.indirect_symbol_bindings i)) =
      slot_writes lp64 rebindings mem t sect.reserved1 k (sect.indirect_symbol_bindings k) := by
    rw [flatMap_range_single _ k _ (fun j hj hjk => by simp [slot_writes, hlj j hj hjk]),
      if_pos hk]
  refine ⟨by rw [hs], by rw [hs], ?_, ?_, ?_, ?_⟩
  · rw [hs]; simp [engine_after, hk, binding_after, hlk]
  · intro j hjk
    rw [hs]
    by_cases hj : j < slot_count lp64 sect
    · simp [engine_after, hj, binding_after, hlj j hj hjk]
    · simp [engine_after, hj]
  · intro c hrc hne
    rw [hc]
    simp only [engine_after]
    rw [hw]
    simp only [slot_writes, hlk, hrc, if_pos hne]
    rfl
  · intro h
    rw [hc]
    simp only [engine_after]
    rw [hw]
    simp only [slot_writes, hlk]
    cases hrc : r.replaced with
    | none => rfl
    | some c =>
      rcases h with h | h
      · rw [hrc] at h; exact Option.noConfusion h
      · simp only [h, ne_eq, not_true_eq_false, if_false]; rfl

/-- C20 (amended). Hook chaining.  Let `n` be a name that is not empty, `R1 ≠ R2`, the
cells `c1` and `c2` behind the two `replaced` pointers distinct, and slot `k` the only
slot of the section that resolves to a marker character followed by `n`, holding a
value `V ≠ R1`.  When the engine runs on the section with the chain of the request
`(n, R1, c1)` and then with the chain of `(n, R2, c2)` followed by `(n, R1, c1)`, both
runs return (given fuel above the slot count), and afterwards slot `k` holds `R2`,
cell `c2` holds `R1` and cell `c1` holds `V`; every other slot holds its first
value. -/
theorem C20_hook_chaining (lp64 : Bool) (fuel : Nat) (sect : section_t) (slide : Int)
    (t : table_addresses) (mem : linkedit_memory) (cap : captured)
    (n : List Nat) (R1 R2 c1 c2 k : Nat)
    (hk : k < slot_count lp64 sect)
    (hn : cstr n ≠ [])
    (hres : slot_names lp64 mem t sect.reserved1 k n = true)
    (honly : ∀ j, j < slot_count lp64 sect → j ≠ k →
      slot_names lp64 mem t sect.reserved1 j n = false)
    (hR : R1 ≠ R2) (hV : sect.indirect_symbol_bindings k ≠ R1) (hc : c1 ≠ c2) :
    (slot_count lp64 sect < fuel → 1 < fuel → fuel ≤ UINT_RANGE →
      ∃ sect1 cap1 sect2 cap2,
        perform_rebinding_with_section lp64 fuel [⟨[⟨n, R1, some c1⟩], 1⟩] sect slide
          t.symtab t.strtab t.indirect_symtab mem cap = some (sect1, cap1) ∧
        perform_rebinding_with_section lp64 fuel
          [⟨[⟨n, R2, some c2⟩], 1⟩, ⟨[⟨n, R1, some c1⟩], 1⟩] sect1 slide
          t.symtab t.strtab t.indirect_symtab mem cap1 = some (sect2, cap2)) ∧
    ∀ sect1 cap1 sect2 cap2,
      perform_rebinding_with_section lp64 fuel [⟨[⟨n, R1, some c1⟩], 1⟩] sect slide
        t.symtab t.strtab t.indirect_symtab mem cap = some (sect1, cap1) →
      perform_rebinding_with_section lp64 fuel
        [⟨[⟨n, R2, some c2⟩], 1⟩, ⟨[⟨n, R1, some c1⟩], 1⟩] sect1 slide
        t.symtab t.strtab t.indirect_symtab mem cap1 = some (sect2, cap2) →
      sect2.indirect_symbol_bindings k = R2 ∧
      cap2.cells c2 = R1 ∧
      cap2.cells c1 = sect.indirect_symbol_bindings k ∧
      ∀ j, j ≠ k → sect2.indirect_symbol_bindings j = sect.indirect_symbol_bindings j := by
  have hl1 : slot_lookup lp64 [⟨[⟨n, R1, some c1⟩], 1⟩] mem t sect.reserved1 k =
      some ⟨n, R1, some c1⟩ :=
    slot_lookup_cons_single lp64 ⟨n, R1, some c1⟩ [] mem t sect.reserved1 k hn hres
  have hl2 : slot_lookup lp64 [⟨[⟨n, R2, some c2⟩], 1⟩, ⟨[⟨n, R1, some c1⟩], 1⟩] mem t
      sect.reserved1 k = some ⟨n, R2, some c2⟩ :=
    slot_lookup_cons_single lp64 ⟨n, R2, some c2⟩ _ mem t sect.reserved1 k hn hres
  have hnone : ∀ (rebindings : List rebindings_entry),
      (∀ cur ∈ rebindings, ∀ r ∈ cur.rebindings, r.name = n) →
      ∀ j, j < slot_count lp64 sect → j ≠ k →
        slot_lookup lp64 rebindings mem t sect.reserved1 j = none := by
    intro rebindings hall j hj hjk
    apply slot_lookup_none_of_names
    intro cur hcur r hr
    rw [hall cur hcur r hr]
    exact honly j hj hjk
  have hall1 : ∀ cur ∈ [(⟨[⟨n, R1, some c1⟩], 1⟩ : rebindings_entry)],
      ∀ r ∈ cur.rebindings, r.name = n := by
    intro cur hcur r hr
    simp only [List.mem_singleton] at hcur
    subst hcur
    simp only [List.mem_singleton] at hr
    rw [hr]
  have hall2 : ∀ cur ∈ [(⟨[⟨n, R2, some c2⟩], 1⟩ : rebindings_entry),
      ⟨[⟨n, R1, some c1⟩], 1⟩], ∀ r ∈ cur.rebindings, r.name = n := by
    intro cur hcur r hr
    simp only [List.mem_cons, List.mem_singleton, List.not_mem_nil, or_false] at hcur
    rcases hcur with hcur | hcur
    · subst hcur
      simp only [List.mem_singleton] at hr
      rw [hr]
    · subst hcur
      simp only [List.mem_singleton] at hr
      rw [hr]
  constructor
  · intro h1 h2 h3
    obtain ⟨⟨sect1, cap1⟩, hrun1⟩ := perform_rebinding_with_section_returns lp64 fuel
      [⟨[⟨n, R1, some c1⟩], 1⟩] sect slide t.symtab t.strtab t.indirect_symtab mem cap h3
      (by
        intro cur hcur
        simp only [List.mem_singleton] at hcur
        subst hcur
        exact h2) h1
    obtain ⟨-, hsize, -⟩ := perform_single_slot lp64 fuel _ sect slide t mem cap k _ hk hl1
      (hnone _ hall1) sect1 cap1 hrun1
    obtain ⟨⟨sect2, cap2⟩, hrun2⟩ := perform_rebinding_with_section_returns lp64 fuel
      [⟨[⟨n, R2, some c2⟩], 1⟩, ⟨[⟨n, R1, some c1⟩], 1⟩] sect1 slide t.symtab t.strtab
      t.indirect_symtab mem cap1 h3
      (by
        intro cur hcur
        simp only [List.mem_cons, List.mem_singleton, List.not_mem_nil, or_false] at hcur
        rcases hcur with hcur | hcur
        · subst hcur; exact h2
        · subst hcur; exact h2)
      (by unfold slot_count at h1 ⊢; rw [hsize]; exact h1)
    exact ⟨sect1, cap1, sect2, cap2, hrun1, hrun2⟩
  · intro sect1 cap1 sect2 cap2 hrun1 hrun2
    obtain ⟨hres1, hsize1, hb1, hother1, hw1, -⟩ := perform_single_slot lp64 fuel _ sect slide
      t mem cap k _ hk hl1 (hnone _ hall1) sect1 cap1 hrun1
    have hcount : slot_count lp64 sect1 = slot_count lp64 sect := by
      unfold slot_count; rw [hsize1]
    have hk1 : k < slot_count lp64 sect1 := by rw [hcount]; exact hk
    have hl2a : slot_lookup lp64 [⟨[⟨n, R2, some c2⟩], 1⟩, ⟨[⟨n, R1, some c1⟩], 1⟩] mem t
        sect1.reserved1 k = some ⟨n, R2, some c2⟩ := by rw [hres1]; exact hl2
    have hnone2 : ∀ j, j < slot_count lp64 sect1 → j ≠ k →
        slot_lookup lp64 [⟨[⟨n, R2, some c2⟩], 1⟩, ⟨[⟨n, R1, some c1⟩], 1⟩] mem t
          sect1.reserved1 j = none := by
      intro j hj hjk
      rw [hres1]
      rw [hcount] at hj
      exact hnone _ hall2 j hj hjk
    obtain ⟨-, -, hb2, hother2, hw2, -⟩ := perform_single_slot lp64 fuel _ sect1 slide
      t mem cap1 k _ hk1 hl2a hnone2 sect2 cap2 hrun2
    have hcap1 := hw1 c1 rfl hV
    have hcap2 := hw2 c2 rfl (by rw [hb1]; exact hR)
    refine ⟨hb2, ?_, ?_, ?_⟩
    · rw [hcap2, hb1]
      simp [write_replaced]
    · rw [hcap2, hcap1]
      simp [write_replaced, hc]
    · intro j hjk
      rw [hother2 j hjk, hother1 j hjk]

/-- Witness of C20: the first example section, whose slot 2 alone resolves to
`_write` and holds 102; the replacements 77 and 78 and the cells 1 and 2. -/
theorem C20_hook_chaining_witness :
    ∃ sect1 cap1 sect2 cap2,
      perform_rebinding_with_section true 10 [⟨[⟨str_write, 77, some 1⟩], 1⟩] ex_section 0
        ex_tables.symtab ex_tables.strtab ex_tables.indirect_symtab ex_mem ex_cap =
          some (sect1, cap1) ∧
      perform_rebinding_with_section true 10
        [⟨[⟨str_write, 78, some 2⟩], 1⟩, ⟨[⟨str_write, 77, some 1⟩], 1⟩] sect1 0
        ex_tables.symtab ex_tables.strtab ex_tables.indirect_symtab ex_mem cap1 =
          some (sect2, cap2) ∧
      sect2.indirect_symbol_bindings 2 = 78 ∧ cap2.cells 2 = 77 ∧ cap2.cells 1 = 102 := by
  have h := (C20_hook_chaining true 10 ex_section 0 ex_tables ex_mem ex_cap str_write 77 78 1 2 2
    (by decide) (by decide) (by decide) (by decide) (by decide) (by decide) (by decide)).2
  refine ⟨_, _, _, _, rfl, rfl, ?_⟩
  obtain ⟨h1, h2, h3, -⟩ := h _ _ _ _ rfl rfl
  exact ⟨h1, h2, h3⟩

/-- Counterexamples to C20 as stated.  (1) The empty name: slot 0 of the second
example section resolves to the marker alone and holds 200; after the two runs it
still holds 200, not 78, and cell 2 holds 0, not 77.  (2) Two slots for the name:
slots 0 and 4 of `ex_section_two` resolve to `_write`; slot 0 holds 100 at first,
and after the two runs cell 1 holds 104, the first value of slot 4, not 100.  (3) One
cell behind both `replaced` pointers: after the two runs on the first example section
cell 1 holds 77, not the first value 102 of slot 2. -/
theorem C20_counterexample :
    (slot_names true ex_mem ex_tables ex_got.reserved1 0 [] = true ∧
      ex_got.indirect_symbol_bindings 0 = 200 ∧
      ∃ sect1 cap1 sect2 cap2,
        perform_rebinding_with_section true 10 [⟨[⟨[], 77, some 1⟩], 1⟩] ex_got 0
          ex_tables.symtab ex_tables.strtab ex_tables.indirect_symtab ex_mem ex_cap =
            some (sect1, cap1) ∧
        perform_rebinding_with_section true 10
          [⟨[⟨[], 78, some 2⟩], 1⟩, ⟨[⟨[], 77, some 1⟩], 1⟩] sect1 0
          ex_tables.symtab ex_tables.strtab ex_tables.indirect_symtab ex_mem cap1 =
            some (sect2, cap2) ∧
        sect2.indirect_symbol_bindings 0 = 200 ∧ cap2.cells 2 = 0) ∧
    (slot_names true ex_mem ex_tables ex_section_two.reserved1 0 str_write = true ∧
      slot_names true ex_mem ex_tables ex_section_two.reserved1 4 str_write = true ∧
      ex_section_two.indirect_symbol_bindings 0 = 100 ∧
      ∃ sect1 cap1 sect2 cap2,
        perform_rebinding_with_section true 10 [⟨[⟨str_write, 77, some 1⟩], 1⟩] ex_section_two 0
          ex_tables.symtab ex_tables.strtab ex_tables.indirect_symtab ex_mem ex_cap =
            some (sect1, cap1) ∧
        perform_rebinding_with_section true 10
          [⟨[⟨str_write, 78, some 2⟩], 1⟩, ⟨[⟨str_write, 77, some 1⟩], 1⟩] sect1 0
          ex_tables.symtab ex_tables.strtab ex_tables.indirect_symtab ex_mem cap1 =
            some (sect2, cap2) ∧
        sect2.indirect_symbol_bindings 0 = 78 ∧ cap2.cells 2 = 77 ∧ cap2.cells 1 = 104) ∧
    (slot_names true ex_mem ex_tables ex_section.reserved1 2 str_write = true ∧
      ex_section.indirect_symbol_bindings 2 = 102 ∧
      ∃ sect1 cap1 sect2 cap2,
        perform_rebinding_with_section true 10 [⟨[⟨str_write, 77, some 1⟩], 1⟩] ex_section 0
          ex_tables.symtab ex_tables.strtab ex_tables.indirect_symtab ex_mem ex_cap =
            some (sect1, cap1) ∧
        perform_rebinding_with_section true 10
          [⟨[⟨str_write, 78, some 1⟩], 1⟩, ⟨[⟨str_write, 77, some 1⟩], 1⟩] sect1 0
          ex_tables.symtab ex_tables.strtab ex_tables.indirect_symtab ex_mem cap1 =
            some (sect2, cap2) ∧
        sect2.indirect_symbol_bindings 2 = 78 ∧ cap2.cells 1 = 77) :=
  ⟨⟨by decide, by decide, _, _, _, _, rfl, rfl, by decide, by decide⟩,
    ⟨by decide, by decide, by decide, _, _, _, _, rfl, rfl, by decide, by decide, by decide⟩,
    ⟨by decide, by decide, _, _, _, _, rfl, rfl, by decide, by decide⟩⟩

end Fishhook
